import Mathlib

/-!
# LibreVNA trace engine: sample store and transform chain

A shallow embedding of `Software/PC_Application/Traces/trace.cpp` and of the bit fields
of `Software/PC_Application/Device/RegisterAccess/register.cpp`.

Conventions of the embedding:

* `double` coordinates and the real and imaginary parts of `std::complex<double>`
  are finite values compared exactly; they are embedded as rationals.
* A `std::vector` is a `List`; an iterator difference is a `Nat` index.
* A Qt signal emission is appended to the `signals` log of the trace.
* A `TraceMath*` is a `MathRef`: the trace itself (`this`) or a transform object
  identified by a number.
* The `unsigned int` sum `index + 1` of `swapMathOrder`, which is formed before any
  bound check, is reduced modulo `2^32`.
* An out-of-range `operator[]`, a failed `Q_ASSERT`, a conversion of a value that
  `unsigned int` cannot hold and a shift by a negative count or by the width of the
  type are faults (`Except Fault`).
* The other traces of the application are a function from trace number to trace state;
  a recursion across traces takes a bound on its depth and ends in the fault
  `Fault.recursion` when the bound is used up.
-/

namespace LibreVNA

/-! ## Data model -/

/-- A `std::complex<double>` value with exact parts. -/
structure Cplx where
  re : ℚ
  im : ℚ
deriving DecidableEq, Repr

namespace Cplx

/-- Squared magnitude `re² + im²`; `std::abs` is its square root. -/
def normSq (z : Cplx) : ℚ := z.re * z.re + z.im * z.im

/-- The comparison `abs(a) < abs(b)` of trace.cpp, decided on the squared magnitudes
(the square root is strictly monotone on non-negative numbers, see `abs_lt_iff`). -/
def absLt (a b : Cplx) : Bool := decide (a.normSq < b.normSq)

/-- Embedding of a real number as a complex value. -/
def ofReal (r : ℚ) : Cplx := ⟨r, 0⟩

end Cplx

/-- Value of `Trace::Data`: one sample, coordinate `x` and complex value `y`. -/
structure Data where
  x : ℚ
  y : Cplx
deriving DecidableEq, Repr

/-- Value-initialised `Data`, what `std::vector::resize` fills new cells with. -/
def Data.zero : Data := ⟨0, ⟨0, 0⟩⟩

/-- Coordinate-axis kind (`TraceMath::DataType`). -/
inductive DataType where
  | Frequency
  | Time
  | Power
  | TimeZeroSpan
deriving DecidableEq, Repr

/-- Origin of the samples (`Trace::Source`). -/
inductive Source where
  | Live
  | File
  | Math
  | Calibration
deriving DecidableEq, Repr

/-- Merge policy of a write at an existing coordinate (`Trace::LivedataType`). -/
inductive LivedataType where
  | Overwrite
  | MaxHold
  | MinHold
  | Invalid
deriving DecidableEq, Repr

/-- Measured parameter of a live trace (`Trace::LiveParameter`). -/
inductive LiveParameter where
  | S11
  | S12
  | S21
  | S22
  | Port1
  | Port2
  | Invalid
deriving DecidableEq, Repr

/-- A `TraceMath*`: the trace itself (`this`, the identity node of the chain) or a
transform object. -/
inductive MathRef where
  | self
  | op (id : Nat)
deriving DecidableEq, Repr

/-- One entry of `mathOps` (`Trace::MathInfo`). -/
structure MathInfo where
  math : MathRef
  enabled : Bool
deriving DecidableEq, Repr

/-- Status reported through `TraceMath::success`, `warning` and `error`. -/
inductive Status where
  | Ok
  | Warning (msg : String)
  | Error (msg : String)
deriving DecidableEq, Repr

/-- Qt signals emitted by a trace. -/
inductive Signal where
  | cleared
  | outputSamplesChanged (b e : Nat)
  | typeChanged
  | pauseChanged
  | nameChanged
deriving DecidableEq, Repr

/-- Ways in which a call leaves defined behaviour. -/
inductive Fault where
  | assertion
  | outOfRange
  | conversion
  | recursion
  | shift
deriving DecidableEq, Repr

deriving instance DecidableEq for Except

/-- State of one `Trace` object (the members used by the modelled functions).

* `liveType` and `liveParam` are the members `_liveType` and `_liveParam`;
* `settingsValid` is `settings.valid`;
* `lastMath` is `none` for the null pointer;
* `inputs` holds, for every transform object that has one, its input pointer;
* `mathSourceTraces` is the map from source trace (a number) to variable name;
* `lastMathUpdate` is a time of day in milliseconds;
* `mathCalcTimer` is the interval the single-shot timer is armed with, `none` while it
  does not run;
* `signals` is the log of emitted signals, oldest first. -/
structure Trace where
  source : Source
  liveType : LivedataType
  liveParam : LiveParameter
  reflection : Bool
  paused : Bool
  reference_impedance : ℚ
  domain : DataType
  data : List Data
  settingsValid : Bool
  status : Status
  mathOps : List MathInfo
  lastMath : Option MathRef
  inputs : List (MathRef × MathRef)
  mathSourceTraces : List (Nat × String)
  mathFormula : String
  mathUpdateBegin : Nat
  mathUpdateEnd : Nat
  lastMathUpdate : Nat
  mathCalcTimer : Option Int
  signals : List Signal
deriving DecidableEq, Repr

/-- Append one emitted signal to the log. -/
def Trace.emit (t : Trace) (s : Signal) : Trace :=
  { t with signals := t.signals ++ [s] }

/-- The x coordinates of a store, in order. -/
def coords (data : List Data) : List ℚ := data.map Data.x

/-- The store is strictly ascending by coordinate (sorted, no duplicates). -/
def StrictAsc (data : List Data) : Prop := (coords data).Pairwise (· < ·)

instance (data : List Data) : Decidable (StrictAsc data) := by
  unfold StrictAsc; infer_instance

/-! ## Sample store -/

/-- Modelled from the spec: the default value of the argument `force` of `Trace::clear`,
which the calls `clear()` of trace.cpp use. Its declaration in trace.h is not part of
the sources; the spec calls a plain `clear()` "not forced". -/
def clearForceDefault : Bool := false

/-- Model of `Trace::clear(bool force)`. -/
def clear (t : Trace) (force : Bool) : Trace :=
  if t.paused && !force then t
  else
    (({ t with data := [], settingsValid := false,
               status := Status.Warning "No data" }).emit Signal.cleared).emit
      (Signal.outputSamplesChanged 0 0)

/-- The loop of `std::lower_bound` over `data` with the comparison
`lhs.x < x`: `first` is the start of the remaining range and `len` its length.
The first argument bounds the number of iterations; `len` iterations suffice. -/
def lowerBoundLoop (data : List Data) (x : ℚ) : Nat → Nat → Nat → Nat
  | 0, first, _ => first
  | fuel + 1, first, len =>
    if len = 0 then first
    else
      let half := len / 2
      let middle := first + half
      match data[middle]? with
      | some m =>
        if m.x < x then lowerBoundLoop data x fuel (middle + 1) (len - half - 1)
        else lowerBoundLoop data x fuel first half
      | none => first

/-- Index returned by `lower_bound(data.begin(), data.end(), x, lhs.x < x) - data.begin()`. -/
def lower_bound (data : List Data) (x : ℚ) : Nat :=
  lowerBoundLoop data x data.length 0 data.length

/-- `data.resize(n)`: truncate, or extend with value-initialised samples. -/
def resize (data : List Data) (n : Nat) : List Data :=
  data.take n ++ List.replicate (n - data.length) Data.zero

/-- `data.insert(data.begin() + i, d)`. -/
def insertAt (data : List Data) (i : Nat) (d : Data) : List Data :=
  data.take i ++ d :: data.drop i

/-- The write of `addData` without index at position `i = lower - data.begin()`. -/
def mergeAt (liveType : LivedataType) (data : List Data) (i : Nat) (d : Data) : List Data :=
  match data[i]? with
  | none => data ++ [d]
  | some lower =>
    if lower.x = d.x then
      match liveType with
      | LivedataType.Overwrite => data.set i d
      | LivedataType.MaxHold => if Cplx.absLt lower.y d.y then data.set i d else data
      | LivedataType.MinHold => if Cplx.absLt d.y lower.y then data.set i d else data
      | LivedataType.Invalid => data
    else insertAt data i d

/-- Lines 77-81 of `addData`: a call with another domain clears (not forced) and
takes over the new domain. -/
def changeDomain (t : Trace) (domain : DataType) : Trace :=
  if t.domain ≠ domain then
    ({ clear t clearForceDefault with domain := domain }).emit Signal.typeChanged
  else t

/-- Lines 82-124 of `addData`: the write into `data`, together with the value of
`index` afterwards. A negative `index` means that no index is given. -/
def writeSample (t : Trace) (d : Data) (index : Int) : Trace × Nat :=
  if 0 ≤ index then
    let idx := index.toNat
    let grown := if t.data.length ≤ idx then resize t.data (idx + 1) else t.data
    ({ t with data := grown.set idx d }, idx)
  else
    let idx := lower_bound t.data d.x
    ({ t with data := mergeAt t.liveType t.data idx d }, idx)

/-- Lines 125-128 of `addData`: take over a changed reference impedance. -/
def changeImpedance (t : Trace) (reference_impedance : ℚ) : Trace :=
  if t.reference_impedance ≠ reference_impedance then
    ({ t with reference_impedance := reference_impedance }).emit Signal.typeChanged
  else t

/-- Model of `Trace::addData(const Data& d, DataType domain, double reference_impedance,
int index)`. -/
def addData (t : Trace) (d : Data) (domain : DataType) (reference_impedance : ℚ)
    (index : Int) : Trace :=
  let w := writeSample (changeDomain t domain) d index
  ({ changeImpedance w.1 reference_impedance with status := Status.Ok }).emit
    (Signal.outputSamplesChanged w.2 (w.2 + 1))

/-- Model of `Trace::pause`. -/
def pause (t : Trace) : Trace :=
  if !t.paused then ({ t with paused := true }).emit Signal.pauseChanged else t

/-- Model of `Trace::resume`. -/
def resume (t : Trace) : Trace :=
  if t.paused then ({ t with paused := false }).emit Signal.pauseChanged else t

/-- Model of `Trace::removeMathSource`: erase the key from the source map. -/
def removeMathSource (t : Trace) (src : Nat) : Trace :=
  { t with mathSourceTraces := t.mathSourceTraces.filter (fun p => p.1 != src) }

/-- The loop of `Trace::clearMathSources`, at most `fuel` rounds. -/
def clearMathSourcesLoop : Nat → Trace → Trace
  | 0, t => t
  | fuel + 1, t =>
    match t.mathSourceTraces with
    | [] => t
    | p :: _ => clearMathSourcesLoop fuel (removeMathSource t p.1)

/-- Model of `Trace::clearMathSources`; every round removes at least the first
entry, so as many rounds as there are entries suffice. -/
def clearMathSources (t : Trace) : Trace :=
  clearMathSourcesLoop t.mathSourceTraces.length t

/-- Model of `Trace::fromLivedata`. -/
def fromLivedata (t : Trace) (type : LivedataType) (param : LiveParameter) : Trace :=
  let t1 := clearMathSources t
  ({ t1 with source := Source.Live, liveType := type, liveParam := param,
             reflection := (param == LiveParameter.S11 || param == LiveParameter.S22) }).emit
    Signal.typeChanged

/-- Model of `Trace::setCalibration`. -/
def setCalibration (t : Trace) : Trace :=
  { t with source := Source.Calibration }

/-! ## Transform chain -/

/-- Number of values of `unsigned int`. -/
def UINT_RANGE : Nat := 2 ^ 32

/-- The input pointer of the transform object `m` (`none`: no input assigned). -/
def inputOf (t : Trace) (m : MathRef) : Option MathRef :=
  (t.inputs.find? (fun p => p.1 == m)).map Prod.snd

/-- Modelled from the spec: `TraceMath::removeInput` (tracemath.cpp is not part of the
sources). The spec gives every node "a reference to its upstream node"; the call
`m->removeInput()` leaves `m` without one. -/
def removeInput (t : Trace) (m : MathRef) : Trace :=
  { t with inputs := t.inputs.filter (fun p => p.1 != m) }

/-- Modelled from the spec: `TraceMath::assignInput` (tracemath.cpp is not part of the
sources). The call `m->assignInput(input)` makes `input` the upstream node that `m` is
"wired to read from"; a null pointer leaves `m` without one. -/
def assignInput (t : Trace) (m : MathRef) (input : Option MathRef) : Trace :=
  match input with
  | some i => { t with inputs := (m, i) :: t.inputs.filter (fun p => p.1 != m) }
  | none => removeInput t m

/-- Model of `Trace::updateLastMath(start)`. The reverse iterator `start` is given by
the number of leading elements of `mathOps` it still has to visit: `mathOps.rbegin()`
is `mathOps.size()`, `make_reverse_iterator(mathOps.begin() + 1)` is `1`. -/
def updateLastMath (t : Trace) (start : Nat) : Except Fault Trace :=
  match (t.mathOps.take start).reverse.find? (fun it => it.enabled) with
  | none => Except.error Fault.assertion
  | some it =>
    if some it.math ≠ t.lastMath then
      Except.ok ((({ t with lastMath := some it.math }).emit Signal.typeChanged).emit
        (Signal.outputSamplesChanged 0 t.data.length))
    else Except.ok t

/-- State of a `Trace` when the body of the constructor starts running, the members
set as the initialiser list sets them. The constructor does not set `mathUpdateBegin`
and `mathUpdateEnd`; they start as the empty range `[size, 0)` that the spec gives. -/
def Trace.init (live : LiveParameter) (now : Nat) : Trace :=
  { source := Source.Live, liveType := LivedataType.Overwrite, liveParam := live,
    reflection := true, paused := false, reference_impedance := 50,
    domain := DataType.Frequency, data := [], settingsValid := false, status := Status.Ok,
    mathOps := [], lastMath := none, inputs := [], mathSourceTraces := [],
    mathFormula := "", mathUpdateBegin := 0, mathUpdateEnd := 0, lastMathUpdate := now,
    mathCalcTimer := none, signals := [] }

/-- Model of the constructor `Trace::Trace`: the trace itself becomes the enabled
node 0 of the chain. -/
def Trace.new (live : LiveParameter) (now : Nat) : Except Fault Trace :=
  let t := Trace.init live now
  let t1 := { t with mathOps := t.mathOps ++ [{ math := MathRef.self, enabled := true }] }
  updateLastMath t1 t1.mathOps.length

/-- Model of `Trace::mathEnabled`. -/
def mathEnabled (t : Trace) : Bool := t.lastMath != some MathRef.self

/-- Model of `Trace::enableMath`. -/
def enableMath (t : Trace) (enable : Bool) : Except Fault Trace :=
  updateLastMath t (if enable then t.mathOps.length else 1)

/-- Model of `Trace::addMathOperation`. -/
def addMathOperation (t : Trace) (math : MathRef) : Except Fault Trace :=
  let t1 := assignInput t math t.lastMath
  let t2 := { t1 with mathOps := t1.mathOps ++ [{ math := math, enabled := true }] }
  updateLastMath t2 t2.mathOps.length

/-- The loop of `Trace::addMathOperations`; `input` is the local variable. -/
def addMathOperationsLoop : List MathRef → Option MathRef → Trace → Trace
  | [], _, t => t
  | m :: rest, input, t =>
    let t1 := assignInput t m input
    addMathOperationsLoop rest (some m)
      { t1 with mathOps := t1.mathOps ++ [{ math := m, enabled := true }] }

/-- Model of `Trace::addMathOperations`. -/
def addMathOperations (t : Trace) (maths : List MathRef) : Except Fault Trace :=
  let t1 := addMathOperationsLoop maths t.lastMath t
  updateLastMath t1 t1.mathOps.length

/-- The first loop of `enableMathOperation`: the least index from `j` on whose node
is enabled, found by walking `ops = mathOps.drop j`; `mathOps.size()` if there is none. -/
def scanNext : List MathInfo → Nat → Nat
  | [], j => j
  | m :: rest, j => if m.enabled then j else scanNext rest (j + 1)

/-- The second loop of `enableMathOperation`: walk down from `prev_index` while it
is positive and its node is disabled. -/
def scanPrev (ops : List MathInfo) : Nat → Nat
  | 0 => 0
  | k + 1 =>
    match ops[k + 1]? with
    | some m => if m.enabled then k + 1 else scanPrev ops k
    | none => scanPrev ops k

/-- Lines 1206-1219 of `enableMathOperation`: the reassignment of the inputs around
the node `cur`; `prev` is `mathOps[prev_index]` and `next` is `mathOps[next_index]` if
`next_index < mathOps.size()`. -/
def rewireInputs (t : Trace) (enable : Bool) (cur prev : MathInfo) (next : Option MathInfo) :
    Trace :=
  if enable then
    let ta := assignInput t cur.math (some prev.math)
    match next with
    | some nxt => assignInput ta nxt.math (some cur.math)
    | none => ta
  else
    let ta := match next with
      | some nxt => assignInput t nxt.math (some prev.math)
      | none => t
    removeInput ta cur.math

/-- Model of `Trace::enableMathOperation`. The sums `index + 1` and `index - 1` are
formed behind the guard `1 <= index < mathOps.size()`, where they do not wrap around. -/
def enableMathOperation (t : Trace) (index : Nat) (enable : Bool) : Except Fault Trace :=
  if index < 1 ∨ index ≥ t.mathOps.length then Except.ok t
  else
    match t.mathOps[index]? with
    | none => Except.error Fault.outOfRange
    | some cur =>
      if cur.enabled ≠ enable then
        let next_index := scanNext (t.mathOps.drop (index + 1)) (index + 1)
        let prev_index := scanPrev t.mathOps (index - 1)
        match t.mathOps[prev_index]? with
        | none => Except.error Fault.outOfRange
        | some prev =>
          let t1 := rewireInputs t enable cur prev t.mathOps[next_index]?
          let t2 := { t1 with mathOps := t1.mathOps.set index { cur with enabled := enable } }
          updateLastMath t2 t2.mathOps.length
      else Except.ok t

/-- Lines 1166-1167 of `removeMathOperation`: delete the object (it loses its input)
and erase its entry. -/
def eraseOperation (t : Trace) (index : Nat) : Except Fault Trace :=
  match t.mathOps[index]? with
  | none => Except.error Fault.outOfRange
  | some gone =>
    Except.ok { removeInput t gone.math with mathOps := t.mathOps.eraseIdx index }

/-- Model of `Trace::removeMathOperation`. -/
def removeMathOperation (t : Trace) (index : Nat) : Except Fault Trace :=
  if index < 1 ∨ index ≥ t.mathOps.length then Except.ok t
  else
    match t.mathOps[index]? with
    | none => Except.error Fault.outOfRange
    | some cur => do
      let t1 ← (if cur.enabled then enableMathOperation t index false else Except.ok t)
      eraseOperation t1 index

/-- `swap(mathOps[i], mathOps[j])` of `swapMathOrder`. -/
def swapEntries (t : Trace) (i j : Nat) : Except Fault Trace :=
  match t.mathOps[i]?, t.mathOps[j]? with
  | some a, some b => Except.ok { t with mathOps := (t.mathOps.set i b).set j a }
  | _, _ => Except.error Fault.outOfRange

/-- Model of `Trace::swapMathOrder(unsigned int index)`. The sum `index + 1` is an
`unsigned int`. Both saved flags are read from `mathOps[index]` (lines 1176, 1177). -/
def swapMathOrder (t : Trace) (index : Nat) : Except Fault Trace :=
  let next := (index + 1) % UINT_RANGE
  if index < 1 ∨ next ≥ t.mathOps.length then Except.ok t
  else
    match t.mathOps[index]? with
    | none => Except.error Fault.outOfRange
    | some cur => do
      let index_enabled := cur.enabled
      let next_enabled := cur.enabled
      let t1 ← enableMathOperation t index false
      let t2 ← enableMathOperation t1 next false
      let t3 ← swapEntries t2 index next
      let t4 ← enableMathOperation t3 index next_enabled
      enableMathOperation t4 next index_enabled

/-! ## Formula engine: evaluation grid and evaluation pass -/

/-- `std::numeric_limits<double>::max()`. -/
def DBL_MAX : ℚ := (2 ^ 53 - 1) * 2 ^ 971

/-- `std::numeric_limits<double>::lowest()`. -/
def DBL_LOWEST : ℚ := -DBL_MAX

/-- `numeric_limits<complex<double>>::quiet_NaN()`. The standard library has no
specialisation of `numeric_limits` for `std::complex`, so the call goes to the primary
template, whose `quiet_NaN()` returns a value-initialised `complex<double>`. -/
def complexQuietNaN : Cplx := ⟨0, 0⟩

/-- What a formula trace reads of one of its source traces: the output samples
`lastMath->rData()`, the size `numSamples()` of the source's own store, and the value
`interpolatedSample(x).y`. -/
structure SourceView where
  output : List Data
  numSamples : Nat
  interpolated : ℚ → Cplx

/-- Model of `Trace::minX` on the output samples of the trace. -/
def minX (output : List Data) : ℚ :=
  match output.head? with
  | some s => s.x
  | none => DBL_MAX

/-- Model of `Trace::maxX` on the output samples of the trace. -/
def maxX (output : List Data) : ℚ :=
  match output.getLast? with
  | some s => s.x
  | none => DBL_LOWEST

/-- The three local variables of `updateMathTracePoints`. -/
structure Grid where
  startX : ℚ
  stopX : ℚ
  stepSize : ℚ
deriving DecidableEq, Repr

/-- One round of the loop over the sources in `updateMathTracePoints`. -/
def gridStep (g : Grid) (v : SourceView) : Grid :=
  let startX := if minX v.output > g.startX then minX v.output else g.startX
  let stopX := if maxX v.output < g.stopX then maxX v.output else g.stopX
  let traceStepSize :=
    if v.numSamples > 1 then (maxX v.output - minX v.output) / ((v.numSamples : ℚ) - 1)
    else DBL_MAX
  let stepSize := if traceStepSize < g.stepSize then traceStepSize else g.stepSize
  { startX := startX, stopX := stopX, stepSize := stepSize }

/-- The C function `round`: to the nearest integer, halves away from zero. -/
def cRound (q : ℚ) : Int :=
  if 0 ≤ q then Int.floor (q + 1 / 2) else -Int.floor (-q + 1 / 2)

/-- Model of `Trace::updateMathTracePoints`; `env` resolves a source trace. A quotient
by a zero step and a sample count outside `unsigned int` are conversion faults. -/
def updateMathTracePoints (env : Nat → SourceView) (t : Trace) : Except Fault Trace :=
  if t.mathSourceTraces.length = 0 then Except.ok t
  else
    let g := t.mathSourceTraces.foldl (fun g p => gridStep g (env p.1))
      { startX := DBL_LOWEST, stopX := DBL_MAX, stepSize := DBL_MAX }
    if g.stepSize = 0 then Except.error Fault.conversion
    else
      let r := cRound ((g.stopX - g.startX) / g.stepSize + 1)
      if r < 0 ∨ r ≥ (UINT_RANGE : Int) then Except.error Fault.conversion
      else
        let samples := r.toNat
        let data1 :=
          if samples ≠ t.data.length then
            let oldSize := t.data.length
            let resized := resize t.data samples
            if oldSize < samples then
              (List.range' oldSize (samples - oldSize)).foldl
                (fun data i => data.set i { x := g.startX + (i : ℚ) * g.stepSize,
                                            y := complexQuietNaN })
                resized
            else resized
          else t.data
        let t1 := { t with data := data1 }
        if samples > 0 ∧ (some g.startX ≠ data1.head?.map Data.x
            ∨ some g.stopX ≠ data1.getLast?.map Data.x) then
          Except.ok { t1 with mathUpdateBegin := 0, mathUpdateEnd := samples }
        else Except.ok t1

/-- The expression evaluator (muparserx `ParserX`), a black box: `define` tells whether
`SetExpr` and the `DefineVar` calls pass without a `ParserError`, `eval` gives the value
of the formula under the variable bindings, `none` for a thrown `ParserError`. -/
structure ParserX where
  define : String → List String → Bool
  eval : String → List (String × Cplx) → Option Cplx

/-- The evaluation loop of `calculateMath`: `n` cells from index `i` on. The result
holds the store and whether a `ParserError` ended the loop. -/
def evalLoop (P : ParserX) (env : Nat → SourceView) (t : Trace) :
    Nat → Nat → List Data → Except Fault (List Data × Bool)
  | 0, _, data => Except.ok (data, false)
  | n + 1, i, data =>
    match data[i]? with
    | none => Except.error Fault.outOfRange
    | some cell =>
      let bindings := ("x", Cplx.ofReal cell.x) ::
        t.mathSourceTraces.map (fun p => (p.2, (env p.1).interpolated cell.x))
      match P.eval t.mathFormula bindings with
      | none => Except.ok (data, true)
      | some res => evalLoop P env t n (i + 1) (data.set i { cell with y := res })

/-- The loop of the `catch` block of `calculateMath`: `n` cells from index `i` on get
the sentinel value. -/
def fillLoop : Nat → Nat → List Data → Except Fault (List Data)
  | 0, _, data => Except.ok data
  | n + 1, i, data =>
    match data[i]? with
    | none => Except.error Fault.outOfRange
    | some cell => fillLoop n (i + 1) (data.set i { cell with y := complexQuietNaN })

/-- Lines 474-500 of `calculateMath`: the body of `if(!isPaused())`. -/
def evaluatePass (P : ParserX) (env : Nat → SourceView) (t : Trace) : Except Fault Trace := do
  let n := t.mathUpdateEnd - t.mathUpdateBegin
  let tried ← (if P.define t.mathFormula (t.mathSourceTraces.map Prod.snd) then
      evalLoop P env t n t.mathUpdateBegin t.data
    else Except.ok (t.data, true))
  let data1 ← (if tried.2 then fillLoop n t.mathUpdateBegin tried.1 else Except.ok tried.1)
  Except.ok (({ t with data := data1, status := Status.Ok }).emit
    (Signal.outputSamplesChanged t.mathUpdateBegin (t.mathUpdateEnd + 1)))

/-- Model of `Trace::calculateMath`, run at time `now`. -/
def calculateMath (P : ParserX) (env : Nat → SourceView) (now : Nat) (t : Trace) :
    Except Fault Trace :=
  let t0 := { t with lastMathUpdate := now }
  if t0.mathUpdateBegin ≥ t0.data.length ∨ t0.mathUpdateEnd ≥ t0.data.length + 1 then
    Except.ok t0
  else if t0.mathFormula.isEmpty then
    Except.ok { t0 with status := Status.Error "Expression is empty" }
  else do
    let t1 ← (if !t0.paused then evaluatePass P env t0 else Except.ok t0)
    Except.ok { t1 with mathUpdateBegin := t1.data.length, mathUpdateEnd := 0 }

/-! ## Vocabulary of the statements -/

/-- What the binary search establishes on a sorted store: everything before the
result is below `x`, everything from the result on is not. -/
def IsLowerBound (data : List Data) (x : ℚ) (r : Nat) : Prop :=
  r ≤ data.length ∧
  (∀ i (h : i < data.length), i < r → data[i].x < x) ∧
  (∀ i (h : i < data.length), r ≤ i → x ≤ data[i].x)

/-- The sample stored at coordinate `c`, if there is one (the first one found). -/
def stored (data : List Data) (c : ℚ) : Option Data :=
  data.find? (fun s => s.x == c)

/-- The sample that the merge policy leaves at an occupied coordinate. -/
def mergeResult (liveType : LivedataType) (old d : Data) : Data :=
  match liveType with
  | LivedataType.Overwrite => d
  | LivedataType.MaxHold => if Cplx.absLt old.y d.y then d else old
  | LivedataType.MinHold => if Cplx.absLt d.y old.y then d else old
  | LivedataType.Invalid => old

/-- One step of a sequence of writes: the merge policy and the pause state the trace
has when the call is made, and the arguments of `addData`. -/
structure AddCall where
  liveType : LivedataType
  paused : Bool
  d : Data
  domain : DataType
  reference_impedance : ℚ
  index : Int
deriving DecidableEq, Repr

/-- Perform one step of a sequence of writes. -/
def AddCall.apply (t : Trace) (c : AddCall) : Trace :=
  addData { t with liveType := c.liveType, paused := c.paused } c.d c.domain
    c.reference_impedance c.index

/-- Perform a sequence of writes, first call first. -/
def runAddData (t : Trace) (calls : List AddCall) : Trace :=
  calls.foldl AddCall.apply t

/-- The node that a scan from the tail of the chain finds: the enabled node with the
greatest index. -/
def lastEnabled (ops : List MathInfo) : Option MathRef :=
  (ops.reverse.find? (fun it => it.enabled)).map MathInfo.math

/-- The chain with the enabled flag of position `i` set to `e`. -/
def setEnabled (ops : List MathInfo) (i : Nat) (e : Bool) : List MathInfo :=
  match ops[i]? with
  | some m => ops.set i { m with enabled := e }
  | none => ops

/-- The chain starts with the enabled identity node of the trace. -/
def ChainInv (t : Trace) : Prop :=
  ∃ rest, t.mathOps = { math := MathRef.self, enabled := true } :: rest

/-- The output node is the node found by a scan from the tail of the chain. -/
def Synced (t : Trace) : Prop :=
  t.lastMath = lastEnabled t.mathOps

/-- A call of one of the functions that change the transform chain. -/
inductive ChainOp where
  | addMathOperation (math : MathRef)
  | addMathOperations (maths : List MathRef)
  | removeMathOperation (index : Nat)
  | enableMathOperation (index : Nat) (enable : Bool)
  | swapMathOrder (index : Nat)
  | enableMath (enable : Bool)
deriving DecidableEq, Repr

/-- Perform one call on the chain. -/
def ChainOp.apply (t : Trace) : ChainOp → Except Fault Trace
  | ChainOp.addMathOperation math => LibreVNA.addMathOperation t math
  | ChainOp.addMathOperations maths => LibreVNA.addMathOperations t maths
  | ChainOp.removeMathOperation index => LibreVNA.removeMathOperation t index
  | ChainOp.enableMathOperation index enable => LibreVNA.enableMathOperation t index enable
  | ChainOp.swapMathOrder index => LibreVNA.swapMathOrder t index
  | ChainOp.enableMath enable => LibreVNA.enableMath t enable

/-- Perform a sequence of calls on the chain, first call first; a fault ends the run. -/
def runChain (t : Trace) : List ChainOp → Except Fault Trace
  | [] => Except.ok t
  | op :: rest =>
    match op.apply t with
    | Except.ok t1 => runChain t1 rest
    | Except.error f => Except.error f

/-- Number of nodes a call appends to the chain. -/
def ChainOp.growth : ChainOp → Nat
  | ChainOp.addMathOperation _ => 1
  | ChainOp.addMathOperations maths => maths.length
  | _ => 0

/-- Number of nodes a sequence of calls appends to the chain. -/
def chainGrowth (ops : List ChainOp) : Nat :=
  (ops.map ChainOp.growth).sum

/-- The call is not a `swapMathOrder` whose sum `index + 1` wraps around. -/
def ChainOp.noWrap : ChainOp → Bool
  | ChainOp.swapMathOrder index => decide (index + 1 < UINT_RANGE)
  | _ => true

/-- The call is not `enableMath`. -/
def ChainOp.isNodeOp : ChainOp → Bool
  | ChainOp.enableMath _ => false
  | _ => true

/-! ## Concrete inputs -/

/-- The trace that the constructor call `Trace(name, color, LiveParameter::S11)` at
time 0 builds (see `new_eq_freshTrace`). -/
def freshTrace : Trace :=
  { Trace.init LiveParameter.S11 0 with
    mathOps := [{ math := MathRef.self, enabled := true }],
    lastMath := some MathRef.self,
    signals := [Signal.typeChanged, Signal.outputSamplesChanged 0 0] }

/-- Three writes without index: the second one changes the domain of a paused trace,
the third one lands on the coordinate of the second one. -/
def sampleCalls : List AddCall :=
  [ { liveType := LivedataType.Overwrite, paused := false, d := ⟨3, ⟨1, 0⟩⟩,
      domain := DataType.Frequency, reference_impedance := 50, index := -1 },
    { liveType := LivedataType.MaxHold, paused := true, d := ⟨1, ⟨1, 0⟩⟩,
      domain := DataType.Time, reference_impedance := 50, index := -1 },
    { liveType := LivedataType.MinHold, paused := false, d := ⟨1, ⟨1 / 2, 0⟩⟩,
      domain := DataType.Time, reference_impedance := 75, index := -1 } ]

/-- A live trace holding the samples at coordinates 1 and 3. -/
def twoSampleTrace : Trace :=
  { freshTrace with data := [⟨1, ⟨2, 0⟩⟩, ⟨3, ⟨0, 1⟩⟩] }

/-- A calibration trace with merge policy MaxHold holding one sample of magnitude 2
at coordinate 1: `fromLivedata(MaxHold, S11)`, `setCalibration()` and one write. -/
def calibrationHoldTrace : Trace :=
  addData (setCalibration (fromLivedata freshTrace LivedataType.MaxHold LiveParameter.S11))
    ⟨1, ⟨2, 0⟩⟩ DataType.Frequency 50 (-1)

/-- The chain of a run, `none` if the run ended in a fault. -/
def chainOf (r : Except Fault Trace) : Option (List MathInfo) :=
  match r with
  | Except.ok t => some t.mathOps
  | Except.error _ => none

/-- The coordinates of the store after a run, `none` if the run ended in a fault. -/
def coordsOf (r : Except Fault Trace) : Option (List ℚ) :=
  match r with
  | Except.ok t => some (coords t.data)
  | Except.error _ => none

/-- A formula trace with an empty store and one source trace, bound to the variable
`a`. -/
def formulaTrace : Trace :=
  { freshTrace with source := Source.Math, mathSourceTraces := [(1, "a")], mathFormula := "a" }

/-- A formula trace holding two cells with both of them pending. -/
def pendingFormulaTrace : Trace :=
  { formulaTrace with data := [⟨1, ⟨2, 0⟩⟩, ⟨3, ⟨0, 1⟩⟩], mathUpdateBegin := 0,
                      mathUpdateEnd := 2 }

/-- The source trace holds two samples, at the coordinates 5 and 6. -/
def sourceSweepA : Nat → SourceView :=
  fun _ => { output := [⟨5, ⟨1, 0⟩⟩, ⟨6, ⟨1, 0⟩⟩], numSamples := 2,
             interpolated := fun _ => ⟨1, 0⟩ }

/-- The source trace holds three samples, at the coordinates 0, 1 and 2. -/
def sourceSweepB : Nat → SourceView :=
  fun _ => { output := [⟨0, ⟨1, 0⟩⟩, ⟨1, ⟨1, 0⟩⟩, ⟨2, ⟨1, 0⟩⟩], numSamples := 3,
             interpolated := fun _ => ⟨1, 0⟩ }

/-- An evaluator that accepts every formula and gives the value of its first source
variable (the second binding, behind `x`), or of `x` if there is no source. -/
def firstSourceParser : ParserX :=
  { define := fun _ _ => true
    eval := fun _ bindings =>
      match bindings with
      | _ :: (_, v) :: _ => some v
      | [(_, v)] => some v
      | [] => none }

/-- A paused frequency-domain trace holding one sample: one write, then `pause()`. -/
def pausedTrace : Trace :=
  pause (addData freshTrace ⟨1, ⟨2, 0⟩⟩ DataType.Frequency 50 (-1))

/-! ## Debounced evaluation and deletion of a source trace -/

/-- `QTime::msecsTo` on two times of day given in milliseconds. -/
def msecsTo (a b : Nat) : Int := (b : Int) - (a : Int)

/-- Model of `Trace::scheduleMathCalculation(begin, end)`, called at time `now`. The
constant `MinMathUpdateInterval` of trace.h is a parameter. -/
def scheduleMathCalculation (P : ParserX) (env : Nat → SourceView)
    (MinMathUpdateInterval : Int) (now : Nat) (t : Trace) (b e : Nat) : Except Fault Trace :=
  if t.source ≠ Source.Math then Except.ok t
  else
    let t1 := if b < t.mathUpdateBegin then { t with mathUpdateBegin := b } else t
    let t2 := if e > t1.mathUpdateEnd then { t1 with mathUpdateEnd := e } else t1
    if msecsTo t2.lastMathUpdate now ≥ MinMathUpdateInterval then calculateMath P env now t2
    else Except.ok { t2 with mathCalcTimer := some MinMathUpdateInterval }

/-- `mathSourceTraces.count(t)` as a truth value. -/
def hasSource (c : Trace) (t : Nat) : Bool :=
  c.mathSourceTraces.any (fun p => p.1 == t)

/-- Model of `Trace::mathSourceTraceDeleted(t)` on the consumer `c`. -/
def mathSourceTraceDeleted (P : ParserX) (env : Nat → SourceView)
    (MinMathUpdateInterval : Int) (now : Nat) (c : Trace) (t : Nat) : Except Fault Trace :=
  if hasSource c t then
    match updateMathTracePoints env (removeMathSource c t) with
    | Except.error f => Except.error f
    | Except.ok c2 => scheduleMathCalculation P env MinMathUpdateInterval now c2 0 c2.data.length
  else Except.ok c

/-! ## Dependency graph of the formula traces -/

/-- The numbers of the source traces of a trace. -/
def sourceIds (c : Trace) : List Nat := c.mathSourceTraces.map Prod.fst

/-- The loop `for(auto m : mathSourceTraces) if(m.first->mathDependsOn(t)) return true;`
with the recursive call given as `f`; `return false` behind the loop. -/
def anySource (f : Nat → Except Fault Bool) : List (Nat × String) → Except Fault Bool
  | [] => Except.ok false
  | m :: rest =>
    match f m.1 with
    | Except.error e => Except.error e
    | Except.ok true => Except.ok true
    | Except.ok false => anySource f rest

/-- Model of `Trace::mathDependsOn(t, onlyDirectDependency)` called on the trace `self`
of the traces `M`. The first argument bounds the depth of the recursion. The recursive
call passes no second argument, which makes it `false` (the search is transitive, as the
comment "also check math source traces recursively" says). -/
def mathDependsOn (M : Nat → Trace) : Nat → Nat → Nat → Bool → Except Fault Bool
  | 0, _, _, _ => Except.error Fault.recursion
  | fuel + 1, self, t, onlyDirectDependency =>
    if hasSource (M self) t then Except.ok true
    else if onlyDirectDependency then Except.ok false
    else anySource (fun m => mathDependsOn M fuel m t false) (M self).mathSourceTraces

/-- Model of `Trace::canAddAsMathSource(t)` called on the trace `self`. The function
`outputType` gives the output domain `outputType()` of every trace; it is declared in
trace.h and taken as a parameter. -/
def canAddAsMathSource (M : Nat → Trace) (outputType : Nat → DataType) (fuel : Nat)
    (self t : Nat) : Except Fault Bool :=
  if t = self then Except.ok false
  else
    match mathDependsOn M fuel t self false with
    | Except.error f => Except.error f
    | Except.ok true => Except.ok false
    | Except.ok false =>
      match (M self).mathSourceTraces with
      | [] => Except.ok true
      | first :: _ => Except.ok (outputType first.1 == outputType t)

/-- `mathSourceTraces[t] = variableName` on the map kept in ascending order of its
keys: replace the value of the key `t` or insert the new pair at its place. -/
def mapAssign : List (Nat × String) → Nat → String → List (Nat × String)
  | [], t, name => [(t, name)]
  | (k, v) :: rest, t, name =>
    if t < k then (t, name) :: (k, v) :: rest
    else if t = k then (t, name) :: rest
    else (k, v) :: mapAssign rest t name

/-- Model of `Trace::addMathSource(Trace *t, QString variableName)` called on the trace
`self`: the new state of `self` and the returned value. The two `connect` calls change
no member of the trace; what the connected handlers do when a signal arrives is the
business of `mathSourceTraceDeleted` and of the calls that the lambda makes. -/
def addMathSource (M : Nat → Trace) (outputType : Nat → DataType) (P : ParserX)
    (env : Nat → SourceView) (MinMathUpdateInterval : Int) (now : Nat) (fuel : Nat)
    (self t : Nat) (variableName : String) : Except Fault (Trace × Bool) :=
  match canAddAsMathSource M outputType fuel self t with
  | Except.error f => Except.error f
  | Except.ok false => Except.ok (M self, false)
  | Except.ok true =>
    match updateMathTracePoints env
        { M self with mathSourceTraces := mapAssign (M self).mathSourceTraces t variableName } with
    | Except.error f => Except.error f
    | Except.ok c2 =>
      match scheduleMathCalculation P env MinMathUpdateInterval now c2 0 c2.data.length with
      | Except.error f => Except.error f
      | Except.ok c3 => Except.ok (c3, true)

/-- The trace `a` has the trace `b` as a source. -/
def SourceEdge (M : Nat → Trace) (a b : Nat) : Prop := b ∈ sourceIds (M a)

instance (M : Nat → Trace) (a b : Nat) : Decidable (SourceEdge M a b) := by
  unfold SourceEdge
  infer_instance

/-- The trace `a` depends on the trace `b`: a path of one or more source edges leads
from `a` to `b`. -/
def DependsOn (M : Nat → Trace) (a b : Nat) : Prop := Relation.TransGen (SourceEdge M) a b

/-- No trace depends on itself. -/
def Acyclic (M : Nat → Trace) : Prop := ∀ a, ¬ DependsOn M a a

/-- Every source edge joins two of the traces `0, ..., n - 1`. -/
def GraphWithin (M : Nat → Trace) (n : Nat) : Prop :=
  ∀ a b, SourceEdge M a b → a < n ∧ b < n

/-- All sources of the trace have the output domain `d`. -/
def SourcesInDomain (outputType : Nat → DataType) (c : Trace) (d : DataType) : Prop :=
  ∀ s ∈ sourceIds c, outputType s = d

instance (outputType : Nat → DataType) (c : Trace) (d : DataType) :
    Decidable (SourcesInDomain outputType c d) := by
  unfold SourcesInDomain
  infer_instance

/-- A call that changes the source graph, made on the trace `consumer`. -/
inductive GraphOp where
  | addMathSource (consumer source : Nat) (variableName : String)
  | removeMathSource (consumer source : Nat)
  | clearMathSources (consumer : Nat)
  | mathSourceTraceDeleted (consumer source : Nat)
deriving DecidableEq, Repr

/-- One step of a sequence of graph calls: the time of the call, what the traces show
of their samples at that time, and the call. -/
structure GraphCall where
  now : Nat
  env : Nat → SourceView
  op : GraphOp

/-- Perform one graph call on the traces `M`. -/
def GraphCall.apply (outputType : Nat → DataType) (P : ParserX) (MinMathUpdateInterval : Int)
    (fuel : Nat) (M : Nat → Trace) (c : GraphCall) : Except Fault (Nat → Trace) :=
  match c.op with
  | GraphOp.addMathSource consumer source variableName =>
    match LibreVNA.addMathSource M outputType P c.env MinMathUpdateInterval c.now fuel
        consumer source variableName with
    | Except.error f => Except.error f
    | Except.ok r => Except.ok (Function.update M consumer r.1)
  | GraphOp.removeMathSource consumer source =>
    Except.ok (Function.update M consumer (LibreVNA.removeMathSource (M consumer) source))
  | GraphOp.clearMathSources consumer =>
    Except.ok (Function.update M consumer (LibreVNA.clearMathSources (M consumer)))
  | GraphOp.mathSourceTraceDeleted consumer source =>
    match LibreVNA.mathSourceTraceDeleted P c.env MinMathUpdateInterval c.now (M consumer)
        source with
    | Except.error f => Except.error f
    | Except.ok r => Except.ok (Function.update M consumer r)

/-- Perform a sequence of graph calls, first call first; a fault ends the run. -/
def runGraph (outputType : Nat → DataType) (P : ParserX) (MinMathUpdateInterval : Int)
    (fuel : Nat) (M : Nat → Trace) : List GraphCall → Except Fault (Nat → Trace)
  | [] => Except.ok M
  | c :: rest =>
    match c.apply outputType P MinMathUpdateInterval fuel M with
    | Except.error f => Except.error f
    | Except.ok M1 => runGraph outputType P MinMathUpdateInterval fuel M1 rest

/-! ## Wiring of the transform chain -/

/-- The node that a scan from the tail of `l` finds, `prev` if no node of `l` is
enabled. -/
def lastFrom : MathRef → List MathInfo → MathRef
  | prev, [] => prev
  | prev, m :: rest => lastFrom (if m.enabled then m.math else prev) rest

/-- Walking the chain `l` behind a node `prev`, every enabled node has the enabled node
before it as its input. -/
def wiredFrom (inp : MathRef → Option MathRef) : MathRef → List MathInfo → Bool
  | _, [] => true
  | prev, m :: rest =>
    if m.enabled then inp m.math == some prev && wiredFrom inp m.math rest
    else wiredFrom inp prev rest

/-- Every enabled node behind the identity node has the nearest enabled node before it
as its input. -/
def Wired (t : Trace) : Prop :=
  wiredFrom (inputOf t) MathRef.self t.mathOps.tail = true

/-- The objects of the chain, in order. -/
def chainRefs (t : Trace) : List MathRef := t.mathOps.map MathInfo.math

/-- The transform objects that a call appends to the chain. -/
def ChainOp.added : ChainOp → List MathRef
  | ChainOp.addMathOperation math => [math]
  | ChainOp.addMathOperations maths => maths
  | _ => []

/-- The transform objects that a sequence of calls appends to the chain. -/
def addedRefs (ops : List ChainOp) : List MathRef :=
  (ops.map ChainOp.added).flatten

/-! ## Further concrete inputs -/

/-- The pending range after a run, `none` if the run ended in a fault. -/
def pendingOf (r : Except Fault Trace) : Option (Nat × Nat) :=
  match r with
  | Except.ok t => some (t.mathUpdateBegin, t.mathUpdateEnd)
  | Except.error _ => none

/-- The sources after a run, `none` if the run ended in a fault. -/
def sourcesOf (r : Except Fault Trace) : Option (List (Nat × String)) :=
  match r with
  | Except.ok t => some t.mathSourceTraces
  | Except.error _ => none

/-- The state that a run ends in, the given state if the run ended in a fault. -/
def stateOr (r : Except Fault Trace) (t : Trace) : Trace :=
  match r with
  | Except.ok t1 => t1
  | Except.error _ => t

/-- The formula trace with two pending cells, paused by `pause()`. -/
def pausedFormulaTrace : Trace := pause pendingFormulaTrace

/-- The chain identity, node 1 (enabled), node 2 (disabled), built by two
`addMathOperation` calls and `enableMathOperation(2, false)` on a new trace. -/
def twoNodeChain : Trace :=
  stateOr (runChain freshTrace [ChainOp.addMathOperation (MathRef.op 1),
    ChainOp.addMathOperation (MathRef.op 2), ChainOp.enableMathOperation 2 false]) freshTrace


/-- The fault that a run ended in, `none` if the run returned. -/
def faultOf {α : Type} (r : Except Fault α) : Option Fault :=
  match r with
  | Except.ok _ => none
  | Except.error f => some f

/-- A formula trace with two cells and the two sources 1 and 2. -/
def twoSourceTrace : Trace :=
  { pendingFormulaTrace with mathSourceTraces := [(1, "a"), (2, "b")] }

/-- The source traces as `sourceSweepA` shows them, but trace 2 holds no sample (it has
been cleared). -/
def clearedSecondSource : Nat → SourceView :=
  fun i => if i = 2 then { output := [], numSamples := 0, interpolated := fun _ => ⟨0, 0⟩ }
    else sourceSweepA i

/-- Traces without any source. -/
def noSourceTraces : Nat → Trace := fun _ => freshTrace

/-- Three traces in a row: trace 0 reads trace 1, trace 1 reads trace 2; trace 2 and
the traces behind it have no source. -/
def rowOfTraces : Nat → Trace := fun i =>
  if i = 0 then { freshTrace with mathSourceTraces := [(1, "a")] }
  else if i = 1 then { freshTrace with mathSourceTraces := [(2, "b")] }
  else freshTrace

/-- Output domains: trace 2 is a time-domain trace, all others are frequency-domain
traces. -/
def secondInTime : Nat → DataType :=
  fun i => if i = 2 then DataType.Time else DataType.Frequency

/-- The sources of the trace `a` after a run of graph calls, `none` if the run ended in
a fault. -/
def graphSourcesOf (r : Except Fault (Nat → Trace)) (a : Nat) : Option (List Nat) :=
  match r with
  | Except.ok M => some (sourceIds (M a))
  | Except.error _ => none

/-- A graph call at time 100 with every trace showing the sweep `sourceSweepA`. -/
def callAt100 (op : GraphOp) : GraphCall := { now := 100, env := sourceSweepA, op := op }

/-- Six graph calls on the traces 0, 1 and 2: two sources are added, a third one that
would close a cycle is offered, then sources are removed again. -/
def sampleGraphCalls : List GraphCall :=
  [ callAt100 (GraphOp.addMathSource 0 1 "a"),
    callAt100 (GraphOp.addMathSource 1 2 "b"),
    callAt100 (GraphOp.addMathSource 2 0 "c"),
    callAt100 (GraphOp.removeMathSource 0 1),
    callAt100 (GraphOp.mathSourceTraceDeleted 1 2),
    callAt100 (GraphOp.clearMathSources 0) ]

/-- The source and the consumer of a graph call are among the traces `0, ..., n - 1`. -/
def GraphOp.within (n : Nat) : GraphOp → Bool
  | GraphOp.addMathSource consumer source _ => decide (consumer < n) && decide (source < n)
  | GraphOp.removeMathSource consumer source => decide (consumer < n) && decide (source < n)
  | GraphOp.clearMathSources consumer => decide (consumer < n)
  | GraphOp.mathSourceTraceDeleted consumer source =>
    decide (consumer < n) && decide (source < n)

/-- The sources of every single trace share one output domain. -/
def OneDomainEach (outputType : Nat → DataType) (M : Nat → Trace) : Prop :=
  ∀ a, ∃ d, SourcesInDomain outputType (M a) d

/-- The chain is in order: the enabled identity node in front, the output node in step
with the chain, no object twice in the chain, and every enabled node wired to the
nearest enabled node before it. -/
def ChainOk (t : Trace) : Prop :=
  ChainInv t ∧ Synced t ∧ (chainRefs t).Nodup ∧ Wired t

/-- The chain identity, node 1 (enabled), built by one `addMathOperation` call on a new
trace. -/
def oneNodeChain : Trace :=
  stateOr (runChain freshTrace [ChainOp.addMathOperation (MathRef.op 1)]) freshTrace

/-- The chain identity, node 1 (enabled) with the transforms switched off as a whole:
`addMathOperation` and `enableMath(false)` on a new trace. -/
def mathOffChain : Trace :=
  stateOr (runChain freshTrace [ChainOp.addMathOperation (MathRef.op 1),
    ChainOp.enableMath false]) freshTrace

/-- The output node after a run, `none` if the run ended in a fault. -/
def lastMathOf (r : Except Fault Trace) : Option MathRef :=
  match r with
  | Except.ok t => t.lastMath
  | Except.error _ => none

instance (t : Trace) : Decidable (Wired t) := by
  unfold Wired
  infer_instance

instance (t : Trace) : Decidable (Synced t) := by
  unfold Synced
  infer_instance

/-! ## Index of a coordinate -/

/-- Model of `Trace::index(x)` on the output samples `lastMath->rData()`. The result is
an `int`; on an empty array `size() - 1` is the value -1 of an `int`. -/
def index (output : List Data) (x : ℚ) : Int :=
  let lower := lower_bound output x
  if lower = output.length then (output.length : Int) - 1 else (lower : Int)

/-! ## Check of the formula -/

/-- Model of `Trace::mathFormularValid`. The function `GetExprVar` stands for the calls
`parser.SetExpr(formula)` and `parser.GetExprVar()` on a new parser (muparserx): the
names of the variables that the expression uses, `none` for a thrown `ParserError`. The
outer loop returns false at the first name that the inner loop does not find among the
variable names of the sources. -/
def mathFormularValid (GetExprVar : String → Option (List String)) (t : Trace) : Bool :=
  if t.mathFormula.isEmpty then false
  else
    match GetExprVar t.mathFormula with
    | none => false
    | some vars =>
      vars.all (fun varName => t.mathSourceTraces.any (fun ms => ms.2 == varName))

/-! ## Identity hash -/

/-- A value stored under a key of the JSON object that `toJSON` builds. The arrays
under "sources" and "math" are lists of their entries: hash of the source trace and
variable name; operation name, enabled flag and settings of a transform. -/
inductive JsonValue where
  | null
  | str (s : String)
  | num (q : ℚ)
  | nat (n : Nat)
  | bool (b : Bool)
  | liveParameter (p : LiveParameter)
  | livedataType (t : LivedataType)
  | sources (l : List (Nat × String))
  | math (l : List (String × Bool × String))
deriving DecidableEq, Repr

/-- A `Trace` object with the members that serialisation reads and writes beside the
state of the sample engine: `name` is `_name`, `color` is `_color.name()`. -/
structure TraceObject extends Trace where
  name : String
  color : String
  visible : Bool
  vFactor : ℚ
  filename : String
  fileParameter : Nat
  hash : Nat
  hashSet : Bool
  JSONskipHash : Bool
deriving DecidableEq, Repr

/-- The array that `push_back` builds from a JSON null: null as long as nothing is
pushed. -/
def jsonArray {α : Type} (wrap : List α → JsonValue) (l : List α) : JsonValue :=
  if l.isEmpty then JsonValue.null else wrap l

/-- The entries that `toJSON()` writes behind the key "hash", in the order of the
assignments. `sourceHash` gives `ms.first->toHash()` of a source trace, `mathJSON` gives
the operation name and the settings of a transform object, `none` for the type
`Type::Last` that is reserved for the trace itself. -/
def jsonBody (sourceHash : Nat → Nat) (mathJSON : MathRef → Option (String × String))
    (o : TraceObject) : List (String × JsonValue) :=
  if o.source = Source.Calibration then []
  else
    [("name", JsonValue.str o.name), ("color", JsonValue.str o.color),
      ("visible", JsonValue.bool o.visible)] ++
    (match o.source with
      | Source.Live =>
        [("type", JsonValue.str "Live"), ("parameter", JsonValue.liveParameter o.liveParam),
          ("livetype", JsonValue.livedataType o.liveType), ("paused", JsonValue.bool o.paused)]
      | Source.File =>
        [("type", JsonValue.str "File"), ("filename", JsonValue.str o.filename),
          ("parameter", JsonValue.nat o.fileParameter)]
      | Source.Math =>
        [("type", JsonValue.str "Math"), ("expression", JsonValue.str o.mathFormula),
          ("sources", jsonArray JsonValue.sources
            (o.mathSourceTraces.map (fun ms => (sourceHash ms.1, ms.2))))]
      | Source.Calibration => []) ++
    [("velocityFactor", JsonValue.num o.vFactor), ("reflection", JsonValue.bool o.reflection),
      ("math", jsonArray JsonValue.math (o.mathOps.filterMap (fun m =>
        (mathJSON m.math).map (fun info => (info.1, m.enabled, info.2))))),
      ("math_enabled", JsonValue.bool (mathEnabled o.toTrace))]

/-- Model of `Trace::toHash(forceUpdate)`: the new state and the returned hash. The
function `stdHash` stands for `std::hash<std::string>` applied to the dump of the JSON
object, as stored in the member `hash`. The call `toJSON()` runs with `JSONskipHash`
set, so it writes the entries of `jsonBody` only. -/
def toHash (stdHash : List (String × JsonValue) → Nat) (sourceHash : Nat → Nat)
    (mathJSON : MathRef → Option (String × String)) (o : TraceObject) (forceUpdate : Bool) :
    TraceObject × Nat :=
  if !o.hashSet || forceUpdate then
    let o1 := { o with JSONskipHash := true }
    let json := jsonBody sourceHash mathJSON o1
    let o2 := { o1 with JSONskipHash := false }
    let o3 := { o2 with hash := stdHash json, hashSet := true }
    (o3, o3.hash)
  else (o, o.hash)

/-- Model of `Trace::toJSON()`: the new state and the JSON object. -/
def toJSON (stdHash : List (String × JsonValue) → Nat) (sourceHash : Nat → Nat)
    (mathJSON : MathRef → Option (String × String)) (o : TraceObject) :
    TraceObject × List (String × JsonValue) :=
  if !o.JSONskipHash then
    let r := toHash stdHash sourceHash mathJSON o true
    (r.1, ("hash", JsonValue.nat r.2) :: jsonBody sourceHash mathJSON r.1)
  else (o, jsonBody sourceHash mathJSON o)

/-- Model of `Trace::setName`. -/
def setName (o : TraceObject) (name : String) : TraceObject :=
  { o with name := name, signals := o.signals ++ [Signal.nameChanged] }

/-- Model of `Trace::setVelocityFactor`. -/
def setVelocityFactor (o : TraceObject) (v : ℚ) : TraceObject :=
  { o with vFactor := v }

/-- Model of `Trace::setReflection`. -/
def setReflection (o : TraceObject) (value : Bool) : TraceObject :=
  { o with reflection := value }

/-- Model of `Trace::setMathFormula`, called at time `now`. -/
def setMathFormula (P : ParserX) (env : Nat → SourceView) (MinMathUpdateInterval : Int)
    (now : Nat) (o : TraceObject) (newMathFormula : String) : Except Fault TraceObject :=
  match scheduleMathCalculation P env MinMathUpdateInterval now
      { o.toTrace with mathFormula := newMathFormula } 0 o.data.length with
  | Except.error f => Except.error f
  | Except.ok t => Except.ok { o with toTrace := t }

/-- Lines 728-734 of `Trace::fromJSON`: the hash is taken from the key "hash" of the
JSON object, if it has one. -/
def fromJSONHash (o : TraceObject) (jHash : Option Nat) : TraceObject :=
  match jHash with
  | some h => { o with source := Source.Live, hash := h, hashSet := true }
  | none => { o with source := Source.Live, hashSet := false }

/-- A call that changes a member that `toJSON` writes. -/
inductive FieldChange where
  | setName (name : String)
  | setVelocityFactor (v : ℚ)
  | setReflection (value : Bool)
  | setMathFormula (newMathFormula : String)
deriving DecidableEq, Repr

/-- Perform a change of a serialised member, at time `now`. -/
def FieldChange.apply (P : ParserX) (env : Nat → SourceView) (MinMathUpdateInterval : Int)
    (now : Nat) (o : TraceObject) : FieldChange → Except Fault TraceObject
  | FieldChange.setName name => Except.ok (LibreVNA.setName o name)
  | FieldChange.setVelocityFactor v => Except.ok (LibreVNA.setVelocityFactor o v)
  | FieldChange.setReflection value => Except.ok (LibreVNA.setReflection o value)
  | FieldChange.setMathFormula f =>
    LibreVNA.setMathFormula P env MinMathUpdateInterval now o f

/-! ## Vocabulary of the statements on the evaluation pass -/

/-- The variable bindings of one evaluation in `calculateMath`: `x` bound to the
coordinate, every source variable bound to `interpolatedSample(x).y` of its source. -/
def bindingsAt (env : Nat → SourceView) (t : Trace) (x : ℚ) : List (String × Cplx) :=
  ("x", Cplx.ofReal x) ::
    t.mathSourceTraces.map (fun p => (p.2, (env p.1).interpolated x))

/-- The limit check of `calculateMath` lets the pass through. -/
def InLimits (t : Trace) : Prop :=
  t.mathUpdateBegin < t.data.length ∧ t.mathUpdateEnd ≤ t.data.length

instance (t : Trace) : Decidable (InLimits t) := by
  unfold InLimits
  infer_instance

/-- The evaluation grid that the loop of `updateMathTracePoints` computes from the
sources. -/
def mathGrid (env : Nat → SourceView) (t : Trace) : Grid :=
  t.mathSourceTraces.foldl (fun g p => gridStep g (env p.1))
    { startX := DBL_LOWEST, stopX := DBL_MAX, stepSize := DBL_MAX }

/-- The values of the store after a run, `none` if the run ended in a fault. -/
def dataOf (r : Except Fault Trace) : Option (List Data) :=
  match r with
  | Except.ok t => some t.data
  | Except.error _ => none

/-- The signals logged after a run, `none` if the run ended in a fault. -/
def signalsOf (r : Except Fault Trace) : Option (List Signal) :=
  match r with
  | Except.ok t => some t.signals
  | Except.error _ => none

/-- The armed timer after a run: `none` if the run ended in a fault, `some none` if the
timer does not run. -/
def timerOf (r : Except Fault Trace) : Option (Option Int) :=
  match r with
  | Except.ok t => some t.mathCalcTimer
  | Except.error _ => none

/-! ## Concrete inputs of the statements on the formula engine -/

namespace Cplx

/-- Product of two complex values. -/
def mul (a b : Cplx) : Cplx := ⟨a.re * b.re - a.im * b.im, a.re * b.im + a.im * b.re⟩

end Cplx

/-- An evaluator that accepts every formula and gives the product of the values of all
source variables (the bindings behind `x`), as the expression `a*b` does for the two
variables `a` and `b`. -/
def productParser : ParserX :=
  { define := fun _ _ => true
    eval := fun _ bindings => some ((bindings.tail.map Prod.snd).foldl Cplx.mul ⟨1, 0⟩) }

/-- Two source traces with samples at the coordinates 1, 2 and 3: trace 1 holds the
values 1, 2, 3 and trace 2 the values 4, 5, 6 (every other trace shows what trace 1
shows); between the samples the values are interpolated linearly. -/
def rampSources : Nat → SourceView :=
  fun i =>
    if i = 2 then
      { output := [⟨1, ⟨4, 0⟩⟩, ⟨2, ⟨5, 0⟩⟩, ⟨3, ⟨6, 0⟩⟩], numSamples := 3,
        interpolated := fun x => ⟨x + 3, 0⟩ }
    else
      { output := [⟨1, ⟨1, 0⟩⟩, ⟨2, ⟨2, 0⟩⟩, ⟨3, ⟨3, 0⟩⟩], numSamples := 3,
        interpolated := fun x => ⟨x, 0⟩ }

/-- A formula trace with the expression `a*b` on the sources 1 and 2 and an empty
store. -/
def productTrace : Trace :=
  { freshTrace with source := Source.Math, mathSourceTraces := [(1, "a"), (2, "b")],
                    mathFormula := "a*b" }

/-- The trace `productTrace` with the grid of its sources and all three cells pending:
`updateMathTracePoints()` and the range that `scheduleMathCalculation(0, 3)` notes. -/
def productPending : Trace :=
  { stateOr (updateMathTracePoints rampSources productTrace) productTrace with
    mathUpdateBegin := 0, mathUpdateEnd := 3 }

/-- A formula trace with two pending cells and an empty formula. -/
def emptyFormulaTrace : Trace :=
  { pendingFormulaTrace with mathFormula := "" }

/-- A formula trace with two cells whose pending range ends behind the store. -/
def overrunTrace : Trace :=
  { pendingFormulaTrace with mathUpdateEnd := 3 }

/-- The source trace holds two samples, at the coordinates 7 and 8. -/
def sourceSweepC : Nat → SourceView :=
  fun _ => { output := [⟨7, ⟨1, 0⟩⟩, ⟨8, ⟨1, 0⟩⟩], numSamples := 2,
             interpolated := fun _ => ⟨1, 0⟩ }

/-- The formula trace with the grid of the sweep `sourceSweepA`: cells at 5 and 6. -/
def gridTraceA : Trace :=
  stateOr (updateMathTracePoints sourceSweepA formulaTrace) formulaTrace

/-- A stand-in for `GetExprVar`: the expression `a` uses the variable `a`, the
expression `a+c` the variables `a` and `c`, the text `a+` is no expression, every other
text uses no variable. -/
def sampleExprVar : String → Option (List String) :=
  fun f =>
    if f = "a" then some ["a"]
    else if f = "a+c" then some ["a", "c"]
    else if f = "a+" then none
    else some []

/-- A live trace object as the constructor leaves it, named `S11`. -/
def namedTrace : TraceObject :=
  { toTrace := freshTrace, name := "S11", color := "#ffff00", visible := true,
    vFactor := 66 / 100, filename := "", fileParameter := 0, hash := 0, hashSet := false,
    JSONskipHash := false }

/-- A stand-in for the hash of the dump: the total length of the texts in the object. -/
def textLengthHash : List (String × JsonValue) → Nat :=
  fun j => (j.map (fun kv =>
    match kv.2 with
    | JsonValue.str s => s.length
    | _ => 0)).sum

/-- No transform object has a JSON form (a chain of the identity node only). -/
def noMathJSON : MathRef → Option (String × String) := fun _ => none

/-- The hash and the flag `hashSet` after a run of field changes, `none` if the run
ended in a fault. -/
def hashStateOf (r : Except Fault TraceObject) : Option (Nat × Bool) :=
  match r with
  | Except.ok o => some (o.hash, o.hashSet)
  | Except.error _ => none

/-- The sample count of a grid before its conversion to `unsigned int`:
`round((stopX - startX) / stepSize + 1)`. -/
def gridSamples (g : Grid) : Int :=
  cRound ((g.stopX - g.startX) / g.stepSize + 1)

/-! ## Register bit fields -/

/-- Number of values of `unsigned long` (64 bits). -/
def ULONG_RANGE : Nat := 2 ^ 64

/-- `x << n` on an `unsigned long` with an `int` count. -/
def shl (x : Nat) (n : Int) : Except Fault Nat :=
  if n < 0 ∨ n ≥ 64 then Except.error Fault.shift
  else Except.ok ((x <<< n.toNat) % ULONG_RANGE)

/-- `x >> n` on an `unsigned long` with an `int` count. -/
def shr (x : Nat) (n : Int) : Except Fault Nat :=
  if n < 0 ∨ n ≥ 64 then Except.error Fault.shift
  else Except.ok (x >>> n.toNat)

/-- `~x` on an `unsigned long`. -/
def bitNot (x : Nat) : Nat := (ULONG_RANGE - 1) ^^^ x

/-- The loop `for(int i=0;i<width;i++) mask |= (1UL << i);` of `getValue` and
`setValue`: the given number of rounds from the counter `i` on. -/
def maskLoop : Nat → Int → Nat → Except Fault Nat
  | 0, _, mask => Except.ok mask
  | rounds + 1, i, mask =>
    match shl 1 i with
    | Except.error f => Except.error f
    | Except.ok bit => maskLoop rounds (i + 1) (mask ||| bit)

/-- State of a `Register` object: the member `value` (an `unsigned long`), the width
given to the constructor, and the log of the arguments of the emitted `valueChanged`
signals, oldest first. -/
structure Register where
  value : Nat
  width : Int
  signals : List Nat
deriving DecidableEq, Repr

/-- Model of `Register::getValue(int pos, int width)`. -/
def Register.getValue (r : Register) (pos width : Int) : Except Fault Nat :=
  match maskLoop width.toNat 0 0 with
  | Except.error f => Except.error f
  | Except.ok mask0 =>
    match shl mask0 pos with
    | Except.error f => Except.error f
    | Except.ok mask => shr (r.value &&& mask) pos

/-- Model of `Register::setValue(unsigned long newval, int pos, int width)`. -/
def Register.setValue (r : Register) (newval : Nat) (pos width : Int) :
    Except Fault Register :=
  match maskLoop width.toNat 0 0 with
  | Except.error f => Except.error f
  | Except.ok mask0 =>
    match shl (newval &&& mask0) pos with
    | Except.error f => Except.error f
    | Except.ok newval1 =>
      match shl mask0 pos with
      | Except.error f => Except.error f
      | Except.ok mask =>
        let oldval := r.value
        let value := (r.value &&& bitNot mask) ||| newval1
        if newval1 ≠ oldval then
          Except.ok { r with value := value, signals := r.signals ++ [value] }
        else Except.ok { r with value := value }

/-- The value read back after a write to the same bit field, `none` if one of the two
calls ends in a fault. -/
def Register.writeRead (r : Register) (newval : Nat) (pos width : Int) : Option Nat :=
  match r.setValue newval pos width with
  | Except.error _ => none
  | Except.ok r1 =>
    match r1.getValue pos width with
    | Except.error _ => none
    | Except.ok v => some v

/-- The stored value and the number of logged signals after a run, `none` if the run
ended in a fault. -/
def registerOf (r : Except Fault Register) : Option (Nat × Nat) :=
  match r with
  | Except.ok r1 => some (r1.value, r1.signals.length)
  | Except.error _ => none

/-- A register that holds the value 3 and has emitted no signal. -/
def registerThree : Register := { value := 3, width := 16, signals := [] }

/-! ## Import of a touchstone file -/

/-- Modelled from the spec: one data point of a touchstone file
(`Touchstone::Datapoint`; the parser is an external collaborator and touchstone.h is not
part of the sources), of which `fillFromTouchstone` reads the frequency and the network
parameters `S`. -/
structure TouchstonePoint where
  frequency : ℚ
  S : List Cplx
deriving DecidableEq, Repr

/-- Modelled from the spec: what `fillFromTouchstone` reads of a `Touchstone` object
(the parser is an external collaborator and touchstone.h is not part of the sources).
`ports()` is taken as an `unsigned int`, like the `parameter` that it is compared with
and the loop counters of `createFromTouchstone`; `datapoints` gives `points()` and
`point(i)`. -/
structure Touchstone where
  ports : Nat
  datapoints : List TouchstonePoint
  filename : String
  referenceImpedance : ℚ
deriving DecidableEq, Repr

/-- How a call ends if it does not return: by a thrown `std::runtime_error` (with the
state that the object has at the throw), by a fault, or not at all. -/
inductive Abort where
  | thrown (what : String) (state : TraceObject)
  | fault (f : Fault)
  | endless
deriving DecidableEq, Repr

/-- The loop over the data points in `fillFromTouchstone`; the default arguments of
`addData` are the reference impedance 50 and no index. -/
def touchstoneLoop : List TouchstonePoint → Nat → Trace → Except Fault Trace
  | [], _, t => Except.ok t
  | tData :: rest, parameter, t =>
    match tData.S[parameter]? with
    | none => Except.error Fault.outOfRange
    | some y =>
      touchstoneLoop rest parameter
        (addData t { x := tData.frequency, y := y } DataType.Frequency 50 (-1))

/-- The loop `for (unsigned int i = 0; i * i <= parameter; i++)` of
`fillFromTouchstone` from the counter `i` on, all products and sums in `unsigned int`:
the value of `reflection` behind the loop. The first argument bounds the number of
rounds; `none` says that the loop has not ended within the bound. -/
def reflectionLoop (ports parameter : Nat) : Nat → Nat → Option Bool
  | 0, _ => none
  | rounds + 1, i =>
    if (i * i) % UINT_RANGE ≤ parameter then
      if parameter = (i * ports + i) % UINT_RANGE then some true
      else reflectionLoop ports parameter rounds ((i + 1) % UINT_RANGE)
    else some false

/-- Model of `Trace::fillFromTouchstone(Touchstone &t, unsigned int parameter)`. The
counter of the reflection loop has `UINT_RANGE` values; a loop that has not ended after
as many rounds is back at the counter 0 and never ends. -/
def fillFromTouchstone (o : TraceObject) (t : Touchstone) (parameter : Nat) :
    Except Abort TraceObject :=
  if parameter ≥ (t.ports * t.ports) % UINT_RANGE then
    Except.error (Abort.thrown "Parameter for touchstone out of range" o)
  else
    let cleared := clear o.toTrace clearForceDefault
    match touchstoneLoop t.datapoints parameter
        { cleared with domain := DataType.Frequency } with
    | Except.error f => Except.error (Abort.fault f)
    | Except.ok filled =>
      match reflectionLoop t.ports parameter UINT_RANGE 0 with
      | none => Except.error Abort.endless
      | some found =>
        let unbound := clearMathSources { filled with reflection := found }
        Except.ok
          { o with
            toTrace := (({ unbound with source := Source.File,
                                        reference_impedance := t.referenceImpedance }).emit
              Signal.typeChanged).emit (Signal.outputSamplesChanged 0 unbound.data.length),
            fileParameter := parameter, filename := t.filename }

/-- The reflection flag after an import, `none` if the call does not return. -/
def reflectionOf (r : Except Abort TraceObject) : Option Bool :=
  match r with
  | Except.ok o => some o.reflection
  | Except.error _ => none

/-- A touchstone file of the given number of ports with one data point at 1 GHz, whose
parameters are as many as `count`, all of value 1. -/
def onePointFile (ports count : Nat) : Touchstone :=
  { ports := ports,
    datapoints := [{ frequency := 1000000000, S := List.replicate count ⟨1, 0⟩ }],
    filename := "file.snp", referenceImpedance := 50 }

/-! ## Pausing -/

/-- Model of `Trace::canBePaused()` called on the trace `self` of the traces `M`. The
first argument bounds the depth of the recursion. -/
def canBePaused (M : Nat → Trace) : Nat → Nat → Except Fault Bool
  | 0, _ => Except.error Fault.recursion
  | fuel + 1, self =>
    match (M self).source with
    | Source.Live => Except.ok true
    | Source.File => Except.ok false
    | Source.Calibration => Except.ok false
    | Source.Math => anySource (fun m => canBePaused M fuel m) (M self).mathSourceTraces

/-- The trace `a` is a math trace and has the trace `b` as a source. -/
def MathEdge (M : Nat → Trace) (a b : Nat) : Prop :=
  (M a).source = Source.Math ∧ SourceEdge M a b

/-- A live trace can be reached from the trace `a` through source edges that start at
math traces (by no edge at all if `a` itself is live). -/
def ReachesLive (M : Nat → Trace) (a : Nat) : Prop :=
  ∃ b, Relation.ReflTransGen (MathEdge M) a b ∧ (M b).source = Source.Live

/-- Three traces in a row as in `rowOfTraces`, with the math traces 0 and 1 reading on
to the live trace 2; trace 3 is a file trace, every further trace is live. -/
def pausableRow : Nat → Trace := fun i =>
  if i = 0 then { freshTrace with source := Source.Math, mathSourceTraces := [(1, "a")] }
  else if i = 1 then { freshTrace with source := Source.Math, mathSourceTraces := [(2, "b")] }
  else if i = 3 then { freshTrace with source := Source.File }
  else freshTrace
/-! ## Lemmas on the sample store -/

theorem coords_length (data : List Data) : (coords data).length = data.length := by
  simp [coords]

theorem StrictAsc.lt_of_lt {data : List Data} (hs : StrictAsc data) {i j : Nat}
    (hi : i < data.length) (hj : j < data.length) (hij : i < j) :
    data[i].x < data[j].x := by
  have h := (List.pairwise_iff_getElem.mp hs) i j
    (by simpa [coords] using hi) (by simpa [coords] using hj) hij
  simpa [coords] using h

theorem StrictAsc.le_of_le {data : List Data} (hs : StrictAsc data) {i j : Nat}
    (hi : i < data.length) (hj : j < data.length) (hij : i ≤ j) :
    data[i].x ≤ data[j].x := by
  rcases Nat.eq_or_lt_of_le hij with h | h
  · subst h; exact le_refl _
  · exact le_of_lt (hs.lt_of_lt hi hj h)

theorem lowerBoundLoop_spec (data : List Data) (x : ℚ) (hs : StrictAsc data) :
    ∀ fuel first len, len ≤ fuel → first + len ≤ data.length →
      (∀ i (h : i < data.length), i < first → data[i].x < x) →
      (∀ i (h : i < data.length), first + len ≤ i → x ≤ data[i].x) →
      IsLowerBound data x (lowerBoundLoop data x fuel first len) := by
  intro fuel
  induction fuel with
  | zero =>
    intro first len hl hb hlo hhi
    have : len = 0 := by omega
    subst this
    exact ⟨by simpa [lowerBoundLoop] using hb, by simpa [lowerBoundLoop] using hlo,
      by simpa [lowerBoundLoop] using hhi⟩
  | succ fuel ih =>
    intro first len hl hb hlo hhi
    unfold lowerBoundLoop
    by_cases h0 : len = 0
    · subst h0
      simp only [if_true]
      exact ⟨by omega, hlo, by simpa using hhi⟩
    · simp only [h0, if_false]
      have hmid : first + len / 2 < data.length := by omega
      simp only [List.getElem?_eq_getElem hmid]
      by_cases hlt : (data[first + len / 2]).x < x
      · simp only [hlt, if_true]
        apply ih
        · omega
        · omega
        · intro i h hi
          exact lt_of_le_of_lt (hs.le_of_le h hmid (by omega)) hlt
        · intro i h hi
          exact hhi i h (by omega)
      · simp only [hlt, if_false]
        apply ih
        · omega
        · omega
        · exact hlo
        · intro i h hi
          exact le_trans (not_lt.mp hlt) (hs.le_of_le hmid h hi)

theorem lower_bound_spec (data : List Data) (x : ℚ) (hs : StrictAsc data) :
    IsLowerBound data x (lower_bound data x) := by
  unfold lower_bound
  apply lowerBoundLoop_spec data x hs
  · exact le_refl _
  · omega
  · intro i h hi; omega
  · intro i h hi; omega

theorem IsLowerBound.take_lt {data : List Data} {x : ℚ} {r : Nat}
    (h : IsLowerBound data x r) : ∀ a ∈ data.take r, a.x < x := by
  intro a ha
  obtain ⟨i, hi, rfl⟩ := List.mem_take_iff_getElem.mp ha
  exact h.2.1 i (by omega) (by omega)

theorem IsLowerBound.drop_ge {data : List Data} {x : ℚ} {r : Nat}
    (h : IsLowerBound data x r) : ∀ a ∈ data.drop r, x ≤ a.x := by
  intro a ha
  obtain ⟨i, hi, rfl⟩ := List.mem_drop_iff_getElem.mp ha
  exact h.2.2 (r + i) (by omega) (by omega)

/-- On a sorted store the elements behind position `r` are above `data[r]`. -/
theorem StrictAsc.drop_succ_gt {data : List Data} (hs : StrictAsc data) {r : Nat}
    (hr : r < data.length) : ∀ a ∈ data.drop (r + 1), data[r].x < a.x := by
  intro a ha
  obtain ⟨i, hi, rfl⟩ := List.mem_drop_iff_getElem.mp ha
  exact hs.lt_of_lt hr (by omega) (by omega)

theorem coords_set_same {data : List Data} {r : Nat} {d : Data} (hr : r < data.length)
    (hx : data[r].x = d.x) : coords (data.set r d) = coords data := by
  unfold coords
  rw [List.map_set]
  apply List.ext_getElem
  · simp
  · intro n h1 h2
    by_cases hn : r = n
    · subst hn; simp [hx]
    · simp [List.getElem_set_ne hn]

theorem strictAsc_insertAt {data : List Data} {r : Nat} {d : Data} (hs : StrictAsc data)
    (hlo : ∀ a ∈ data.take r, a.x < d.x) (hhi : ∀ a ∈ data.drop r, d.x < a.x) :
    StrictAsc (insertAt data r d) := by
  unfold StrictAsc coords insertAt
  rw [List.map_append, List.map_cons, List.pairwise_append]
  have hs1 : (List.map Data.x data).Pairwise (· < ·) := hs
  refine ⟨?_, ?_, ?_⟩
  · exact List.Pairwise.sublist (List.Sublist.map _ (List.take_sublist r data)) hs1
  · rw [List.pairwise_cons]
    refine ⟨?_, ?_⟩
    · intro b hb
      obtain ⟨a, ha, rfl⟩ := List.mem_map.mp hb
      exact hhi a ha
    · exact List.Pairwise.sublist (List.Sublist.map _ (List.drop_sublist r data)) hs1
  · intro a ha b hb
    obtain ⟨a1, ha1, rfl⟩ := List.mem_map.mp ha
    rcases List.mem_cons.mp hb with rfl | hb
    · exact hlo a1 ha1
    · obtain ⟨b1, hb1, rfl⟩ := List.mem_map.mp hb
      exact lt_trans (hlo a1 ha1) (hhi b1 hb1)

/-- Elements from position `r` on are strictly above `x` when `data[r]` is not at `x`. -/
theorem IsLowerBound.drop_gt {data : List Data} {x : ℚ} {r : Nat}
    (h : IsLowerBound data x r) (hne : ∀ (hr : r < data.length), data[r].x ≠ x)
    (hs : StrictAsc data) : ∀ a ∈ data.drop r, x < a.x := by
  intro a ha
  obtain ⟨i, hi, rfl⟩ := List.mem_drop_iff_getElem.mp ha
  have hr : r < data.length := by omega
  have h1 : x < data[r].x := lt_of_le_of_ne (h.2.2 r hr (le_refl _)) (Ne.symm (hne hr))
  exact lt_of_lt_of_le h1 (hs.le_of_le hr (by omega) (by omega))

/-- The write without index keeps a sorted store sorted, for every merge policy. -/
theorem strictAsc_mergeAt (liveType : LivedataType) {data : List Data} {r : Nat} (d : Data)
    (hs : StrictAsc data) (hr : IsLowerBound data d.x r) :
    StrictAsc (mergeAt liveType data r d) := by
  unfold mergeAt
  by_cases hlen : r < data.length
  · simp only [List.getElem?_eq_getElem hlen]
    by_cases hx : data[r].x = d.x
    · simp only [hx, if_true]
      have hset : StrictAsc (data.set r d) := by
        unfold StrictAsc; rw [coords_set_same hlen hx]; exact hs
      cases liveType
      · exact hset
      · dsimp only; split
        · exact hset
        · exact hs
      · dsimp only; split
        · exact hset
        · exact hs
      · exact hs
    · simp only [hx, if_false]
      exact strictAsc_insertAt hs hr.take_lt (hr.drop_gt (fun _ => hx) hs)
  · have hrl : r = data.length := le_antisymm hr.1 (not_lt.mp hlen)
    simp only [List.getElem?_eq_none (not_lt.mp hlen)]
    have := strictAsc_insertAt (r := r) (d := d) hs hr.take_lt
      (by rw [List.drop_of_length_le (not_lt.mp hlen)]; intro a ha; cases ha)
    simpa [insertAt, hrl] using this

theorem clear_data (t : Trace) (force : Bool) :
    (clear t force).data = t.data ∨ (clear t force).data = [] := by
  unfold clear
  split
  · exact Or.inl rfl
  · exact Or.inr rfl

theorem strictAsc_nil : StrictAsc [] := by
  simp [StrictAsc, coords]

theorem strictAsc_clear (t : Trace) (force : Bool) (hs : StrictAsc t.data) :
    StrictAsc (clear t force).data := by
  rcases clear_data t force with h | h <;> rw [h]
  · exact hs
  · exact strictAsc_nil

theorem changeImpedance_data (t : Trace) (ri : ℚ) : (changeImpedance t ri).data = t.data := by
  unfold changeImpedance; split <;> rfl

theorem changeDomain_data (t : Trace) (domain : DataType) :
    (changeDomain t domain).data =
      if t.domain ≠ domain then (clear t clearForceDefault).data else t.data := by
  unfold changeDomain; split <;> rfl

theorem changeDomain_liveType (t : Trace) (domain : DataType) :
    (changeDomain t domain).liveType = t.liveType := by
  unfold changeDomain clear; split
  · split <;> rfl
  · rfl

theorem writeSample_noIndex (t : Trace) (d : Data) (index : Int) (hi : index < 0) :
    writeSample t d index =
      ({ t with data := mergeAt t.liveType t.data (lower_bound t.data d.x) d },
        lower_bound t.data d.x) := by
  unfold writeSample
  rw [if_neg (not_le.mpr hi)]

/-- The store of `addData` without index: the merge at the lower bound, on the store
left by the domain check. -/
theorem addData_data_noIndex (t : Trace) (d : Data) (domain : DataType) (ri : ℚ)
    (index : Int) (hi : index < 0) :
    (addData t d domain ri index).data =
      mergeAt t.liveType (changeDomain t domain).data
        (lower_bound (changeDomain t domain).data d.x) d := by
  unfold addData
  simp only [writeSample_noIndex _ d index hi, Trace.emit, changeDomain_liveType]
  exact changeImpedance_data _ ri

theorem strictAsc_changeDomain (t : Trace) (domain : DataType) (hs : StrictAsc t.data) :
    StrictAsc (changeDomain t domain).data := by
  rw [changeDomain_data]
  split
  · exact strictAsc_clear t _ hs
  · exact hs

/-- One `addData` without index keeps a sorted store sorted. -/
theorem strictAsc_addData (t : Trace) (d : Data) (domain : DataType) (ri : ℚ)
    (index : Int) (hi : index < 0) (hs : StrictAsc t.data) :
    StrictAsc (addData t d domain ri index).data := by
  rw [addData_data_noIndex t d domain ri index hi]
  have hs1 := strictAsc_changeDomain t domain hs
  exact strictAsc_mergeAt _ d hs1 (lower_bound_spec _ _ hs1)

/-! ### Fields that `addData` leaves alone -/

theorem changeDomain_domain (t : Trace) (domain : DataType) :
    (changeDomain t domain).domain = domain := by
  unfold changeDomain; split
  · rfl
  · rename_i h; exact not_not.mp h

theorem changeDomain_same (t : Trace) : changeDomain t t.domain = t := by
  unfold changeDomain; simp

theorem changeImpedance_domain (t : Trace) (ri : ℚ) :
    (changeImpedance t ri).domain = t.domain := by
  unfold changeImpedance; split <;> rfl

theorem changeImpedance_liveType (t : Trace) (ri : ℚ) :
    (changeImpedance t ri).liveType = t.liveType := by
  unfold changeImpedance; split <;> rfl

theorem changeImpedance_source (t : Trace) (ri : ℚ) :
    (changeImpedance t ri).source = t.source := by
  unfold changeImpedance; split <;> rfl

theorem writeSample_domain (t : Trace) (d : Data) (index : Int) :
    (writeSample t d index).1.domain = t.domain := by
  unfold writeSample; split <;> rfl

theorem writeSample_liveType (t : Trace) (d : Data) (index : Int) :
    (writeSample t d index).1.liveType = t.liveType := by
  unfold writeSample; split <;> rfl

theorem writeSample_source (t : Trace) (d : Data) (index : Int) :
    (writeSample t d index).1.source = t.source := by
  unfold writeSample; split <;> rfl

theorem changeDomain_source (t : Trace) (domain : DataType) :
    (changeDomain t domain).source = t.source := by
  unfold changeDomain clear; split
  · split <;> rfl
  · rfl

theorem addData_domain (t : Trace) (d : Data) (domain : DataType) (ri : ℚ) (index : Int) :
    (addData t d domain ri index).domain = domain := by
  show (changeImpedance (writeSample (changeDomain t domain) d index).1 ri).domain = domain
  rw [changeImpedance_domain, writeSample_domain, changeDomain_domain]

theorem addData_liveType (t : Trace) (d : Data) (domain : DataType) (ri : ℚ) (index : Int) :
    (addData t d domain ri index).liveType = t.liveType := by
  show (changeImpedance (writeSample (changeDomain t domain) d index).1 ri).liveType = _
  rw [changeImpedance_liveType, writeSample_liveType, changeDomain_liveType]

theorem addData_source (t : Trace) (d : Data) (domain : DataType) (ri : ℚ) (index : Int) :
    (addData t d domain ri index).source = t.source := by
  show (changeImpedance (writeSample (changeDomain t domain) d index).1 ri).source = _
  rw [changeImpedance_source, writeSample_source, changeDomain_source]

/-! ### The position found by the binary search -/

theorem lower_bound_of_mem {data : List Data} (hs : StrictAsc data) {s : Data}
    (hmem : s ∈ data) {x : ℚ} (hx : s.x = x) :
    ∃ h : lower_bound data x < data.length, data[lower_bound data x] = s := by
  subst hx
  obtain ⟨j, hj, rfl⟩ := List.mem_iff_getElem.mp hmem
  have hb := lower_bound_spec data (data[j]).x hs
  have hrj : lower_bound data (data[j]).x ≤ j := by
    by_contra hcon
    exact lt_irrefl _ (hb.2.1 j hj (not_le.mp hcon))
  have hr : lower_bound data (data[j]).x < data.length := lt_of_le_of_lt hrj hj
  refine ⟨hr, ?_⟩
  rcases Nat.eq_or_lt_of_le hrj with h | h
  · simp only [h]
  · exact absurd (hs.lt_of_lt hr hj h) (not_lt.mpr (hb.2.2 _ hr (le_refl _)))

theorem mergeAt_of_absent (liveType : LivedataType) {data : List Data} (d : Data) {r : Nat}
    (hr : r ≤ data.length) (habs : ∀ s ∈ data, s.x ≠ d.x) :
    mergeAt liveType data r d = insertAt data r d := by
  unfold mergeAt
  by_cases hlen : r < data.length
  · simp only [List.getElem?_eq_getElem hlen]
    rw [if_neg (habs _ (List.getElem_mem hlen))]
  · have hrl : r = data.length := le_antisymm hr (not_lt.mp hlen)
    simp [List.getElem?_eq_none (not_lt.mp hlen), insertAt, hrl]

theorem mergeAt_of_present (liveType : LivedataType) {data : List Data} (d : Data) {r : Nat}
    (hr : r < data.length) (hx : data[r].x = d.x) :
    mergeAt liveType data r d = data.set r (mergeResult liveType data[r] d) := by
  have hself : data.set r data[r] = data := by
    apply List.ext_getElem
    · simp
    · intro n h1 h2
      by_cases hn : r = n
      · subst hn; simp
      · simp [List.getElem_set_ne hn]
  unfold mergeAt mergeResult
  simp only [List.getElem?_eq_getElem hr, hx, if_true]
  cases liveType
  · rfl
  · dsimp only; split
    · rfl
    · exact hself.symm
  · dsimp only; split
    · rfl
    · exact hself.symm
  · exact hself.symm

theorem mergeResult_x (liveType : LivedataType) (old d : Data) (h : old.x = d.x) :
    (mergeResult liveType old d).x = d.x := by
  unfold mergeResult
  cases liveType
  · rfl
  · dsimp only; split <;> simp [h]
  · dsimp only; split <;> simp [h]
  · exact h

/-- On a sorted store the sample found at a coordinate is the only one there. -/
theorem stored_of_mem {data : List Data} (hs : StrictAsc data) {s : Data} (hmem : s ∈ data) :
    stored data s.x = some s := by
  induction data with
  | nil => cases hmem
  | cons a rest ih =>
    have hs1 : (a.x :: coords rest).Pairwise (· < ·) := hs
    rw [List.pairwise_cons] at hs1
    unfold stored
    rw [List.find?_cons]
    rcases List.mem_cons.mp hmem with h | h
    · subst h; simp
    · have hlt : a.x < s.x := hs1.1 s.x (List.mem_map.mpr ⟨s, h, rfl⟩)
      have hne : (a.x == s.x) = false := by simpa using ne_of_lt hlt
      rw [hne]
      exact ih hs1.2 h

theorem stored_none_of_absent {data : List Data} {c : ℚ} (habs : ∀ s ∈ data, s.x ≠ c) :
    stored data c = none := by
  unfold stored
  rw [List.find?_eq_none]
  intro s hs
  simpa using habs s hs

/-! ### One write without index, described by its effect -/

theorem changeDomain_of_eq (t : Trace) {domain : DataType} (h : t.domain = domain) :
    changeDomain t domain = t := by
  subst h; exact changeDomain_same t

/-- A write at a coordinate that the store does not hold inserts at the lower bound. -/
theorem addData_absent (t : Trace) (d : Data) (ri : ℚ) (index : Int) (hi : index < 0)
    (hs : StrictAsc t.data) (habs : ∀ s ∈ t.data, s.x ≠ d.x) :
    (addData t d t.domain ri index).data = insertAt t.data (lower_bound t.data d.x) d := by
  rw [addData_data_noIndex t d t.domain ri index hi, changeDomain_same]
  exact mergeAt_of_absent _ d (lower_bound_spec _ _ hs).1 habs

/-- A write at the coordinate of a stored sample puts the result of the merge policy in
its place. -/
theorem addData_present (t : Trace) (d : Data) (ri : ℚ) (index : Int) (hi : index < 0)
    (hs : StrictAsc t.data) {old : Data} (hmem : old ∈ t.data) (hx : old.x = d.x) :
    ∃ h : lower_bound t.data d.x < t.data.length, t.data[lower_bound t.data d.x] = old ∧
      (addData t d t.domain ri index).data =
        t.data.set (lower_bound t.data d.x) (mergeResult t.liveType old d) := by
  obtain ⟨h, hget⟩ := lower_bound_of_mem hs hmem hx
  refine ⟨h, hget, ?_⟩
  rw [addData_data_noIndex t d t.domain ri index hi, changeDomain_same]
  rw [mergeAt_of_present _ d h (by rw [hget]; exact hx), hget]

theorem mem_insertAt (data : List Data) (r : Nat) (d : Data) : d ∈ insertAt data r d := by
  simp [insertAt]

theorem stored_addData_present (t : Trace) (d : Data) (ri : ℚ) (index : Int) (hi : index < 0)
    (hs : StrictAsc t.data) {old : Data} (hmem : old ∈ t.data) (hx : old.x = d.x) :
    stored (addData t d t.domain ri index).data d.x = some (mergeResult t.liveType old d) := by
  obtain ⟨h, _, hdata⟩ := addData_present t d ri index hi hs hmem hx
  have hsorted := strictAsc_addData t d t.domain ri index hi hs
  have hin : mergeResult t.liveType old d ∈ (addData t d t.domain ri index).data := by
    rw [hdata]; exact List.mem_set _ _ h _
  have := stored_of_mem hsorted hin
  rwa [mergeResult_x _ _ _ hx] at this

/-- Two writes at a fresh coordinate leave what the merge policy makes of them. -/
theorem stored_two_writes (t : Trace) (c : ℚ) (v1 v2 : Cplx) (domain : DataType)
    (ri1 ri2 : ℚ) (i1 i2 : Int) (h1 : i1 < 0) (h2 : i2 < 0)
    (hs : StrictAsc t.data) (habs : ∀ s ∈ t.data, s.x ≠ c) :
    stored (addData (addData t ⟨c, v1⟩ domain ri1 i1) ⟨c, v2⟩ domain ri2 i2).data c =
      some (mergeResult t.liveType ⟨c, v1⟩ ⟨c, v2⟩) := by
  have hs0 := strictAsc_changeDomain t domain hs
  have habs0 : ∀ s ∈ (changeDomain t domain).data, s.x ≠ c := by
    rw [changeDomain_data]
    split
    · intro s hmem
      rcases clear_data t clearForceDefault with h | h <;> rw [h] at hmem
      · exact habs s hmem
      · cases hmem
    · exact habs
  have hdata1 : (addData t ⟨c, v1⟩ domain ri1 i1).data =
      insertAt (changeDomain t domain).data (lower_bound (changeDomain t domain).data c)
        ⟨c, v1⟩ := by
    rw [addData_data_noIndex t _ domain ri1 i1 h1]
    exact mergeAt_of_absent _ _ (lower_bound_spec _ _ hs0).1 habs0
  have hs1 := strictAsc_addData t ⟨c, v1⟩ domain ri1 i1 h1 hs
  have hmem1 : (⟨c, v1⟩ : Data) ∈ (addData t ⟨c, v1⟩ domain ri1 i1).data := by
    rw [hdata1]; exact mem_insertAt _ _ _
  have hdom1 := addData_domain t ⟨c, v1⟩ domain ri1 i1
  have key := stored_addData_present (addData t ⟨c, v1⟩ domain ri1 i1) ⟨c, v2⟩ ri2 i2 h2 hs1
    hmem1 rfl
  rw [hdom1, addData_liveType] at key
  exact key

theorem normSq_nonneg (z : Cplx) : 0 ≤ z.normSq := by
  unfold Cplx.normSq
  exact add_nonneg (mul_self_nonneg _) (mul_self_nonneg _)

/-- The comparison of magnitudes `abs(a) < abs(b)` is the comparison of the squared
magnitudes. -/
theorem abs_lt_iff (a b : Cplx) :
    Real.sqrt (a.normSq : ℝ) < Real.sqrt (b.normSq : ℝ) ↔ Cplx.absLt a b = true := by
  unfold Cplx.absLt
  rw [decide_eq_true_iff, Real.sqrt_lt_sqrt_iff (by exact_mod_cast normSq_nonneg a)]
  exact_mod_cast Iff.rfl

theorem sqrt_cast_max (p q : ℚ) :
    Real.sqrt ((max p q : ℚ) : ℝ) = max (Real.sqrt (p : ℝ)) (Real.sqrt (q : ℝ)) := by
  rw [Rat.cast_max]
  exact Monotone.map_max (fun _ _ h => Real.sqrt_le_sqrt h)

theorem sqrt_cast_min (p q : ℚ) :
    Real.sqrt ((min p q : ℚ) : ℝ) = min (Real.sqrt (p : ℝ)) (Real.sqrt (q : ℝ)) := by
  rw [Rat.cast_min]
  exact Monotone.map_min (fun _ _ h => Real.sqrt_le_sqrt h)

theorem mergeResult_maxHold_normSq (c : ℚ) (v1 v2 : Cplx) :
    (mergeResult LivedataType.MaxHold ⟨c, v1⟩ ⟨c, v2⟩).y.normSq = max v1.normSq v2.normSq := by
  unfold mergeResult Cplx.absLt
  dsimp only
  by_cases h : v1.normSq < v2.normSq
  · simp [h, max_eq_right (le_of_lt h)]
  · simp [h, max_eq_left (not_lt.mp h)]

theorem mergeResult_minHold_normSq (c : ℚ) (v1 v2 : Cplx) :
    (mergeResult LivedataType.MinHold ⟨c, v1⟩ ⟨c, v2⟩).y.normSq = min v1.normSq v2.normSq := by
  unfold mergeResult Cplx.absLt
  dsimp only
  by_cases h : v2.normSq < v1.normSq
  · simp [h, min_eq_right (le_of_lt h)]
  · simp [h, min_eq_left (not_lt.mp h)]

theorem strictAsc_runAddData (calls : List AddCall) :
    ∀ t : Trace, (∀ c ∈ calls, c.index < 0) → StrictAsc t.data →
      StrictAsc (runAddData t calls).data := by
  induction calls with
  | nil => intro t _ hs; exact hs
  | cons c rest ih =>
    intro t hidx hs
    show StrictAsc (runAddData (AddCall.apply t c) rest).data
    apply ih
    · intro c1 h1; exact hidx c1 (List.mem_cons_of_mem _ h1)
    · exact strictAsc_addData _ c.d c.domain c.reference_impedance c.index
        (hidx c (List.mem_cons_self _ _)) hs

/-! ## Lemmas on the transform chain -/

theorem lastEnabled_cons (a : MathInfo) (l : List MathInfo) :
    lastEnabled (a :: l)
      = (lastEnabled l).or (if a.enabled then some a.math else none) := by
  unfold lastEnabled
  rw [List.reverse_cons, List.find?_append]
  cases h : List.find? (fun it => it.enabled) l.reverse with
  | some m => simp
  | none =>
    cases ha : a.enabled <;> simp [List.find?_cons, ha]

theorem lastEnabled_append_enabled (l : List MathInfo) (m : MathRef) :
    lastEnabled (l ++ [{ math := m, enabled := true }]) = some m := by
  unfold lastEnabled
  simp [List.find?_cons]

theorem lastEnabled_isSome_of_head (rest : List MathInfo) (m : MathRef) :
    ∃ r, lastEnabled ({ math := m, enabled := true } :: rest) = some r := by
  rw [lastEnabled_cons]
  cases h : lastEnabled rest with
  | some r => exact ⟨r, by simp⟩
  | none => exact ⟨m, by simp⟩

/-- The node found by the scan from the tail is the enabled node of greatest index. -/
theorem lastEnabled_spec (l : List MathInfo) (m : MathRef) (h : lastEnabled l = some m) :
    ∃ k, ∃ hk : k < l.length, l[k].enabled = true ∧ m = l[k].math ∧
      ∀ j (hj : j < l.length), k < j → l[j].enabled = false := by
  induction l with
  | nil => simp [lastEnabled] at h
  | cons a l ih =>
    rw [lastEnabled_cons] at h
    cases hl : lastEnabled l with
    | some r =>
      rw [hl] at h
      simp only [Option.or_some] at h
      have hr : r = m := Option.some.inj h
      subst hr
      obtain ⟨k, hk, hen, hm, hlast⟩ := ih hl
      refine ⟨k + 1, by simp; omega, by simpa using hen, by simpa using hm, ?_⟩
      intro j hj hkj
      cases j with
      | zero => omega
      | succ j =>
        simp only [List.getElem_cons_succ]
        exact hlast j (by simpa using hj) (by omega)
    | none =>
      rw [hl] at h
      simp only [Option.none_or] at h
      by_cases ha : a.enabled = true
      · rw [if_pos ha] at h
        refine ⟨0, by simp, by simpa using ha, by simpa using (Option.some.inj h).symm, ?_⟩
        intro j hj hkj
        cases j with
        | zero => omega
        | succ j =>
          simp only [List.getElem_cons_succ]
          have hjl : j < l.length := by simpa using hj
          by_contra hcon
          have hfind : (lastEnabled l).isSome = true := by
            unfold lastEnabled
            rw [Option.isSome_map', List.find?_isSome]
            exact ⟨l[j], by simp, by simpa using hcon⟩
          rw [hl] at hfind
          cases hfind
      · rw [if_neg ha] at h
        cases h

theorem lastEnabled_eraseIdx (l : List MathInfo) :
    ∀ i, (∀ m, l[i]? = some m → m.enabled = false) →
      lastEnabled (l.eraseIdx i) = lastEnabled l := by
  induction l with
  | nil => intro i _; rfl
  | cons a l ih =>
    intro i hdis
    cases i with
    | zero =>
      have ha : a.enabled = false := hdis a (by simp)
      rw [List.eraseIdx_cons_zero, lastEnabled_cons, ha]
      simp
    | succ i =>
      rw [List.eraseIdx_cons_succ, lastEnabled_cons, lastEnabled_cons, ih i]
      intro m hm
      exact hdis m (by simpa using hm)

theorem lastEnabled_set (l : List MathInfo) (b : MathInfo) (hb : b.enabled = false) :
    ∀ i, (∀ m, l[i]? = some m → m.enabled = false) →
      lastEnabled (l.set i b) = lastEnabled l := by
  induction l with
  | nil => intro i _; rfl
  | cons a l ih =>
    intro i hdis
    cases i with
    | zero =>
      have ha : a.enabled = false := hdis a (by simp)
      rw [List.set_cons_zero, lastEnabled_cons, lastEnabled_cons, ha, hb]
      simp
    | succ i =>
      rw [List.set_cons_succ, lastEnabled_cons, lastEnabled_cons, ih i]
      intro m hm
      exact hdis m (by simpa using hm)

/-! ### `updateLastMath` -/

theorem updateLastMath_full (t : Trace) {r : MathRef} (h : lastEnabled t.mathOps = some r) :
    ∃ t', updateLastMath t t.mathOps.length = Except.ok t' ∧
      t'.mathOps = t.mathOps ∧ t'.lastMath = some r ∧ t'.data = t.data ∧
      t'.inputs = t.inputs := by
  unfold lastEnabled at h
  unfold updateLastMath
  rw [List.take_length]
  cases hf : List.find? (fun it => it.enabled) t.mathOps.reverse with
  | none => rw [hf] at h; cases h
  | some it =>
    rw [hf] at h
    have hit : it.math = r := Option.some.inj h
    dsimp only
    by_cases hc : some it.math ≠ t.lastMath
    · rw [if_pos hc]
      exact ⟨_, rfl, rfl, by simp [Trace.emit, hit], rfl, rfl⟩
    · rw [if_neg hc]
      refine ⟨t, rfl, rfl, ?_, rfl, rfl⟩
      rw [← not_not.mp hc, hit]

theorem assignInput_mathOps (t : Trace) (m : MathRef) (input : Option MathRef) :
    (assignInput t m input).mathOps = t.mathOps := by
  unfold assignInput removeInput; cases input <;> rfl

theorem assignInput_lastMath (t : Trace) (m : MathRef) (input : Option MathRef) :
    (assignInput t m input).lastMath = t.lastMath := by
  unfold assignInput removeInput; cases input <;> rfl

theorem ChainInv.lastEnabled {t : Trace} (h : ChainInv t) :
    ∃ r, lastEnabled t.mathOps = some r := by
  obtain ⟨rest, hrest⟩ := h
  rw [hrest]
  exact lastEnabled_isSome_of_head rest _

/-! ### `enableMathOperation` -/

theorem scanPrev_le (ops : List MathInfo) : ∀ k, scanPrev ops k ≤ k := by
  intro k
  induction k with
  | zero => simp [scanPrev]
  | succ k ih =>
    unfold scanPrev
    split
    · split
      · exact le_refl _
      · omega
    · omega

theorem rewireInputs_mathOps (t : Trace) (e : Bool) (cur prev : MathInfo)
    (next : Option MathInfo) : (rewireInputs t e cur prev next).mathOps = t.mathOps := by
  unfold rewireInputs
  cases e <;> cases next <;> simp [assignInput_mathOps, removeInput]

theorem rewireInputs_lastMath (t : Trace) (e : Bool) (cur prev : MathInfo)
    (next : Option MathInfo) : (rewireInputs t e cur prev next).lastMath = t.lastMath := by
  unfold rewireInputs
  cases e <;> cases next <;> simp [assignInput_lastMath, removeInput]

theorem setEnabled_length (ops : List MathInfo) (i : Nat) (e : Bool) :
    (setEnabled ops i e).length = ops.length := by
  unfold setEnabled
  split <;> simp

theorem setEnabled_of_ge (ops : List MathInfo) (i : Nat) (e : Bool) (h : ops.length ≤ i) :
    setEnabled ops i e = ops := by
  unfold setEnabled
  rw [List.getElem?_eq_none h]

theorem set_getElem_same (ops : List MathInfo) (i : Nat) (h : i < ops.length) :
    ops.set i ops[i] = ops := by
  apply List.ext_getElem
  · simp
  · intro n h1 h2
    by_cases hn : i = n
    · subst hn; simp
    · simp [List.getElem_set_ne hn]

theorem setEnabled_same (ops : List MathInfo) (i : Nat) (e : Bool) (h : i < ops.length)
    (he : ops[i].enabled = e) : setEnabled ops i e = ops := by
  unfold setEnabled
  rw [List.getElem?_eq_getElem h]
  dsimp only
  have : ({ ops[i] with enabled := e } : MathInfo) = ops[i] := by
    rw [← he]
  rw [this]
  exact set_getElem_same ops i h

theorem setEnabled_cons_succ (a : MathInfo) (l : List MathInfo) (i : Nat) (e : Bool) :
    setEnabled (a :: l) (i + 1) e = a :: setEnabled l i e := by
  unfold setEnabled
  simp only [List.getElem?_cons_succ]
  split <;> simp

theorem setEnabled_getElem?_ne (ops : List MathInfo) (i j : Nat) (e : Bool) (h : i ≠ j) :
    (setEnabled ops i e)[j]? = ops[j]? := by
  unfold setEnabled
  split
  · exact List.getElem?_set_ne h
  · rfl

theorem setEnabled_getElem?_self (ops : List MathInfo) (i : Nat) (e : Bool) (m : MathInfo)
    (h : (setEnabled ops i e)[i]? = some m) : m.enabled = e := by
  unfold setEnabled at h
  split at h
  · rename_i cur hcur
    have hi : i < ops.length := (List.getElem?_eq_some.mp hcur).1
    rw [List.getElem?_set_self hi] at h
    rw [← Option.some.inj h]
  · rename_i hnone
    rw [hnone] at h
    cases h

theorem headOk_set {ops rest : List MathInfo} {a : MathInfo} (h : ops = a :: rest)
    (i : Nat) (hi : 1 ≤ i) (x : MathInfo) : ∃ rest', ops.set i x = a :: rest' := by
  subst h
  cases i with
  | zero => omega
  | succ i => exact ⟨rest.set i x, rfl⟩

theorem headOk_setEnabled {ops rest : List MathInfo} {a : MathInfo} (h : ops = a :: rest)
    (i : Nat) (hi : 1 ≤ i) (e : Bool) : ∃ rest', setEnabled ops i e = a :: rest' := by
  subst h
  cases i with
  | zero => omega
  | succ i => exact ⟨setEnabled rest i e, setEnabled_cons_succ a rest i e⟩

/-- `enableMathOperation` always returns on a chain with the identity node in front; it
sets the flag of a node other than the identity node and keeps the output node in step. -/
theorem enableMathOperation_spec (t : Trace) (i : Nat) (e : Bool) (hc : ChainInv t) :
    ∃ t', enableMathOperation t i e = Except.ok t' ∧
      t'.mathOps = (if 1 ≤ i then setEnabled t.mathOps i e else t.mathOps) ∧
      (Synced t → Synced t') ∧ t'.data = t.data := by
  unfold enableMathOperation
  by_cases hg : i < 1 ∨ i ≥ t.mathOps.length
  · rw [if_pos hg]
    refine ⟨t, rfl, ?_, id, rfl⟩
    split
    · rw [setEnabled_of_ge]; omega
    · rfl
  · rw [if_neg hg]
    have h1 : 1 ≤ i := by omega
    have h2 : i < t.mathOps.length := by omega
    rw [List.getElem?_eq_getElem h2, if_pos h1]
    dsimp only
    by_cases hen : t.mathOps[i].enabled ≠ e
    · rw [if_pos hen]
      have hprev : scanPrev t.mathOps (i - 1) < t.mathOps.length := by
        have := scanPrev_le t.mathOps (i - 1); omega
      rw [List.getElem?_eq_getElem hprev]
      dsimp only
      have hset : setEnabled t.mathOps i e
          = t.mathOps.set i { t.mathOps[i] with enabled := e } := by
        unfold setEnabled
        rw [List.getElem?_eq_getElem h2]
      obtain ⟨rest, hrest⟩ := hc
      obtain ⟨rest', hrest'⟩ := headOk_setEnabled hrest i h1 e
      obtain ⟨r, hr⟩ := lastEnabled_isSome_of_head rest' MathRef.self
      rw [← hrest', hset] at hr
      obtain ⟨t', hok, hops, hlast, hdata, _⟩ := updateLastMath_full
        { rewireInputs t e t.mathOps[i] t.mathOps[scanPrev t.mathOps (i - 1)]
            t.mathOps[scanNext (t.mathOps.drop (i + 1)) (i + 1)]? with
          mathOps := (rewireInputs t e t.mathOps[i] t.mathOps[scanPrev t.mathOps (i - 1)]
            t.mathOps[scanNext (t.mathOps.drop (i + 1)) (i + 1)]?).mathOps.set i
              { t.mathOps[i] with enabled := e } }
        (r := r) (by simpa [rewireInputs_mathOps] using hr)
      refine ⟨t', hok, ?_, ?_, ?_⟩
      · rw [hops, hset]
        simp [rewireInputs_mathOps]
      · intro _
        unfold Synced
        rw [hlast, hops]
        simpa [rewireInputs_mathOps] using hr.symm
      · rw [hdata]
        unfold rewireInputs
        cases e <;> cases t.mathOps[scanNext (t.mathOps.drop (i + 1)) (i + 1)]? <;>
          simp [assignInput, removeInput]
    · rw [if_neg hen]
      refine ⟨t, rfl, ?_, id, rfl⟩
      rw [setEnabled_same t.mathOps i e h2 (not_not.mp hen)]

theorem enableMathOperation_chainInv (t t' : Trace) (i : Nat) (e : Bool) (hc : ChainInv t)
    (h : enableMathOperation t i e = Except.ok t') :
    ChainInv t' ∧ t'.mathOps.length = t.mathOps.length ∧ (Synced t → Synced t') ∧
    t'.mathOps = (if 1 ≤ i then setEnabled t.mathOps i e else t.mathOps) := by
  obtain ⟨t1, hok, hops, hsync, _⟩ := enableMathOperation_spec t i e hc
  rw [hok] at h
  have ht : t1 = t' := Except.ok.inj h
  subst ht
  refine ⟨?_, ?_, hsync, hops⟩
  · obtain ⟨rest, hrest⟩ := hc
    unfold ChainInv
    rw [hops]
    split
    · rename_i h1
      exact headOk_setEnabled hrest i h1 e
    · exact ⟨rest, hrest⟩
  · rw [hops]
    split
    · exact setEnabled_length _ _ _
    · rfl

/-! ### The other chain functions -/

theorem addMathOperation_spec (t : Trace) (m : MathRef) :
    ∃ t', addMathOperation t m = Except.ok t' ∧
      t'.mathOps = t.mathOps ++ [{ math := m, enabled := true }] ∧
      t'.lastMath = some m := by
  unfold addMathOperation
  obtain ⟨t', hok, hops, hlast, _, _⟩ := updateLastMath_full
    { assignInput t m t.lastMath with
      mathOps := (assignInput t m t.lastMath).mathOps ++ [{ math := m, enabled := true }] }
    (r := m) (lastEnabled_append_enabled _ m)
  exact ⟨t', hok, by rw [hops]; simp [assignInput_mathOps], hlast⟩

theorem addMathOperationsLoop_mathOps (maths : List MathRef) :
    ∀ (input : Option MathRef) (t : Trace),
      (addMathOperationsLoop maths input t).mathOps
        = t.mathOps ++ maths.map (fun m => { math := m, enabled := true }) := by
  induction maths with
  | nil => intro input t; simp [addMathOperationsLoop]
  | cons m rest ih =>
    intro input t
    unfold addMathOperationsLoop
    rw [ih]
    simp [assignInput_mathOps]

theorem addMathOperations_spec (t : Trace) (maths : List MathRef) (hc : ChainInv t) :
    ∃ t', addMathOperations t maths = Except.ok t' ∧
      t'.mathOps = t.mathOps ++ maths.map (fun m => { math := m, enabled := true }) ∧
      Synced t' := by
  unfold addMathOperations
  obtain ⟨rest, hrest⟩ := hc
  have hops := addMathOperationsLoop_mathOps maths t.lastMath t
  obtain ⟨r, hr⟩ := lastEnabled_isSome_of_head
    (rest ++ maths.map (fun m => { math := m, enabled := true })) MathRef.self
  rw [← List.cons_append, ← hrest, ← hops] at hr
  obtain ⟨t', hok, hops', hlast, _, _⟩ :=
    updateLastMath_full (addMathOperationsLoop maths t.lastMath t) hr
  refine ⟨t', hok, by rw [hops', hops], ?_⟩
  unfold Synced
  rw [hlast, hops', hr]

theorem removeInput_mathOps (t : Trace) (m : MathRef) :
    (removeInput t m).mathOps = t.mathOps := rfl

theorem removeInput_lastMath (t : Trace) (m : MathRef) :
    (removeInput t m).lastMath = t.lastMath := rfl

theorem headOk_eraseIdx {ops rest : List MathInfo} {a : MathInfo} (h : ops = a :: rest)
    (i : Nat) (hi : 1 ≤ i) : ∃ rest', ops.eraseIdx i = a :: rest' := by
  subst h
  cases i with
  | zero => omega
  | succ i => exact ⟨rest.eraseIdx i, rfl⟩

theorem eraseIdx_set_same (l : List MathInfo) (x : MathInfo) :
    ∀ i, (l.set i x).eraseIdx i = l.eraseIdx i := by
  induction l with
  | nil => intro i; rfl
  | cons a l ih =>
    intro i
    cases i with
    | zero => rfl
    | succ i => simp [ih i]

theorem eraseIdx_setEnabled (l : List MathInfo) (i : Nat) (e : Bool) :
    (setEnabled l i e).eraseIdx i = l.eraseIdx i := by
  unfold setEnabled
  split
  · exact eraseIdx_set_same l _ i
  · rfl

/-- `removeMathOperation` always returns on a chain with the identity node in front. An
index other than 0 inside the chain erases that position; any other index changes
nothing. -/
theorem removeMathOperation_spec (t : Trace) (i : Nat) (hc : ChainInv t) :
    ∃ t', removeMathOperation t i = Except.ok t' ∧ ChainInv t' ∧
      t'.mathOps = (if 1 ≤ i ∧ i < t.mathOps.length then t.mathOps.eraseIdx i
        else t.mathOps) ∧
      (Synced t → Synced t') := by
  unfold removeMathOperation
  by_cases hg : i < 1 ∨ i ≥ t.mathOps.length
  · rw [if_pos hg]
    refine ⟨t, rfl, hc, ?_, id⟩
    rw [if_neg (by omega)]
  · rw [if_neg hg]
    have h1 : 1 ≤ i := by omega
    have h2 : i < t.mathOps.length := by omega
    rw [List.getElem?_eq_getElem h2, if_pos ⟨h1, h2⟩]
    dsimp only
    -- the state after the optional disabling
    have hstep : ∃ t1, (if t.mathOps[i].enabled = true then enableMathOperation t i false
          else Except.ok t) = Except.ok t1 ∧ ChainInv t1 ∧
        t1.mathOps = setEnabled t.mathOps i false ∧ (Synced t → Synced t1) := by
      by_cases hen : t.mathOps[i].enabled = true
      · rw [if_pos hen]
        obtain ⟨t1, hok, hops, hsync, _⟩ := enableMathOperation_spec t i false hc
        rw [if_pos h1] at hops
        exact ⟨t1, hok, (enableMathOperation_chainInv t t1 i false hc hok).1, hops, hsync⟩
      · rw [if_neg hen]
        refine ⟨t, rfl, hc, ?_, id⟩
        rw [setEnabled_same t.mathOps i false h2 (by simpa using hen)]
    obtain ⟨t1, hok1, hc1, hops1, hsync1⟩ := hstep
    rw [hok1]
    have hlen1 : i < t1.mathOps.length := by rw [hops1, setEnabled_length]; exact h2
    show ∃ t', eraseOperation t1 i = Except.ok t' ∧ _
    unfold eraseOperation
    rw [List.getElem?_eq_getElem hlen1]
    refine ⟨_, rfl, ?_, ?_, ?_⟩
    · obtain ⟨rest, hrest⟩ := hc1
      exact headOk_eraseIdx hrest i h1
    · show t1.mathOps.eraseIdx i = _
      rw [hops1, eraseIdx_setEnabled]
    · intro hs
      have hs1 := hsync1 hs
      unfold Synced at hs1 ⊢
      show t1.lastMath = lastEnabled (t1.mathOps.eraseIdx i)
      rw [lastEnabled_eraseIdx, hs1]
      intro m hm
      rw [hops1] at hm
      exact setEnabled_getElem?_self _ _ _ _ hm

theorem enableMath_spec (t : Trace) (e : Bool) (hc : ChainInv t) :
    ∃ t', enableMath t e = Except.ok t' ∧ t'.mathOps = t.mathOps := by
  unfold enableMath
  cases e
  · obtain ⟨rest, hrest⟩ := hc
    unfold updateLastMath
    simp only [hrest, Bool.false_eq_true, if_false, List.take_succ_cons, List.take_zero,
      List.reverse_cons, List.reverse_nil, List.nil_append, List.find?_cons]
    split
    · exact ⟨_, rfl, rfl⟩
    · exact ⟨t, rfl, hrest⟩
  · obtain ⟨r, hr⟩ := hc.lastEnabled
    obtain ⟨t', hok, hops, _, _, _⟩ := updateLastMath_full t hr
    exact ⟨t', by simpa using hok, hops⟩

/-! ### `swapMathOrder` -/

theorem getElem?_setEnabled_isSome (ops : List MathInfo) (i j : Nat) (e : Bool)
    (hj : j < ops.length) : ∃ m, (setEnabled ops i e)[j]? = some m := by
  have : j < (setEnabled ops i e).length := by rw [setEnabled_length]; exact hj
  exact ⟨_, List.getElem?_eq_getElem this⟩

/-- Without wrap-around of `index + 1`, `swapMathOrder` returns on every chain with the
identity node in front, keeps that node in front and keeps the output node in step. -/
theorem swapMathOrder_spec (t : Trace) (i : Nat) (hc : ChainInv t)
    (hi : i + 1 < UINT_RANGE) :
    ∃ t', swapMathOrder t i = Except.ok t' ∧ ChainInv t' ∧
      t'.mathOps.length = t.mathOps.length ∧ (Synced t → Synced t') := by
  unfold swapMathOrder
  have hnext : (i + 1) % UINT_RANGE = i + 1 := Nat.mod_eq_of_lt hi
  simp only [hnext]
  by_cases hg : i < 1 ∨ i + 1 ≥ t.mathOps.length
  · rw [if_pos hg]
    exact ⟨t, rfl, hc, rfl, id⟩
  · rw [if_neg hg]
    have h1 : 1 ≤ i := by omega
    have h2 : i + 1 < t.mathOps.length := by omega
    rw [List.getElem?_eq_getElem (by omega : i < t.mathOps.length)]
    dsimp only
    -- first disabling
    obtain ⟨t1, hok1, _, _, _⟩ := enableMathOperation_spec t i false hc
    obtain ⟨hc1, hlen1, hsync1, hops1⟩ := enableMathOperation_chainInv t t1 i false hc hok1
    rw [if_pos h1] at hops1
    -- second disabling
    obtain ⟨t2, hok2, _, _, _⟩ := enableMathOperation_spec t1 (i + 1) false hc1
    obtain ⟨hc2, hlen2, hsync2, hops2⟩ :=
      enableMathOperation_chainInv t1 t2 (i + 1) false hc1 hok2
    rw [if_pos (by omega : 1 ≤ i + 1)] at hops2
    -- the two entries that are exchanged
    have hi2 : i < t2.mathOps.length := by omega
    have hn2 : i + 1 < t2.mathOps.length := by omega
    have ha : t2.mathOps[i].enabled = false := by
      apply setEnabled_getElem?_self t.mathOps i false
      rw [← List.getElem?_eq_getElem hi2, hops2,
        setEnabled_getElem?_ne _ _ _ _ (by omega : i + 1 ≠ i), hops1]
    have hb : t2.mathOps[i + 1].enabled = false := by
      apply setEnabled_getElem?_self t1.mathOps (i + 1) false
      rw [← List.getElem?_eq_getElem hn2, hops2]
    have hok3 : swapEntries t2 i (i + 1) = Except.ok
        { t2 with mathOps := (t2.mathOps.set i t2.mathOps[i + 1]).set (i + 1) t2.mathOps[i] } := by
      unfold swapEntries
      rw [List.getElem?_eq_getElem hi2, List.getElem?_eq_getElem hn2]
    have hc3 : ChainInv { t2 with mathOps :=
        (t2.mathOps.set i t2.mathOps[i + 1]).set (i + 1) t2.mathOps[i] } := by
      obtain ⟨rest, hrest⟩ := hc2
      obtain ⟨rest1, hrest1⟩ := headOk_set hrest i h1 t2.mathOps[i + 1]
      exact headOk_set hrest1 (i + 1) (by omega) t2.mathOps[i]
    have hlast3 : lastEnabled ((t2.mathOps.set i t2.mathOps[i + 1]).set (i + 1) t2.mathOps[i])
        = lastEnabled t2.mathOps := by
      rw [lastEnabled_set _ _ ha, lastEnabled_set _ _ hb]
      · intro m hm
        rw [List.getElem?_eq_getElem hi2] at hm
        rw [← Option.some.inj hm]; exact ha
      · intro m hm
        rw [List.getElem?_set_ne (by omega : i ≠ i + 1), List.getElem?_eq_getElem hn2] at hm
        rw [← Option.some.inj hm]; exact hb
    -- the two restoring calls
    obtain ⟨t4, hok4, _, _, _⟩ := enableMathOperation_spec _ i t.mathOps[i].enabled hc3
    obtain ⟨hc4, hlen4, hsync4, _⟩ := enableMathOperation_chainInv _ t4 i _ hc3 hok4
    obtain ⟨t5, hok5, _, _, _⟩ := enableMathOperation_spec t4 (i + 1) t.mathOps[i].enabled hc4
    obtain ⟨hc5, hlen5, hsync5, _⟩ := enableMathOperation_chainInv t4 t5 (i + 1) _ hc4 hok5
    refine ⟨t5, ?_, hc5, ?_, ?_⟩
    · rw [hok1]
      show (enableMathOperation t1 (i + 1) false >>= _) = _
      rw [hok2]
      show (swapEntries t2 i (i + 1) >>= _) = _
      rw [hok3]
      show (enableMathOperation _ i t.mathOps[i].enabled >>= _) = _
      rw [hok4]
      exact hok5
    · rw [hlen5, hlen4]
      simp only [List.length_set]
      rw [hlen2, hlen1]
    · intro hs
      apply hsync5
      apply hsync4
      have hs2 := hsync2 (hsync1 hs)
      unfold Synced at hs2 ⊢
      show t2.lastMath = lastEnabled _
      rw [hlast3, hs2]

/-! ### Sequences of calls -/

theorem chainOp_step (t : Trace) (op : ChainOp) (hc : ChainInv t)
    (hidx : op.noWrap = true) :
    ∃ t', op.apply t = Except.ok t' ∧ ChainInv t' ∧
      (op.isNodeOp = true → Synced t → Synced t') := by
  cases op with
  | addMathOperation m =>
    obtain ⟨t', hok, hops, hlast⟩ := addMathOperation_spec t m
    obtain ⟨rest, hrest⟩ := hc
    refine ⟨t', hok, ⟨rest ++ [{ math := m, enabled := true }], by rw [hops, hrest]; rfl⟩, ?_⟩
    intro _ _
    unfold Synced
    rw [hlast, hops, lastEnabled_append_enabled]
  | addMathOperations maths =>
    obtain ⟨t', hok, hops, hs⟩ := addMathOperations_spec t maths hc
    obtain ⟨rest, hrest⟩ := hc
    exact ⟨t', hok, ⟨rest ++ maths.map (fun m => { math := m, enabled := true }),
      by rw [hops, hrest]; rfl⟩, fun _ _ => hs⟩
  | removeMathOperation i =>
    obtain ⟨t', hok, hc', _, hs⟩ := removeMathOperation_spec t i hc
    exact ⟨t', hok, hc', fun _ => hs⟩
  | enableMathOperation i e =>
    obtain ⟨t', hok, _, _, _⟩ := enableMathOperation_spec t i e hc
    obtain ⟨hc', _, hs, _⟩ := enableMathOperation_chainInv t t' i e hc hok
    exact ⟨t', hok, hc', fun _ => hs⟩
  | swapMathOrder i =>
    obtain ⟨t', hok, hc', _, hs⟩ := swapMathOrder_spec t i hc (by simpa [ChainOp.noWrap] using hidx)
    exact ⟨t', hok, hc', fun _ => hs⟩
  | enableMath e =>
    obtain ⟨t', hok, hops⟩ := enableMath_spec t e hc
    obtain ⟨rest, hrest⟩ := hc
    refine ⟨t', hok, ⟨rest, by rw [hops, hrest]⟩, ?_⟩
    intro h
    cases h

/-- Without wrap-around in `swapMathOrder`, every sequence of chain calls runs to its
end, keeps the enabled identity node in front and, if it holds no `enableMath` call,
keeps the output node in step with the chain. -/
theorem runChain_spec (ops : List ChainOp) :
    ∀ t : Trace, ChainInv t →
      (∀ op ∈ ops, op.noWrap = true) →
      ∃ t', runChain t ops = Except.ok t' ∧ ChainInv t' ∧
        ((∀ op ∈ ops, op.isNodeOp = true) → Synced t → Synced t') := by
  induction ops with
  | nil => intro t hc _; exact ⟨t, rfl, hc, fun _ hs => hs⟩
  | cons op rest ih =>
    intro t hc hidx
    obtain ⟨t1, hok1, hc1, hs1⟩ :=
      chainOp_step t op hc (hidx op (List.mem_cons_self _ _))
    obtain ⟨t', hok, hc', hs'⟩ :=
      ih t1 hc1 (fun o ho => hidx o (List.mem_cons_of_mem _ ho))
    refine ⟨t', ?_, hc', ?_⟩
    · unfold runChain
      rw [hok1]
      exact hok
    · intro hnode hs
      exact hs' (fun o ho => hnode o (List.mem_cons_of_mem _ ho))
        (hs1 (hnode op (List.mem_cons_self _ _)) hs)

theorem freshTrace_chainInv : ChainInv freshTrace := ⟨[], rfl⟩

theorem new_spec (live : LiveParameter) (now : Nat) :
    ∃ t0, Trace.new live now = Except.ok t0 ∧
      t0.mathOps = [{ math := MathRef.self, enabled := true }] ∧
      t0.lastMath = some MathRef.self ∧ t0.data = [] := by
  refine ⟨_, rfl, rfl, rfl, rfl⟩

/-! ## Lemmas on the evaluation pass -/

theorem coords_set_y (data : List Data) (i : Nat) (hi : i < data.length) (v : Cplx) :
    coords (data.set i { data[i] with y := v }) = coords data :=
  coords_set_same hi rfl

theorem evalLoop_ok (P : ParserX) (env : Nat → SourceView) (t : Trace) :
    ∀ n i data, i + n ≤ data.length →
      ∃ r, evalLoop P env t n i data = Except.ok r ∧ coords r.1 = coords data := by
  intro n
  induction n with
  | zero => intro i data _; exact ⟨_, rfl, rfl⟩
  | succ n ih =>
    intro i data h
    have hi : i < data.length := by omega
    unfold evalLoop
    rw [List.getElem?_eq_getElem hi]
    dsimp only
    split
    · exact ⟨_, rfl, rfl⟩
    · rename_i res _
      obtain ⟨r, hok, hco⟩ := ih (i + 1) (data.set i { data[i] with y := res })
        (by rw [List.length_set]; omega)
      exact ⟨r, hok, by rw [hco, coords_set_y data i hi]⟩

theorem fillLoop_ok :
    ∀ n i data, i + n ≤ data.length →
      ∃ r, fillLoop n i data = Except.ok r ∧ coords r = coords data := by
  intro n
  induction n with
  | zero => intro i data _; exact ⟨_, rfl, rfl⟩
  | succ n ih =>
    intro i data h
    have hi : i < data.length := by omega
    unfold fillLoop
    rw [List.getElem?_eq_getElem hi]
    dsimp only
    obtain ⟨r, hok, hco⟩ := ih (i + 1) (data.set i { data[i] with y := complexQuietNaN })
      (by rw [List.length_set]; omega)
    exact ⟨r, hok, by rw [hco, coords_set_y data i hi]⟩

theorem evaluatePass_ok (P : ParserX) (env : Nat → SourceView) (t : Trace)
    (h : t.mathUpdateBegin + (t.mathUpdateEnd - t.mathUpdateBegin) ≤ t.data.length) :
    ∃ t', evaluatePass P env t = Except.ok t' ∧ coords t'.data = coords t.data := by
  unfold evaluatePass
  have htried : ∃ r, (if P.define t.mathFormula (t.mathSourceTraces.map Prod.snd) = true then
        evalLoop P env t (t.mathUpdateEnd - t.mathUpdateBegin) t.mathUpdateBegin t.data
      else Except.ok (t.data, true)) = Except.ok r ∧ coords r.1 = coords t.data := by
    split
    · exact evalLoop_ok P env t _ _ _ h
    · exact ⟨_, rfl, rfl⟩
  obtain ⟨r, hok, hco⟩ := htried
  dsimp only
  rw [hok]
  show ∃ t', ((if r.2 = true then fillLoop (t.mathUpdateEnd - t.mathUpdateBegin)
      t.mathUpdateBegin r.1 else Except.ok r.1) >>= _) = Except.ok t' ∧ _
  have hlen : r.1.length = t.data.length := by
    have := congrArg List.length hco
    simpa [coords] using this
  have hfill : ∃ data1, (if r.2 = true then fillLoop (t.mathUpdateEnd - t.mathUpdateBegin)
      t.mathUpdateBegin r.1 else Except.ok r.1) = Except.ok data1 ∧
      coords data1 = coords r.1 := by
    split
    · exact fillLoop_ok _ _ _ (by rw [hlen]; exact h)
    · exact ⟨_, rfl, rfl⟩
  obtain ⟨data1, hok1, hco1⟩ := hfill
  rw [hok1]
  exact ⟨_, rfl, by show coords data1 = _; rw [hco1, hco]⟩

/-- `calculateMath` always returns and leaves every coordinate of the store as it is. -/
theorem calculateMath_coords (P : ParserX) (env : Nat → SourceView) (now : Nat) (t : Trace) :
    ∃ t', calculateMath P env now t = Except.ok t' ∧ coords t'.data = coords t.data := by
  unfold calculateMath
  dsimp only
  split
  · exact ⟨_, rfl, rfl⟩
  · rename_i hg
    split
    · exact ⟨_, rfl, rfl⟩
    · have hpass : ∃ t1, (if (!t.paused) = true then
            evaluatePass P env { t with lastMathUpdate := now }
          else Except.ok { t with lastMathUpdate := now }) = Except.ok t1 ∧
          coords t1.data = coords t.data := by
        split
        · exact evaluatePass_ok P env { t with lastMathUpdate := now } (by dsimp only; omega)
        · exact ⟨_, rfl, rfl⟩
      obtain ⟨t1, hok, hco⟩ := hpass
      rw [hok]
      exact ⟨_, rfl, hco⟩

/-! ## The claims on the sample store -/

theorem new_eq_freshTrace : Trace.new LiveParameter.S11 0 = Except.ok freshTrace := by
  decide

/-- C1: every sequence of `addData` calls without explicit index on a trace that
starts empty, with any domains, merge policies and pause states, leaves the sample
store strictly ascending by coordinate after every call. -/
theorem addData_sequence_strictAsc (t0 : Trace) (calls : List AddCall)
    (hempty : t0.data = []) (hidx : ∀ c ∈ calls, c.index < 0) (n : Nat) :
    StrictAsc (runAddData t0 (calls.take n)).data := by
  apply strictAsc_runAddData
  · intro c hc
    exact hidx c (List.mem_of_mem_take hc)
  · rw [hempty]; exact strictAsc_nil

theorem addData_sequence_strictAsc_witness :
    StrictAsc (runAddData freshTrace (sampleCalls.take 3)).data :=
  addData_sequence_strictAsc freshTrace sampleCalls rfl (by decide) 3

/-- C2: two writes without index at a coordinate `c` that a sorted store does not hold
yet leave at `c` a sample of magnitude `max(|v1|,|v2|)` under MaxHold and of magnitude
`min(|v1|,|v2|)` under MinHold, in either order of the two writes. -/
theorem hold_merge_two_writes (t : Trace) (c : ℚ) (v1 v2 : Cplx) (domain : DataType)
    (ri1 ri2 : ℚ) (i1 i2 : Int) (h1 : i1 < 0) (h2 : i2 < 0)
    (hs : StrictAsc t.data) (habs : ∀ s ∈ t.data, s.x ≠ c) :
    ∃ s s',
      stored (addData (addData t ⟨c, v1⟩ domain ri1 i1) ⟨c, v2⟩ domain ri2 i2).data c
        = some s ∧
      stored (addData (addData t ⟨c, v2⟩ domain ri1 i1) ⟨c, v1⟩ domain ri2 i2).data c
        = some s' ∧
      (t.liveType = LivedataType.MaxHold →
        Real.sqrt (s.y.normSq : ℝ)
          = max (Real.sqrt (v1.normSq : ℝ)) (Real.sqrt (v2.normSq : ℝ)) ∧
        Real.sqrt (s'.y.normSq : ℝ)
          = max (Real.sqrt (v1.normSq : ℝ)) (Real.sqrt (v2.normSq : ℝ))) ∧
      (t.liveType = LivedataType.MinHold →
        Real.sqrt (s.y.normSq : ℝ)
          = min (Real.sqrt (v1.normSq : ℝ)) (Real.sqrt (v2.normSq : ℝ)) ∧
        Real.sqrt (s'.y.normSq : ℝ)
          = min (Real.sqrt (v1.normSq : ℝ)) (Real.sqrt (v2.normSq : ℝ))) := by
  refine ⟨_, _, stored_two_writes t c v1 v2 domain ri1 ri2 i1 i2 h1 h2 hs habs,
    stored_two_writes t c v2 v1 domain ri1 ri2 i1 i2 h1 h2 hs habs, ?_, ?_⟩
  · intro hl
    rw [hl, mergeResult_maxHold_normSq, mergeResult_maxHold_normSq, sqrt_cast_max,
      sqrt_cast_max]
    exact ⟨rfl, max_comm _ _⟩
  · intro hl
    rw [hl, mergeResult_minHold_normSq, mergeResult_minHold_normSq, sqrt_cast_min,
      sqrt_cast_min]
    exact ⟨rfl, min_comm _ _⟩

theorem hold_merge_two_writes_witness :
    ∃ s, stored (addData (addData { twoSampleTrace with liveType := LivedataType.MaxHold }
          ⟨2, ⟨3, 4⟩⟩ DataType.Time 50 (-1)) ⟨2, ⟨1, 0⟩⟩ DataType.Time 50 (-1)).data 2
        = some s ∧
      Real.sqrt (s.y.normSq : ℝ)
        = max (Real.sqrt ((Cplx.mk 3 4).normSq : ℝ)) (Real.sqrt ((Cplx.mk 1 0).normSq : ℝ)) := by
  obtain ⟨s, _, hs, _, hmax, _⟩ :=
    hold_merge_two_writes { twoSampleTrace with liveType := LivedataType.MaxHold } 2 ⟨3, 4⟩
      ⟨1, 0⟩ DataType.Time 50 50 (-1) (-1) (by decide) (by decide) (by decide!) (by decide!)
  exact ⟨s, hs, (hmax rfl).1⟩

/-- C4, as the claim states it, fails: on a calibration trace whose merge policy is
MaxHold a write of magnitude 1 at the coordinate of a stored sample of magnitude 2
does not replace the stored sample. -/
theorem merge_policy_applies_to_calibration_trace :
    calibrationHoldTrace.source = Source.Calibration ∧
    calibrationHoldTrace.liveType = LivedataType.MaxHold ∧
    stored calibrationHoldTrace.data 1 = some ⟨1, ⟨2, 0⟩⟩ ∧
    stored (addData calibrationHoldTrace ⟨1, ⟨1, 0⟩⟩ DataType.Frequency 50 (-1)).data 1
      ≠ some ⟨1, ⟨1, 0⟩⟩ := by
  decide!

/-- C4, amended: the merge policy is applied whatever the source of the trace is. A
write without index at the coordinate of a stored sample `old` of a sorted store leaves
there the new sample under Overwrite, the one of greater magnitude under MaxHold (the
stored one on a tie), the one of smaller magnitude under MinHold (the stored one on a
tie), and the stored one under Invalid. -/
theorem merge_policy_for_every_source (t : Trace) (d old : Data) (ri : ℚ) (index : Int)
    (hi : index < 0) (hs : StrictAsc t.data) (hmem : old ∈ t.data) (hx : old.x = d.x) :
    (t.liveType = LivedataType.Overwrite →
      stored (addData t d t.domain ri index).data d.x = some d) ∧
    (t.liveType = LivedataType.MaxHold →
      stored (addData t d t.domain ri index).data d.x
        = some (if old.y.normSq < d.y.normSq then d else old)) ∧
    (t.liveType = LivedataType.MinHold →
      stored (addData t d t.domain ri index).data d.x
        = some (if d.y.normSq < old.y.normSq then d else old)) ∧
    (t.liveType = LivedataType.Invalid →
      stored (addData t d t.domain ri index).data d.x = some old) := by
  have key := stored_addData_present t d ri index hi hs hmem hx
  refine ⟨?_, ?_, ?_, ?_⟩ <;> intro hl <;> rw [key, hl] <;>
    simp [mergeResult, Cplx.absLt]

theorem merge_policy_for_every_source_witness :
    stored (addData calibrationHoldTrace ⟨1, ⟨1, 0⟩⟩ calibrationHoldTrace.domain 50 (-1)).data
        (Data.mk 1 ⟨1, 0⟩).x
      = some (if (Data.mk 1 ⟨2, 0⟩).y.normSq < (Data.mk 1 ⟨1, 0⟩).y.normSq
          then ⟨1, ⟨1, 0⟩⟩ else ⟨1, ⟨2, 0⟩⟩) :=
  (merge_policy_for_every_source calibrationHoldTrace ⟨1, ⟨1, 0⟩⟩ ⟨1, ⟨2, 0⟩⟩ 50 (-1)
    (by decide) (by decide!) (by decide!) rfl).2.1 (by decide!)

/-- C5, as the claim states it, fails: a paused trace keeps its samples when a write
arrives with another domain. -/
theorem paused_trace_keeps_samples_on_domain_change :
    pausedTrace.domain = DataType.Frequency ∧
    pausedTrace.data = [⟨1, ⟨2, 0⟩⟩] ∧
    (addData pausedTrace ⟨2, ⟨5, 0⟩⟩ DataType.Time 50 (-1)).domain = DataType.Time ∧
    (addData pausedTrace ⟨2, ⟨5, 0⟩⟩ DataType.Time 50 (-1)).data
      = [⟨1, ⟨2, 0⟩⟩, ⟨2, ⟨5, 0⟩⟩] := by
  decide!

/-! ## The claim on all store-mutating operations -/

/-- C3, as the claim states it, fails: two writes with explicit index put coordinate 2
in front of coordinate 1, and a grown evaluation grid keeps the coordinates 5 and 6 of
the old cells in front of the new cell at coordinate 2. -/
theorem explicit_index_and_grid_growth_break_order :
    StrictAsc (addData freshTrace ⟨2, ⟨1, 0⟩⟩ DataType.Frequency 50 0).data ∧
    ¬ StrictAsc (addData (addData freshTrace ⟨2, ⟨1, 0⟩⟩ DataType.Frequency 50 0)
        ⟨1, ⟨1, 0⟩⟩ DataType.Frequency 50 1).data ∧
    coordsOf (updateMathTracePoints sourceSweepA formulaTrace) = some [5, 6] ∧
    coordsOf (updateMathTracePoints sourceSweepA formulaTrace
        >>= updateMathTracePoints sourceSweepB) = some [5, 6, 2] := by
  decide!

/-- C3, amended: on a sorted store, `addData` without explicit index, `clear` and
`calculateMath` (which always returns) leave the store strictly ascending. -/
theorem sorted_store_preserved (t : Trace) (hs : StrictAsc t.data) :
    (∀ (d : Data) (domain : DataType) (ri : ℚ) (index : Int), index < 0 →
      StrictAsc (addData t d domain ri index).data) ∧
    (∀ force : Bool, StrictAsc (clear t force).data) ∧
    (∀ (P : ParserX) (env : Nat → SourceView) (now : Nat),
      ∃ t', calculateMath P env now t = Except.ok t' ∧ StrictAsc t'.data) := by
  refine ⟨?_, ?_, ?_⟩
  · intro d domain ri index hi
    exact strictAsc_addData t d domain ri index hi hs
  · intro force
    exact strictAsc_clear t force hs
  · intro P env now
    obtain ⟨t', hok, hco⟩ := calculateMath_coords P env now t
    refine ⟨t', hok, ?_⟩
    unfold StrictAsc
    rw [hco]
    exact hs

theorem sorted_store_preserved_witness :
    StrictAsc (addData pendingFormulaTrace ⟨2, ⟨5, 0⟩⟩ DataType.Frequency 50 (-1)).data ∧
    StrictAsc (clear pendingFormulaTrace true).data ∧
    ∃ t', calculateMath firstSourceParser sourceSweepA 100 pendingFormulaTrace
        = Except.ok t' ∧ StrictAsc t'.data :=
  have h := sorted_store_preserved pendingFormulaTrace (by decide!)
  ⟨h.1 ⟨2, ⟨5, 0⟩⟩ DataType.Frequency 50 (-1) (by decide), h.2.1 true,
    h.2.2 firstSourceParser sourceSweepA 100⟩

theorem writeSample_data_congr (t u : Trace) (d : Data) (index : Int)
    (hd : t.data = u.data) (hl : t.liveType = u.liveType) :
    (writeSample t d index).1.data = (writeSample u d index).1.data := by
  unfold writeSample
  split
  · simp only [hd]
  · simp only [hd, hl]

theorem addData_data (t : Trace) (d : Data) (domain : DataType) (ri : ℚ) (index : Int) :
    (addData t d domain ri index).data = (writeSample (changeDomain t domain) d index).1.data :=
  changeImpedance_data _ ri

theorem replicate_succ_set (n : Nat) (a b : Data) :
    (List.replicate (n + 1) a).set n b = List.replicate n a ++ [b] := by
  induction n with
  | zero => rfl
  | succ n ih =>
    rw [List.replicate_succ, List.set_cons_succ, ih, List.replicate_succ, List.cons_append]

theorem writeSample_empty (t : Trace) (d : Data) (index : Int) (he : t.data = []) :
    (index < 0 → (writeSample t d index).1.data = [d]) ∧
    (0 ≤ index → (writeSample t d index).1.data
      = List.replicate index.toNat Data.zero ++ [d]) := by
  constructor
  · intro hi
    rw [writeSample_noIndex t d index hi, he]
    rfl
  · intro hi
    unfold writeSample
    rw [if_pos hi]
    simp only [he, List.length_nil, Nat.zero_le, if_true, resize, List.take_nil,
      List.nil_append, Nat.sub_zero]
    exact replicate_succ_set _ _ _

/-- C5, amended: a write whose domain differs from the domain of the trace always makes
the new domain the domain of the trace. If the trace is not paused the store is cleared
first, so that afterwards it holds only what this call wrote (the new sample alone
without index, the new sample behind `index` value-initialised cells with an index). If
the trace is paused the store is not cleared: it is the store that the same write makes
on the trace already in the new domain. -/
theorem domain_change_clears_unless_paused (t : Trace) (d : Data) (domain : DataType)
    (ri : ℚ) (index : Int) (hdom : t.domain ≠ domain) :
    (addData t d domain ri index).domain = domain ∧
    (t.paused = false →
      (index < 0 → (addData t d domain ri index).data = [d]) ∧
      (0 ≤ index → (addData t d domain ri index).data
        = List.replicate index.toNat Data.zero ++ [d])) ∧
    (t.paused = true →
      (addData t d domain ri index).data
        = (addData { t with domain := domain } d domain ri index).data) := by
  refine ⟨addData_domain t d domain ri index, ?_, ?_⟩
  · intro hp
    have he : (changeDomain t domain).data = [] := by
      rw [changeDomain_data, if_pos hdom]
      simp [clear, hp, Trace.emit]
    rw [addData_data]
    exact writeSample_empty _ d index he
  · intro hp
    rw [addData_data, addData_data]
    apply writeSample_data_congr
    · rw [changeDomain_data, if_pos hdom, changeDomain_of_eq _ rfl]
      simp [clear, hp, clearForceDefault]
    · rw [changeDomain_liveType, changeDomain_liveType]

theorem domain_change_clears_unless_paused_witness :
    (addData twoSampleTrace ⟨2, ⟨5, 0⟩⟩ DataType.Time 50 (-1)).domain = DataType.Time ∧
    (addData twoSampleTrace ⟨2, ⟨5, 0⟩⟩ DataType.Time 50 (-1)).data = [⟨2, ⟨5, 0⟩⟩] :=
  have h := domain_change_clears_unless_paused twoSampleTrace ⟨2, ⟨5, 0⟩⟩ DataType.Time 50
    (-1) (by decide)
  ⟨h.1, (h.2.1 rfl).1 (by decide)⟩

/-- C6: `clear(force)` on a paused trace without `force` changes nothing at all (store,
`settings.valid`, signals); in every other case the store is empty afterwards and the
signals `cleared` and `outputSamplesChanged(0, 0)` have been emitted. -/
theorem clear_effect (t : Trace) (force : Bool) :
    (t.paused = true ∧ force = false → clear t force = t) ∧
    (¬ (t.paused = true ∧ force = false) →
      (clear t force).data = [] ∧
      (clear t force).signals
        = t.signals ++ [Signal.cleared, Signal.outputSamplesChanged 0 0]) := by
  constructor
  · rintro ⟨hp, hf⟩
    simp [clear, hp, hf]
  · intro h
    have hc : (t.paused && !force) = false := by
      cases hp : t.paused <;> cases hf : force <;> simp_all
    simp [clear, hc, Trace.emit]

theorem clear_effect_witness :
    clear pausedTrace false = pausedTrace ∧ (clear pausedTrace true).data = [] :=
  ⟨(clear_effect pausedTrace false).1 ⟨rfl, rfl⟩,
    ((clear_effect pausedTrace true).2 (by decide)).1⟩

theorem addData_signals_last (t : Trace) (d : Data) (domain : DataType) (ri : ℚ)
    (index : Int) (hi : index < 0) :
    (addData t d domain ri index).signals.getLast?
      = some (Signal.outputSamplesChanged (lower_bound (changeDomain t domain).data d.x)
          (lower_bound (changeDomain t domain).data d.x + 1)) := by
  unfold addData
  simp only [writeSample_noIndex _ d index hi, Trace.emit]
  simp

theorem insertAt_getElem (data : List Data) (i : Nat) (d : Data) (hi : i ≤ data.length) :
    (insertAt data i d)[i]? = some d := by
  unfold insertAt
  have hl : (data.take i).length = i := by simp [hi]
  rw [List.getElem?_append_right (by omega), hl]
  simp

/-- C7: on a sorted store a write without index that keeps the domain reports the range
`[i, i+1)` of an index `i` that is valid afterwards and holds the written coordinate.
If no stored sample had that coordinate, the new store is the old one with the new
sample inserted at `i`; if one had it, the length is unchanged and every sample at
another coordinate is unchanged. -/
theorem addData_noIndex_effect (t : Trace) (d : Data) (ri : ℚ) (index : Int)
    (hi : index < 0) (hs : StrictAsc t.data) :
    ∃ i : Nat,
      (addData t d t.domain ri index).signals.getLast?
        = some (Signal.outputSamplesChanged i (i + 1)) ∧
      (∃ h : i < (addData t d t.domain ri index).data.length,
        ((addData t d t.domain ri index).data[i]).x = d.x) ∧
      ((∀ s ∈ t.data, s.x ≠ d.x) →
        i ≤ t.data.length ∧
        (addData t d t.domain ri index).data = t.data.take i ++ d :: t.data.drop i ∧
        (addData t d t.domain ri index).data.length = t.data.length + 1) ∧
      ((∃ s ∈ t.data, s.x = d.x) →
        (addData t d t.domain ri index).data.length = t.data.length ∧
        ∀ j (hj : j < t.data.length), (t.data[j]).x ≠ d.x →
          (addData t d t.domain ri index).data[j]? = some t.data[j]) := by
  refine ⟨lower_bound t.data d.x, ?_, ?_⟩
  · have := addData_signals_last t d t.domain ri index hi
    rwa [changeDomain_same] at this
  by_cases hex : ∃ s ∈ t.data, s.x = d.x
  · obtain ⟨old, hmem, hx⟩ := hex
    obtain ⟨h, hget, hdata⟩ := addData_present t d ri index hi hs hmem hx
    refine ⟨?_, ?_, ?_⟩
    · refine ⟨by rw [hdata, List.length_set]; exact h, ?_⟩
      simp only [hdata, List.getElem_set_self]
      exact mergeResult_x _ _ _ hx
    · intro habs
      exact absurd hx (habs old hmem)
    · intro _
      refine ⟨by rw [hdata, List.length_set], ?_⟩
      intro j hj hne
      have hij : lower_bound t.data d.x ≠ j := by
        intro hij
        subst hij
        exact hne (by rw [hget]; exact hx)
      rw [hdata, List.getElem?_set_ne hij, List.getElem?_eq_getElem hj]
  · have habs : ∀ s ∈ t.data, s.x ≠ d.x := fun s hmem hx => hex ⟨s, hmem, hx⟩
    have hdata := addData_absent t d ri index hi hs habs
    have hle := (lower_bound_spec t.data d.x hs).1
    have hlen : (addData t d t.domain ri index).data.length = t.data.length + 1 := by
      rw [hdata]; simp [insertAt]; omega
    have hget := insertAt_getElem t.data _ d hle
    rw [← hdata] at hget
    obtain ⟨h, hval⟩ := List.getElem?_eq_some.mp hget
    refine ⟨⟨h, by rw [hval]⟩, ?_, ?_⟩
    · intro _
      exact ⟨hle, hdata, hlen⟩
    · intro hex2
      exact absurd hex2 hex

theorem addData_noIndex_effect_witness :
    ∃ i : Nat,
      (addData twoSampleTrace ⟨2, ⟨5, 0⟩⟩ twoSampleTrace.domain 50 (-1)).signals.getLast?
        = some (Signal.outputSamplesChanged i (i + 1)) ∧
      (addData twoSampleTrace ⟨2, ⟨5, 0⟩⟩ twoSampleTrace.domain 50 (-1)).data
        = twoSampleTrace.data.take i ++ ⟨2, ⟨5, 0⟩⟩ :: twoSampleTrace.data.drop i := by
  obtain ⟨i, hsig, _, habs, _⟩ :=
    addData_noIndex_effect twoSampleTrace ⟨2, ⟨5, 0⟩⟩ 50 (-1) (by decide) (by decide!)
  exact ⟨i, hsig, (habs (by decide!)).2.1⟩

/-! ## The claims on the transform chain -/

/-- C8, the failing input: on a new trace `swapMathOrder(4294967295)` passes its guard,
because `index + 1` wraps around to 0, and reaches the accesses `mathOps[4294967295]`
outside the chain of one node, while `enableMathOperation` and `removeMathOperation`
reject the same index and leave the trace as it is. -/
theorem swapMathOrder_index_wraps :
    (4294967295 + 1) % UINT_RANGE = 0 ∧
    swapMathOrder freshTrace 4294967295 = Except.error Fault.outOfRange ∧
    enableMathOperation freshTrace 4294967295 false = Except.ok freshTrace ∧
    removeMathOperation freshTrace 4294967295 = Except.ok freshTrace := by
  decide

/-- C9: from a new trace every sequence of `addMathOperation`, `addMathOperations`,
`removeMathOperation`, `enableMathOperation` and `swapMathOrder` calls (the index of a
swap below the greatest `unsigned int`) runs to its end, and afterwards the output node
`lastMath` is the enabled node with the greatest index in `mathOps`; a following
`addMathOperation` makes the appended node the output node. -/
theorem lastMath_is_last_enabled_node (live : LiveParameter) (now : Nat) (ops : List ChainOp)
    (hnode : ∀ op ∈ ops, op.isNodeOp = true)
    (hidx : ∀ op ∈ ops, op.noWrap = true) :
    ∃ t0 t, Trace.new live now = Except.ok t0 ∧ runChain t0 ops = Except.ok t ∧
      (∃ k, ∃ hk : k < t.mathOps.length,
        t.mathOps[k].enabled = true ∧ t.lastMath = some t.mathOps[k].math ∧
        ∀ j (hj : j < t.mathOps.length), k < j → t.mathOps[j].enabled = false) ∧
      (∀ m, ∃ t', addMathOperation t m = Except.ok t' ∧
        t'.mathOps = t.mathOps ++ [{ math := m, enabled := true }] ∧
        t'.lastMath = some m) := by
  obtain ⟨t0, hnew, hops0, hlast0, _⟩ := new_spec live now
  have hc0 : ChainInv t0 := ⟨[], hops0⟩
  have hs0 : Synced t0 := by
    unfold Synced
    rw [hlast0, hops0]
    rfl
  obtain ⟨t, hrun, hc, hs⟩ := runChain_spec ops t0 hc0 hidx
  refine ⟨t0, t, hnew, hrun, ?_, fun m => addMathOperation_spec t m⟩
  have hsync := hs hnode hs0
  obtain ⟨r, hr⟩ := hc.lastEnabled
  obtain ⟨k, hk, hen, hm, hlast⟩ := lastEnabled_spec t.mathOps r hr
  refine ⟨k, hk, hen, ?_, hlast⟩
  rw [hsync, hr, hm]

theorem lastMath_is_last_enabled_node_witness :
    ∃ t0 t, Trace.new LiveParameter.S21 7 = Except.ok t0 ∧
      runChain t0 [ChainOp.addMathOperation (MathRef.op 1),
        ChainOp.addMathOperations [MathRef.op 2, MathRef.op 3],
        ChainOp.enableMathOperation 3 false, ChainOp.swapMathOrder 1,
        ChainOp.removeMathOperation 2] = Except.ok t ∧
      ∃ k, ∃ hk : k < t.mathOps.length,
        t.mathOps[k].enabled = true ∧ t.lastMath = some t.mathOps[k].math ∧
        ∀ j (hj : j < t.mathOps.length), k < j → t.mathOps[j].enabled = false := by
  obtain ⟨t0, t, h0, hrun, hlast, _⟩ :=
    lastMath_is_last_enabled_node LiveParameter.S21 7
      [ChainOp.addMathOperation (MathRef.op 1),
        ChainOp.addMathOperations [MathRef.op 2, MathRef.op 3],
        ChainOp.enableMathOperation 3 false, ChainOp.swapMathOrder 1,
        ChainOp.removeMathOperation 2]
      (by decide) (by decide)
  exact ⟨t0, t, h0, hrun, hlast⟩

/-- C10, the failing input: in the chain identity, node 1 (enabled), node 2 (disabled)
the call `swapMathOrder(1)` exchanges the two nodes but leaves both of them enabled:
node 2 does not keep its disabled state. -/
theorem swapMathOrder_loses_enabled_flag :
    chainOf (runChain freshTrace [ChainOp.addMathOperation (MathRef.op 1),
        ChainOp.addMathOperation (MathRef.op 2), ChainOp.enableMathOperation 2 false])
      = some [⟨MathRef.self, true⟩, ⟨MathRef.op 1, true⟩, ⟨MathRef.op 2, false⟩] ∧
    chainOf (runChain freshTrace [ChainOp.addMathOperation (MathRef.op 1),
        ChainOp.addMathOperation (MathRef.op 2), ChainOp.enableMathOperation 2 false,
        ChainOp.swapMathOrder 1])
      = some [⟨MathRef.self, true⟩, ⟨MathRef.op 2, true⟩, ⟨MathRef.op 1, true⟩] := by
  decide

/-! ## Frame lemmas of the formula engine -/

theorem updateMathTracePoints_sources (env : Nat → SourceView) (t u : Trace)
    (h : updateMathTracePoints env t = Except.ok u) :
    u.mathSourceTraces = t.mathSourceTraces := by
  unfold updateMathTracePoints at h
  dsimp only at h
  split_ifs at h <;> cases h <;> rfl

theorem updateMathTracePoints_noSources (env : Nat → SourceView) (t : Trace)
    (h : t.mathSourceTraces = []) : updateMathTracePoints env t = Except.ok t := by
  unfold updateMathTracePoints
  rw [if_pos (by rw [h]; rfl)]

theorem bind_ok_inv {α β : Type} (x : Except Fault α) (f : α → Except Fault β) (b : β)
    (h : (x >>= f) = Except.ok b) : ∃ a, x = Except.ok a ∧ f a = Except.ok b := by
  cases x with
  | error e => cases h
  | ok a => exact ⟨a, rfl, h⟩

theorem evaluatePass_frame (P : ParserX) (env : Nat → SourceView) (t t' : Trace)
    (h : evaluatePass P env t = Except.ok t') :
    t'.mathSourceTraces = t.mathSourceTraces ∧ t'.mathOps = t.mathOps ∧
    t'.source = t.source ∧ t'.paused = t.paused := by
  unfold evaluatePass at h
  dsimp only at h
  obtain ⟨tried, _, h⟩ := bind_ok_inv _ _ _ h
  obtain ⟨data1, _, h⟩ := bind_ok_inv _ _ _ h
  cases h
  exact ⟨rfl, rfl, rfl, rfl⟩

/-- `calculateMath` changes neither the sources nor the chain, the kind of source or the
pause state of the trace. -/
theorem calculateMath_frame (P : ParserX) (env : Nat → SourceView) (now : Nat) (t t' : Trace)
    (h : calculateMath P env now t = Except.ok t') :
    t'.mathSourceTraces = t.mathSourceTraces ∧ t'.mathOps = t.mathOps ∧
    t'.source = t.source ∧ t'.paused = t.paused := by
  unfold calculateMath at h
  dsimp only at h
  split at h
  · rw [← Except.ok.inj h]; exact ⟨rfl, rfl, rfl, rfl⟩
  · split at h
    · rw [← Except.ok.inj h]; exact ⟨rfl, rfl, rfl, rfl⟩
    · obtain ⟨t1, h1, h⟩ := bind_ok_inv _ _ _ h
      have hf : t1.mathSourceTraces = t.mathSourceTraces ∧ t1.mathOps = t.mathOps ∧
          t1.source = t.source ∧ t1.paused = t.paused := by
        split at h1
        · exact evaluatePass_frame P env { t with lastMathUpdate := now } t1 h1
        · cases h1; exact ⟨rfl, rfl, rfl, rfl⟩
      cases h
      exact hf

/-- `scheduleMathCalculation` always returns; it changes neither the coordinates of the
store nor the sources. -/
theorem scheduleMathCalculation_spec (P : ParserX) (env : Nat → SourceView) (minInterval : Int)
    (now : Nat) (t : Trace) (b e : Nat) :
    ∃ t', scheduleMathCalculation P env minInterval now t b e = Except.ok t' ∧
      coords t'.data = coords t.data ∧ t'.mathSourceTraces = t.mathSourceTraces := by
  unfold scheduleMathCalculation
  split
  · exact ⟨t, rfl, rfl, rfl⟩
  · dsimp only
    have hd : ∀ u : Trace, (if e > (if b < t.mathUpdateBegin then { t with mathUpdateBegin := b }
          else t).mathUpdateEnd then
        { (if b < t.mathUpdateBegin then { t with mathUpdateBegin := b } else t) with
          mathUpdateEnd := e }
        else (if b < t.mathUpdateBegin then { t with mathUpdateBegin := b } else t)) = u →
        u.data = t.data ∧ u.mathSourceTraces = t.mathSourceTraces := by
      intro u hu
      rw [← hu]
      split <;> split <;> exact ⟨rfl, rfl⟩
    generalize (if e > (if b < t.mathUpdateBegin then { t with mathUpdateBegin := b }
          else t).mathUpdateEnd then
        { (if b < t.mathUpdateBegin then { t with mathUpdateBegin := b } else t) with
          mathUpdateEnd := e }
        else (if b < t.mathUpdateBegin then { t with mathUpdateBegin := b } else t)) = u at hd ⊢
    obtain ⟨hdata, hsrc⟩ := hd u rfl
    split
    · obtain ⟨t', hok, hco⟩ := calculateMath_coords P env now u
      refine ⟨t', hok, by rw [hco, hdata], ?_⟩
      rw [(calculateMath_frame P env now u t' hok).1, hsrc]
    · exact ⟨_, rfl, by rw [← hdata], hsrc⟩

/-! ## Lemmas on the dependency graph -/

theorem hasSource_iff (c : Trace) (t : Nat) : hasSource c t = true ↔ t ∈ sourceIds c := by
  unfold hasSource sourceIds
  simp only [List.any_eq_true, List.mem_map, beq_iff_eq]

theorem anySource_true (f : Nat → Except Fault Bool) (l : List (Nat × String))
    (h : anySource f l = Except.ok true) : ∃ m ∈ l, f m.1 = Except.ok true := by
  induction l with
  | nil => cases h
  | cons m rest ih =>
    unfold anySource at h
    split at h
    · cases h
    · rename_i hm; exact ⟨m, List.mem_cons_self _ _, hm⟩
    · obtain ⟨x, hx, hfx⟩ := ih h
      exact ⟨x, List.mem_cons_of_mem _ hx, hfx⟩

theorem anySource_false (f : Nat → Except Fault Bool) (l : List (Nat × String))
    (h : anySource f l = Except.ok false) : ∀ m ∈ l, f m.1 = Except.ok false := by
  induction l with
  | nil => intro m hm; cases hm
  | cons m rest ih =>
    unfold anySource at h
    split at h
    · cases h
    · cases h
    · rename_i hm
      intro x hx
      rcases List.mem_cons.mp hx with rfl | hx
      · exact hm
      · exact ih h x hx

theorem anySource_error (f : Nat → Except Fault Bool) (l : List (Nat × String)) (e : Fault)
    (h : anySource f l = Except.error e) : ∃ m ∈ l, f m.1 = Except.error e := by
  induction l with
  | nil => cases h
  | cons m rest ih =>
    unfold anySource at h
    split at h
    · rename_i e' hm
      cases h
      exact ⟨m, List.mem_cons_self _ _, hm⟩
    · cases h
    · obtain ⟨x, hx, hfx⟩ := ih h
      exact ⟨x, List.mem_cons_of_mem _ hx, hfx⟩

theorem mem_sourceIds_of_mem {c : Trace} {m : Nat × String} (h : m ∈ c.mathSourceTraces) :
    m.1 ∈ sourceIds c :=
  List.mem_map.mpr ⟨m, h, rfl⟩

/-- A `true` of `mathDependsOn` is a dependency. -/
theorem mathDependsOn_true (M : Nat → Trace) :
    ∀ fuel a t od, mathDependsOn M fuel a t od = Except.ok true → DependsOn M a t := by
  intro fuel
  induction fuel with
  | zero => intro a t od h; cases h
  | succ fuel ih =>
    intro a t od h
    unfold mathDependsOn at h
    split at h
    · rename_i hs
      exact Relation.TransGen.single ((hasSource_iff _ _).mp hs)
    · split at h
      · cases h
      · obtain ⟨m, hm, hrec⟩ := anySource_true _ _ h
        exact Relation.TransGen.head (mem_sourceIds_of_mem hm) (ih m.1 t false hrec)

/-- A `false` of the transitive `mathDependsOn` excludes a dependency. -/
theorem mathDependsOn_false (M : Nat → Trace) :
    ∀ fuel a t, mathDependsOn M fuel a t false = Except.ok false → ¬ DependsOn M a t := by
  intro fuel
  induction fuel with
  | zero => intro a t h; cases h
  | succ fuel ih =>
    intro a t h hdep
    unfold mathDependsOn at h
    split at h
    · cases h
    · rename_i hs
      simp only [Bool.false_eq_true, if_false] at h
      have hall := anySource_false _ _ h
      obtain ⟨b, hab, hbt⟩ := Relation.TransGen.head'_iff.mp hdep
      rcases Relation.reflTransGen_iff_eq_or_transGen.mp hbt with heq | htr
      · subst heq
        exact hs ((hasSource_iff _ _).mpr hab)
      · obtain ⟨m, hm, rfl⟩ := List.mem_map.mp hab
        exact ih m.1 t (hall m hm) htr

/-- A recursion that uses up its bound has walked along a path of as many edges. -/
theorem mathDependsOn_error (M : Nat → Trace) :
    ∀ fuel a t od e, mathDependsOn M fuel a t od = Except.error e →
      ∃ l : List Nat, l.length = fuel + 1 ∧ l.head? = some a ∧
        List.Chain' (SourceEdge M) l := by
  intro fuel
  induction fuel with
  | zero => intro a t od e _; exact ⟨[a], rfl, rfl, List.chain'_singleton a⟩
  | succ fuel ih =>
    intro a t od e h
    unfold mathDependsOn at h
    split at h
    · cases h
    · split at h
      · cases h
      · obtain ⟨m, hm, hrec⟩ := anySource_error _ _ e h
        obtain ⟨l, hlen, hhead, hchain⟩ := ih m.1 t false e hrec
        refine ⟨a :: l, by simp [hlen], rfl, List.Chain'.cons' hchain ?_⟩
        intro y hy
        rw [hhead] at hy
        cases hy
        exact mem_sourceIds_of_mem hm

theorem chain_dependsOn (M : Nat → Trace) :
    ∀ (l : List Nat) (a : Nat), List.Chain' (SourceEdge M) (a :: l) →
      ∀ b ∈ l, DependsOn M a b := by
  intro l
  induction l with
  | nil => intro a _ b hb; cases hb
  | cons x l ih =>
    intro a h b hb
    rw [List.chain'_cons] at h
    rcases List.mem_cons.mp hb with rfl | hb
    · exact Relation.TransGen.single h.1
    · exact Relation.TransGen.head h.1 (ih x h.2 b hb)

theorem chain_nodup (M : Nat → Trace) (hac : Acyclic M) :
    ∀ l : List Nat, List.Chain' (SourceEdge M) l → l.Nodup := by
  intro l
  induction l with
  | nil => intro _; exact List.nodup_nil
  | cons a l ih =>
    intro h
    rw [List.nodup_cons]
    refine ⟨fun hmem => hac a (chain_dependsOn M l a h a hmem), ih ?_⟩
    exact (List.chain'_cons'.mp h).2

theorem chain_within (M : Nat → Trace) (n : Nat) (hw : GraphWithin M n) :
    ∀ (l : List Nat) (a b : Nat), List.Chain' (SourceEdge M) (a :: b :: l) →
      ∀ x ∈ a :: b :: l, x < n := by
  intro l
  induction l with
  | nil =>
    intro a b h x hx
    rw [List.chain'_cons] at h
    have := hw a b h.1
    simp only [List.mem_cons, List.mem_singleton, List.not_mem_nil, or_false] at hx
    rcases hx with rfl | rfl
    · exact this.1
    · exact this.2
  | cons c l ih =>
    intro a b h x hx
    rw [List.chain'_cons] at h
    rcases List.mem_cons.mp hx with rfl | hx
    · exact (hw _ b h.1).1
    · exact ih b c h.2 x hx

/-- On an acyclic graph of `n` traces a recursion bound above `n` is never used up:
`mathDependsOn` returns. -/
theorem mathDependsOn_returns (M : Nat → Trace) (n : Nat) (hac : Acyclic M)
    (hw : GraphWithin M n) (fuel : Nat) (hfuel : n < fuel) (a t : Nat) (od : Bool) :
    ∃ r, mathDependsOn M fuel a t od = Except.ok r := by
  cases h : mathDependsOn M fuel a t od with
  | ok r => exact ⟨r, rfl⟩
  | error e =>
    exfalso
    obtain ⟨l, hlen, _, hchain⟩ := mathDependsOn_error M fuel a t od e h
    have hnodup := chain_nodup M hac l hchain
    have hsub : l ⊆ List.range n := by
      match l, hlen, hchain with
      | [], hlen, _ => simp at hlen
      | [x], hlen, _ => simp at hlen; omega
      | x :: y :: l', _, hchain =>
        intro z hz
        exact List.mem_range.mpr (chain_within M n hw l' x y hchain z hz)
    have := (List.subperm_of_subset hnodup hsub).length_le
    rw [List.length_range] at this
    omega

/-! ## The source graph under the graph calls -/

theorem dependsOn_rank (M : Nat → Trace) (rank : Nat → Nat)
    (h : ∀ a b, SourceEdge M a b → rank a < rank b) :
    ∀ a b, DependsOn M a b → rank a < rank b := by
  intro a b hd
  induction hd with
  | single hab => exact h _ _ hab
  | tail _ hbc ih => exact lt_trans ih (h _ _ hbc)

/-- A graph whose edges all climb in some rank has no cycle. -/
theorem acyclic_of_rank (M : Nat → Trace) (rank : Nat → Nat)
    (h : ∀ a b, SourceEdge M a b → rank a < rank b) : Acyclic M :=
  fun a hd => lt_irrefl _ (dependsOn_rank M rank h a a hd)

theorem acyclic_of_noSources (M : Nat → Trace) (h : ∀ a, (M a).mathSourceTraces = []) :
    Acyclic M := by
  apply acyclic_of_rank M id
  intro a b hab
  unfold SourceEdge sourceIds at hab
  rw [h a] at hab
  cases hab

theorem rowOfTraces_edge (a b : Nat) (h : SourceEdge rowOfTraces a b) : a < b ∧ b < 3 := by
  unfold SourceEdge rowOfTraces sourceIds at h
  by_cases h0 : a = 0
  · subst h0
    simp at h
    omega
  · by_cases h1 : a = 1
    · subst h1
      simp at h
      omega
    · simp [h0, h1, freshTrace, Trace.init] at h

theorem rowOfTraces_acyclic : Acyclic rowOfTraces :=
  acyclic_of_rank rowOfTraces id (fun a b h => (rowOfTraces_edge a b h).1)

theorem rowOfTraces_within : GraphWithin rowOfTraces 3 := by
  intro a b h
  have := rowOfTraces_edge a b h
  omega

theorem rowOfTraces_dependsOn (a b : Nat) (h : DependsOn rowOfTraces a b) : a < b :=
  dependsOn_rank rowOfTraces id (fun a b h => (rowOfTraces_edge a b h).1) a b h

theorem acyclic_of_edges_sub (M M' : Nat → Trace)
    (hE : ∀ x y, SourceEdge M' x y → SourceEdge M x y) (hac : Acyclic M) : Acyclic M' :=
  fun a hd => hac a (Relation.TransGen.mono hE hd)

/-- A new edge from `a` to `t` closes no cycle if `t` is not `a` and does not depend on
`a`. -/
theorem acyclic_add_edge (M M' : Nat → Trace) (a t : Nat) (hac : Acyclic M) (hne : t ≠ a)
    (hnd : ¬ DependsOn M t a)
    (hE : ∀ x y, SourceEdge M' x y → SourceEdge M x y ∨ (x = a ∧ y = t)) : Acyclic M' := by
  have hta : ¬ Relation.ReflTransGen (SourceEdge M) t a := by
    intro h
    rcases Relation.reflTransGen_iff_eq_or_transGen.mp h with h | h
    · exact hne h.symm
    · exact hnd h
  have key : ∀ x y, DependsOn M' x y → DependsOn M x y ∨
      (Relation.ReflTransGen (SourceEdge M) x a ∧ Relation.ReflTransGen (SourceEdge M) t y) := by
    intro x y h
    induction h with
    | single hxy =>
      rcases hE _ _ hxy with h | ⟨hx, hy⟩
      · exact Or.inl (Relation.TransGen.single h)
      · rw [hx, hy]
        exact Or.inr ⟨Relation.ReflTransGen.refl, Relation.ReflTransGen.refl⟩
    | tail _ hyz ih =>
      rcases hE _ _ hyz with h | ⟨hx, hy⟩
      · rcases ih with ih | ⟨ih1, ih2⟩
        · exact Or.inl (Relation.TransGen.tail ih h)
        · exact Or.inr ⟨ih1, Relation.ReflTransGen.tail ih2 h⟩
      · rw [hy]
        rw [hx] at ih
        rcases ih with ih | ⟨_, ih2⟩
        · exact Or.inr ⟨ih.to_reflTransGen, Relation.ReflTransGen.refl⟩
        · exact absurd ih2 hta
  intro x hx
  rcases key x x hx with h | ⟨h1, h2⟩
  · exact hac x h
  · exact hta (h2.trans h1)

theorem sourceEdge_update (M : Nat → Trace) (a : Nat) (c : Trace) (x y : Nat)
    (h : SourceEdge (Function.update M a c) x y) :
    (x ≠ a ∧ SourceEdge M x y) ∨ (x = a ∧ y ∈ sourceIds c) := by
  unfold SourceEdge at h
  by_cases hx : x = a
  · subst hx
    rw [Function.update_same] at h
    exact Or.inr ⟨rfl, h⟩
  · rw [Function.update_noteq hx] at h
    exact Or.inl ⟨hx, h⟩

theorem sourceIds_removeMathSource (c : Trace) (t s : Nat)
    (h : s ∈ sourceIds (removeMathSource c t)) : s ∈ sourceIds c := by
  unfold sourceIds removeMathSource at h
  obtain ⟨p, hp, rfl⟩ := List.mem_map.mp h
  exact List.mem_map.mpr ⟨p, (List.mem_filter.mp hp).1, rfl⟩

theorem sourceIds_clearMathSourcesLoop (fuel : Nat) :
    ∀ (c : Trace) (s : Nat), s ∈ sourceIds (clearMathSourcesLoop fuel c) → s ∈ sourceIds c := by
  induction fuel with
  | zero => intro c s h; exact h
  | succ fuel ih =>
    intro c s h
    unfold clearMathSourcesLoop at h
    split at h
    · exact h
    · exact sourceIds_removeMathSource c _ s (ih _ s h)

theorem sourceIds_clearMathSources (c : Trace) (s : Nat)
    (h : s ∈ sourceIds (clearMathSources c)) : s ∈ sourceIds c :=
  sourceIds_clearMathSourcesLoop _ c s h

theorem sourceIds_mathSourceTraceDeleted (P : ParserX) (env : Nat → SourceView)
    (minInterval : Int) (now : Nat) (c c' : Trace) (t : Nat)
    (h : mathSourceTraceDeleted P env minInterval now c t = Except.ok c') (s : Nat)
    (hs : s ∈ sourceIds c') : s ∈ sourceIds c := by
  unfold mathSourceTraceDeleted at h
  split at h
  · split at h
    · cases h
    · rename_i c2 hc2
      obtain ⟨c3, hok, _, hsrc⟩ :=
        scheduleMathCalculation_spec P env minInterval now c2 0 c2.data.length
      rw [hok] at h
      cases h
      unfold sourceIds at hs
      rw [hsrc, updateMathTracePoints_sources env _ c2 hc2] at hs
      exact sourceIds_removeMathSource c t s hs
  · cases h
    exact hs

theorem mem_mapAssign (l : List (Nat × String)) (t : Nat) (name : String) (s : Nat)
    (h : s ∈ (mapAssign l t name).map Prod.fst) : s = t ∨ s ∈ l.map Prod.fst := by
  induction l with
  | nil =>
    simp [mapAssign] at h
    exact Or.inl h
  | cons p rest ih =>
    obtain ⟨k, v⟩ := p
    unfold mapAssign at h
    split_ifs at h
    · simp only [List.map_cons, List.mem_cons] at h ⊢
      exact h
    · simp only [List.map_cons, List.mem_cons] at h ⊢
      rcases h with h | h
      · exact Or.inl h
      · exact Or.inr (Or.inr h)
    · simp only [List.map_cons, List.mem_cons] at h ⊢
      rcases h with h | h
      · exact Or.inr (Or.inl h)
      · rcases ih h with h | h
        · exact Or.inl h
        · exact Or.inr (Or.inr h)

theorem mem_mapAssign_self (l : List (Nat × String)) (t : Nat) (name : String) :
    (t, name) ∈ mapAssign l t name := by
  induction l with
  | nil => simp [mapAssign]
  | cons p rest ih =>
    obtain ⟨k, v⟩ := p
    unfold mapAssign
    split_ifs
    · exact List.mem_cons_self _ _
    · exact List.mem_cons_self _ _
    · exact List.mem_cons_of_mem _ ih

/-- What a `true` of `canAddAsMathSource` tells. -/
theorem canAddAsMathSource_true (M : Nat → Trace) (outputType : Nat → DataType) (fuel : Nat)
    (self t : Nat) (h : canAddAsMathSource M outputType fuel self t = Except.ok true) :
    t ≠ self ∧ ¬ DependsOn M t self ∧
      ∀ s ∈ sourceIds (M self), ∀ d, SourcesInDomain outputType (M self) d →
        outputType t = d := by
  unfold canAddAsMathSource at h
  split at h
  · cases h
  · rename_i hne
    split at h
    · cases h
    · cases h
    · rename_i hdep
      refine ⟨hne, mathDependsOn_false M fuel t self hdep, ?_⟩
      intro s hs d hd
      split at h
      · rename_i hnil
        unfold sourceIds at hs
        rw [hnil] at hs
        cases hs
      · rename_i first rest hcons
        have hfirst : first.1 ∈ sourceIds (M self) := by
          unfold sourceIds
          rw [hcons]
          exact List.mem_cons_self _ _
        have heq : outputType first.1 = outputType t := by
          have := Except.ok.inj h
          simpa using this
        rw [← heq]
        exact hd _ hfirst

/-- `addMathSource` either refuses and changes nothing, or `canAddAsMathSource` was true
and the sources are the old ones with the new binding assigned. -/
theorem addMathSource_inv (M : Nat → Trace) (outputType : Nat → DataType) (P : ParserX)
    (env : Nat → SourceView) (minInterval : Int) (now fuel self t : Nat) (name : String)
    (c' : Trace) (b : Bool)
    (h : addMathSource M outputType P env minInterval now fuel self t name
      = Except.ok (c', b)) :
    (b = false ∧ c' = M self) ∨
    (b = true ∧ canAddAsMathSource M outputType fuel self t = Except.ok true ∧
      c'.mathSourceTraces = mapAssign (M self).mathSourceTraces t name) := by
  unfold addMathSource at h
  split at h
  · cases h
  · cases h
    exact Or.inl ⟨rfl, rfl⟩
  · rename_i hcan
    split at h
    · cases h
    · rename_i c2 hc2
      obtain ⟨c3, hok, _, hsrc⟩ :=
        scheduleMathCalculation_spec P env minInterval now c2 0 c2.data.length
      rw [hok] at h
      cases h
      refine Or.inr ⟨rfl, hcan, ?_⟩
      rw [hsrc, updateMathTracePoints_sources env _ c2 hc2]

theorem updateMathTracePoints_fault (env : Nat → SourceView) (t : Trace) (f : Fault)
    (h : updateMathTracePoints env t = Except.error f) : f = Fault.conversion := by
  unfold updateMathTracePoints at h
  dsimp only at h
  split_ifs at h <;> cases h <;> rfl

/-- On an acyclic graph of `n` traces with a recursion bound above `n`,
`canAddAsMathSource` returns. -/
theorem canAddAsMathSource_returns (M : Nat → Trace) (outputType : Nat → DataType)
    (n fuel : Nat) (hac : Acyclic M) (hw : GraphWithin M n) (hfuel : n < fuel)
    (self t : Nat) : ∃ r, canAddAsMathSource M outputType fuel self t = Except.ok r := by
  unfold canAddAsMathSource
  split
  · exact ⟨_, rfl⟩
  · obtain ⟨r, hr⟩ := mathDependsOn_returns M n hac hw fuel hfuel t self false
    rw [hr]
    cases r
    · dsimp only
      split <;> exact ⟨_, rfl⟩
    · exact ⟨_, rfl⟩

/-- Edges after one graph call: the old ones, and for an accepted `addMathSource` the
new edge, which closes no cycle. -/
theorem apply_edges (outputType : Nat → DataType) (P : ParserX) (minInterval : Int)
    (fuel : Nat) (M M' : Nat → Trace) (c : GraphCall)
    (h : c.apply outputType P minInterval fuel M = Except.ok M') :
    (∀ x y, SourceEdge M' x y → SourceEdge M x y) ∨
    ∃ consumer source name, c.op = GraphOp.addMathSource consumer source name ∧
      canAddAsMathSource M outputType fuel consumer source = Except.ok true ∧
      ∀ x y, SourceEdge M' x y → SourceEdge M x y ∨ (x = consumer ∧ y = source) := by
  unfold GraphCall.apply at h
  split at h
  · rename_i consumer source name hop
    split at h
    · cases h
    · rename_i r hr
      cases h
      obtain ⟨c', b⟩ := r
      rcases addMathSource_inv M outputType P c.env minInterval c.now fuel consumer source
        name c' b hr with ⟨_, hc'⟩ | ⟨_, hcan, hsrc⟩
      · left
        intro x y hxy
        rcases sourceEdge_update M consumer c' x y hxy with ⟨_, h⟩ | ⟨hx, hy⟩
        · exact h
        · rw [hx]
          rw [hc'] at hy
          exact hy
      · right
        refine ⟨consumer, source, name, hop, hcan, ?_⟩
        intro x y hxy
        rcases sourceEdge_update M consumer c' x y hxy with ⟨_, h⟩ | ⟨hx, hy⟩
        · exact Or.inl h
        · unfold sourceIds at hy
          rw [hsrc] at hy
          rcases mem_mapAssign _ _ _ _ hy with h | h
          · exact Or.inr ⟨hx, h⟩
          · left
            rw [hx]
            exact h
  · cases h
    left
    intro x y hxy
    rename_i consumer source _
    rcases sourceEdge_update M consumer _ x y hxy with ⟨_, h⟩ | ⟨hx, hy⟩
    · exact h
    · rw [hx]
      exact sourceIds_removeMathSource _ _ _ hy
  · cases h
    left
    intro x y hxy
    rename_i consumer _
    rcases sourceEdge_update M consumer _ x y hxy with ⟨_, h⟩ | ⟨hx, hy⟩
    · exact h
    · rw [hx]
      exact sourceIds_clearMathSources _ _ hy
  · rename_i consumer source _
    split at h
    · cases h
    · rename_i r hr
      cases h
      left
      intro x y hxy
      rcases sourceEdge_update M consumer r x y hxy with ⟨_, h⟩ | ⟨hx, hy⟩
      · exact h
      · rw [hx]
        exact sourceIds_mathSourceTraceDeleted P c.env minInterval c.now _ r source hr y hy

theorem apply_acyclic (outputType : Nat → DataType) (P : ParserX) (minInterval : Int)
    (fuel : Nat) (M M' : Nat → Trace) (c : GraphCall)
    (h : c.apply outputType P minInterval fuel M = Except.ok M') (hac : Acyclic M) :
    Acyclic M' := by
  rcases apply_edges outputType P minInterval fuel M M' c h with hE | ⟨a, t, _, _, hcan, hE⟩
  · exact acyclic_of_edges_sub M M' hE hac
  · obtain ⟨hne, hnd, _⟩ := canAddAsMathSource_true M outputType fuel a t hcan
    exact acyclic_add_edge M M' a t hac hne hnd hE

theorem apply_within (outputType : Nat → DataType) (P : ParserX) (minInterval : Int)
    (fuel n : Nat) (M M' : Nat → Trace) (c : GraphCall)
    (h : c.apply outputType P minInterval fuel M = Except.ok M') (hw : GraphWithin M n)
    (hc : c.op.within n = true) : GraphWithin M' n := by
  rcases apply_edges outputType P minInterval fuel M M' c h with hE | ⟨a, t, name, hop, _, hE⟩
  · exact fun x y hxy => hw x y (hE x y hxy)
  · intro x y hxy
    rcases hE x y hxy with h | ⟨hx, hy⟩
    · exact hw x y h
    · rw [hop] at hc
      simp only [GraphOp.within, Bool.and_eq_true, decide_eq_true_eq] at hc
      rw [hx, hy]
      exact hc

theorem apply_fault (outputType : Nat → DataType) (P : ParserX) (minInterval : Int)
    (fuel n : Nat) (M : Nat → Trace) (c : GraphCall) (f : Fault)
    (h : c.apply outputType P minInterval fuel M = Except.error f) (hac : Acyclic M)
    (hw : GraphWithin M n) (hfuel : n < fuel) : f = Fault.conversion := by
  unfold GraphCall.apply at h
  split at h
  · rename_i consumer source name _
    split at h
    · rename_i f' hf
      cases h
      unfold addMathSource at hf
      obtain ⟨r, hr⟩ := canAddAsMathSource_returns M outputType n fuel hac hw hfuel
        consumer source
      rw [hr] at hf
      cases r
      · cases hf
      · dsimp only at hf
        split at hf
        · rename_i f2 hf2
          cases hf
          exact updateMathTracePoints_fault _ _ _ hf2
        · rename_i c2 _
          obtain ⟨c3, hok, _, _⟩ :=
            scheduleMathCalculation_spec P c.env minInterval c.now c2 0 c2.data.length
          rw [hok] at hf
          cases hf
    · cases h
  · cases h
  · cases h
  · rename_i consumer source _
    split at h
    · rename_i f' hf
      cases h
      unfold mathSourceTraceDeleted at hf
      split at hf
      · split at hf
        · rename_i f2 hf2
          cases hf
          exact updateMathTracePoints_fault _ _ _ hf2
        · rename_i c2 _
          obtain ⟨c3, hok, _, _⟩ :=
            scheduleMathCalculation_spec P c.env minInterval c.now c2 0 c2.data.length
          rw [hok] at hf
          cases hf
      · cases hf
    · cases h

theorem runGraph_acyclic (outputType : Nat → DataType) (P : ParserX) (minInterval : Int)
    (fuel : Nat) : ∀ (calls : List GraphCall) (M M' : Nat → Trace),
      runGraph outputType P minInterval fuel M calls = Except.ok M' → Acyclic M →
      Acyclic M' := by
  intro calls
  induction calls with
  | nil => intro M M' h hac; cases h; exact hac
  | cons c rest ih =>
    intro M M' h hac
    unfold runGraph at h
    split at h
    · cases h
    · rename_i M1 h1
      exact ih M1 M' h (apply_acyclic outputType P minInterval fuel M M1 c h1 hac)

theorem runGraph_fault (outputType : Nat → DataType) (P : ParserX) (minInterval : Int)
    (fuel n : Nat) (hfuel : n < fuel) : ∀ (calls : List GraphCall) (M : Nat → Trace),
      Acyclic M → GraphWithin M n → (∀ c ∈ calls, c.op.within n = true) →
      faultOf (runGraph outputType P minInterval fuel M calls) ≠ some Fault.recursion := by
  intro calls
  induction calls with
  | nil => intro M _ _ _ h; cases h
  | cons c rest ih =>
    intro M hac hw hcalls
    unfold runGraph
    split
    · rename_i f hf
      rw [apply_fault outputType P minInterval fuel n M c f hf hac hw hfuel]
      intro h
      cases h
    · rename_i M1 h1
      exact ih M1 (apply_acyclic outputType P minInterval fuel M M1 c h1 hac)
        (apply_within outputType P minInterval fuel n M M1 c h1 hw
          (hcalls c (List.mem_cons_self _ _)))
        (fun c' hc' => hcalls c' (List.mem_cons_of_mem _ hc'))

theorem exists_of_faultOf_none {α : Type} (r : Except Fault α) (h : faultOf r = none) :
    ∃ a, r = Except.ok a := by
  cases r with
  | ok a => exact ⟨a, rfl⟩
  | error f => cases h
/-! ## The claims on the removal of nodes and sources and on the paused pass -/

/-- C13: `removeMathOperation(index)` leaves the trace as it is for index 0 and for
every index from `mathOps.size()` on; on a chain with the enabled identity node in
front, an index in between gives the old chain with exactly that position erased, the
other nodes in their order and with their flags, the identity node still in front. -/
theorem removeMathOperation_effect (t : Trace) (index : Nat) :
    (index < 1 ∨ t.mathOps.length ≤ index → removeMathOperation t index = Except.ok t) ∧
    (ChainInv t → 1 ≤ index → index < t.mathOps.length →
      ∃ t', removeMathOperation t index = Except.ok t' ∧
        t'.mathOps = t.mathOps.eraseIdx index ∧
        (∀ j, t'.mathOps[j]? = if j < index then t.mathOps[j]? else t.mathOps[j + 1]?) ∧
        t'.mathOps[0]? = some { math := MathRef.self, enabled := true }) := by
  constructor
  · intro h
    unfold removeMathOperation
    rw [if_pos h]
  · intro hc h1 h2
    obtain ⟨t', hok, hc', hops, _⟩ := removeMathOperation_spec t index hc
    rw [if_pos ⟨h1, h2⟩] at hops
    refine ⟨t', hok, hops, ?_, ?_⟩
    · intro j
      rw [hops]
      exact List.getElem?_eraseIdx _ _ _
    · obtain ⟨rest, hrest⟩ := hc'
      rw [hrest]
      simp

theorem removeMathOperation_effect_witness :
    removeMathOperation twoNodeChain 0 = Except.ok twoNodeChain ∧
    ∃ t', removeMathOperation twoNodeChain 1 = Except.ok t' ∧
      t'.mathOps = twoNodeChain.mathOps.eraseIdx 1 :=
  have h := removeMathOperation_effect twoNodeChain
  ⟨(h 0).1 (Or.inl (by decide)),
    by
      obtain ⟨t', hok, hops, _⟩ := (h 1).2 ⟨_, rfl⟩ (by decide) (by decide)
      exact ⟨t', hok, hops⟩⟩

theorem hasSource_removeMathSource (c : Trace) (t : Nat) :
    hasSource (removeMathSource c t) t = false := by
  unfold hasSource removeMathSource
  simp

/-- The handler of the deletion of a source, described by its effect. -/
theorem mathSourceTraceDeleted_of_source (P : ParserX) (env : Nat → SourceView)
    (minInterval : Int) (now : Nat) (c u : Trace) (t : Nat) (h : hasSource c t = true)
    (hu : updateMathTracePoints env (removeMathSource c t) = Except.ok u) :
    ∃ c', mathSourceTraceDeleted P env minInterval now c t = Except.ok c' ∧
      c'.mathSourceTraces = c.mathSourceTraces.filter (fun p => p.1 != t) ∧
      coords c'.data = coords u.data := by
  unfold mathSourceTraceDeleted
  rw [if_pos h, hu]
  obtain ⟨c', hok, hco, hsrc⟩ :=
    scheduleMathCalculation_spec P env minInterval now u 0 u.data.length
  refine ⟨c', hok, ?_, hco⟩
  rw [hsrc, updateMathTracePoints_sources env _ u hu]
  rfl

/-- C18, as the claim states it, fails: a formula trace with two cells that loses its
only source keeps both cells, whether the evaluation pass runs at once (50 ms interval)
or is left to the timer (200 ms interval). -/
theorem store_kept_when_last_source_deleted :
    pendingFormulaTrace.source = Source.Math ∧
    pendingFormulaTrace.mathSourceTraces = [(1, "a")] ∧
    coords pendingFormulaTrace.data = [1, 3] ∧
    sourcesOf (mathSourceTraceDeleted firstSourceParser sourceSweepA 50 100
      pendingFormulaTrace 1) = some [] ∧
    coordsOf (mathSourceTraceDeleted firstSourceParser sourceSweepA 50 100
      pendingFormulaTrace 1) = some [1, 3] ∧
    coordsOf (mathSourceTraceDeleted firstSourceParser sourceSweepA 200 100
      pendingFormulaTrace 1) = some [1, 3] := by
  decide!

/-- C18, amended: when the deletion of a source leaves a trace without sources, the
handler returns, the trace has no source left, and the sample store keeps its cells:
their number and their coordinates are unchanged. -/
theorem last_source_deleted_keeps_cells (P : ParserX) (env : Nat → SourceView)
    (minInterval : Int) (now : Nat) (c : Trace) (t : Nat) (h : hasSource c t = true)
    (hlast : ∀ p ∈ c.mathSourceTraces, p.1 = t) :
    ∃ c', mathSourceTraceDeleted P env minInterval now c t = Except.ok c' ∧
      c'.mathSourceTraces = [] ∧ coords c'.data = coords c.data ∧
      c'.data.length = c.data.length := by
  have hempty : (removeMathSource c t).mathSourceTraces = [] := by
    unfold removeMathSource
    simp only [List.filter_eq_nil_iff]
    intro p hp
    simp [hlast p hp]
  obtain ⟨c', hok, hsrc, hco⟩ := mathSourceTraceDeleted_of_source P env minInterval now c _ t h
    (updateMathTracePoints_noSources env _ hempty)
  refine ⟨c', hok, ?_, hco, ?_⟩
  · rw [hsrc]
    exact hempty
  · have := congrArg List.length hco
    simpa [coords] using this

theorem last_source_deleted_keeps_cells_witness :
    ∃ c', mathSourceTraceDeleted firstSourceParser sourceSweepA 50 100 pendingFormulaTrace 1
        = Except.ok c' ∧
      c'.mathSourceTraces = [] ∧ coords c'.data = coords pendingFormulaTrace.data ∧
      c'.data.length = pendingFormulaTrace.data.length :=
  last_source_deleted_keeps_cells firstSourceParser sourceSweepA 50 100 pendingFormulaTrace 1
    (by decide) (by decide)

/-- C19, as the claim states it, fails in its last sentence: a formula trace reads the
traces 1 and 2, trace 2 holds no sample, and trace 1 is deleted. The grid of the remaining
source runs from the largest double down to the lowest one, the sample count -1 has no
value as an `unsigned int`, and the handler leaves defined behaviour. -/
theorem deletion_beside_cleared_source_faults :
    hasSource twoSourceTrace 1 = true ∧ hasSource twoSourceTrace 2 = true ∧
    (clearedSecondSource 2).output = [] ∧
    faultOf (mathSourceTraceDeleted firstSourceParser clearedSecondSource 50 100
      twoSourceTrace 1) = some Fault.conversion := by
  decide!

/-- C19, amended: if `t` is no source of the consumer, `mathSourceTraceDeleted(t)`
returns and leaves the consumer as it is (bindings, store, pending range and all the
rest). If `t` is a source and the evaluation grid of the remaining sources can be
computed, the call returns, `t` is no source afterwards, and the bindings are the old
ones without the one of `t`, in their order. The conversion of the sample count of that
grid is the only fault the handler can end in. -/
theorem mathSourceTraceDeleted_effect (P : ParserX) (env : Nat → SourceView)
    (minInterval : Int) (now : Nat) (c : Trace) (t : Nat) :
    (hasSource c t = false →
      mathSourceTraceDeleted P env minInterval now c t = Except.ok c) ∧
    (hasSource c t = true →
      faultOf (updateMathTracePoints env (removeMathSource c t)) = none →
        ∃ c', mathSourceTraceDeleted P env minInterval now c t = Except.ok c' ∧
          hasSource c' t = false ∧
          c'.mathSourceTraces = c.mathSourceTraces.filter (fun p => p.1 != t) ∧
          ∀ p, p.1 ≠ t → (p ∈ c'.mathSourceTraces ↔ p ∈ c.mathSourceTraces)) ∧
    (∀ f, mathSourceTraceDeleted P env minInterval now c t = Except.error f →
      f = Fault.conversion ∧
      updateMathTracePoints env (removeMathSource c t) = Except.error Fault.conversion) := by
  refine ⟨?_, ?_, ?_⟩
  · intro h
    unfold mathSourceTraceDeleted
    rw [h]
    rfl
  · intro h hu
    obtain ⟨u, hu⟩ := exists_of_faultOf_none _ hu
    obtain ⟨c', hok, hsrc, _⟩ :=
      mathSourceTraceDeleted_of_source P env minInterval now c u t h hu
    refine ⟨c', hok, ?_, hsrc, ?_⟩
    · unfold hasSource
      rw [hsrc]
      simp
    · intro p hp
      rw [hsrc]
      simp [hp]
  · intro f hf
    unfold mathSourceTraceDeleted at hf
    split at hf
    · split at hf
      · rename_i f2 hf2
        cases hf
        have := updateMathTracePoints_fault _ _ _ hf2
        subst this
        exact ⟨rfl, hf2⟩
      · rename_i c2 _
        obtain ⟨c3, hok, _, _⟩ :=
          scheduleMathCalculation_spec P env minInterval now c2 0 c2.data.length
        rw [hok] at hf
        cases hf
    · cases hf

theorem mathSourceTraceDeleted_effect_witness :
    mathSourceTraceDeleted firstSourceParser sourceSweepA 50 100 twoSourceTrace 3
      = Except.ok twoSourceTrace ∧
    ∃ c', mathSourceTraceDeleted firstSourceParser sourceSweepA 50 100 twoSourceTrace 1
        = Except.ok c' ∧
      hasSource c' 1 = false ∧ c'.mathSourceTraces = [(2, "b")] :=
  have h := mathSourceTraceDeleted_effect firstSourceParser sourceSweepA 50 100 twoSourceTrace
  ⟨(h 3).1 (by decide),
    by
      obtain ⟨c', hok, hno, hsrc, _⟩ := (h 1).2.1 (by decide) (by decide!)
      exact ⟨c', hok, hno, hsrc⟩⟩

/-- C20, as the claim states it, fails: the paused formula trace with the two pending
cells `[0, 2)` has the pending range `[2, 0)` after `calculateMath`, the empty range. -/
theorem paused_pass_drops_pending_range :
    pausedFormulaTrace.paused = true ∧ pausedFormulaTrace.mathFormula.isEmpty = false ∧
    pausedFormulaTrace.data.length = 2 ∧
    pendingOf (Except.ok pausedFormulaTrace) = some (0, 2) ∧
    pendingOf (calculateMath firstSourceParser sourceSweepA 100 pausedFormulaTrace)
      = some (2, 0) := by
  decide!

/-- C20, amended: on a paused trace with a non-empty formula and a pending range within
the store, `calculateMath` returns the trace with the time of the pass noted and the
pending range reset to the empty range `[size, 0)`; nothing else changes: no sample is
modified, no signal is emitted, the status stays. -/
theorem paused_pass_resets_pending_range (P : ParserX) (env : Nat → SourceView) (now : Nat)
    (t : Trace) (hp : t.paused = true) (hf : t.mathFormula.isEmpty = false)
    (hb : t.mathUpdateBegin < t.data.length) (he : t.mathUpdateEnd ≤ t.data.length) :
    calculateMath P env now t = Except.ok
      { t with lastMathUpdate := now, mathUpdateBegin := t.data.length, mathUpdateEnd := 0 } := by
  unfold calculateMath
  dsimp only
  rw [if_neg (by omega), hf, hp]
  rfl

theorem paused_pass_resets_pending_range_witness :
    calculateMath firstSourceParser sourceSweepA 100 pausedFormulaTrace
      = Except.ok
        { pausedFormulaTrace with lastMathUpdate := 100, mathUpdateBegin := 2, mathUpdateEnd := 0 } :=
  paused_pass_resets_pending_range firstSourceParser sourceSweepA 100 pausedFormulaTrace
    (by decide) (by decide) (by decide) (by decide)
/-! ## The claims on the dependency graph -/

/-- C17: on an acyclic source graph of `n` traces, `mathDependsOn(t, false)` called on
the trace `a` returns for every recursion bound above `n`, and it returns true if and
only if a path of one or more source edges leads from `a` to `t`; `mathDependsOn(t, true)`
returns, true if and only if `t` is a direct source of `a`. -/
theorem mathDependsOn_decides_reachability (M : Nat → Trace) (n fuel : Nat)
    (hac : Acyclic M) (hw : GraphWithin M n) (hfuel : n < fuel) (a t : Nat) :
    (∃ r, mathDependsOn M fuel a t false = Except.ok r ∧ (r = true ↔ DependsOn M a t)) ∧
    (∃ r, mathDependsOn M fuel a t true = Except.ok r ∧ (r = true ↔ SourceEdge M a t)) := by
  constructor
  · obtain ⟨r, hr⟩ := mathDependsOn_returns M n hac hw fuel hfuel a t false
    refine ⟨r, hr, ?_⟩
    constructor
    · intro h
      rw [h] at hr
      exact mathDependsOn_true M fuel a t false hr
    · intro hd
      cases r
      · exact absurd hd (mathDependsOn_false M fuel a t hr)
      · rfl
  · obtain ⟨k, rfl⟩ : ∃ k, fuel = k + 1 := ⟨fuel - 1, by omega⟩
    refine ⟨hasSource (M a) t, ?_, hasSource_iff (M a) t⟩
    unfold mathDependsOn
    cases hasSource (M a) t <;> rfl

theorem mathDependsOn_decides_reachability_witness :
    (∃ r, mathDependsOn rowOfTraces 4 0 2 false = Except.ok r ∧
      (r = true ↔ DependsOn rowOfTraces 0 2)) ∧
    (∃ r, mathDependsOn rowOfTraces 4 0 2 true = Except.ok r ∧
      (r = true ↔ SourceEdge rowOfTraces 0 2)) :=
  mathDependsOn_decides_reachability rowOfTraces 3 4 rowOfTraces_acyclic rowOfTraces_within
    (by decide) 0 2

/-- C14: in an acyclic source graph of `n` traces (recursion bound above `n`), if `B` is
`A` itself or `A` depends on `B`, then `B.canAddAsMathSource(A)` returns false and
`B.addMathSource(A, name)` returns false and leaves `B` as it is, its source mapping
included. -/
theorem dependent_source_rejected (M : Nat → Trace) (outputType : Nat → DataType)
    (P : ParserX) (env : Nat → SourceView) (minInterval : Int) (now n fuel : Nat)
    (hac : Acyclic M) (hw : GraphWithin M n) (hfuel : n < fuel) (A B : Nat) (name : String)
    (h : B = A ∨ DependsOn M A B) :
    canAddAsMathSource M outputType fuel B A = Except.ok false ∧
    addMathSource M outputType P env minInterval now fuel B A name
      = Except.ok (M B, false) := by
  have hcan : canAddAsMathSource M outputType fuel B A = Except.ok false := by
    unfold canAddAsMathSource
    by_cases hAB : A = B
    · rw [if_pos hAB]
    · rw [if_neg hAB]
      have hd : DependsOn M A B := by
        rcases h with h | h
        · exact absurd h.symm hAB
        · exact h
      obtain ⟨r, hr⟩ := mathDependsOn_returns M n hac hw fuel hfuel A B false
      cases r
      · exact absurd hd (mathDependsOn_false M fuel A B hr)
      · rw [hr]
  refine ⟨hcan, ?_⟩
  unfold addMathSource
  rw [hcan]

theorem dependent_source_rejected_witness :
    canAddAsMathSource rowOfTraces secondInTime 4 2 0 = Except.ok false ∧
    addMathSource rowOfTraces secondInTime firstSourceParser sourceSweepA 50 100 4 2 0 "c"
      = Except.ok (rowOfTraces 2, false) :=
  dependent_source_rejected rowOfTraces secondInTime firstSourceParser sourceSweepA 50 100 3 4
    rowOfTraces_acyclic rowOfTraces_within (by decide) 0 2 "c"
    (Or.inr (Relation.TransGen.head (show SourceEdge rowOfTraces 0 1 by decide)
      (Relation.TransGen.single (show SourceEdge rowOfTraces 1 2 by decide))))

/-- C15: starting from traces without math sources, after every call of a sequence of
`addMathSource`, `removeMathSource`, `clearMathSources` and `mathSourceTraceDeleted`
calls no trace depends on itself, directly or transitively. If the calls are made on `n`
traces and the recursion bound lies above `n`, no call uses up the bound. -/
theorem source_graph_stays_acyclic (outputType : Nat → DataType) (P : ParserX)
    (minInterval : Int) (n fuel : Nat) (M0 : Nat → Trace)
    (h0 : ∀ a, (M0 a).mathSourceTraces = []) (calls : List GraphCall) :
    (∀ k M, runGraph outputType P minInterval fuel M0 (calls.take k) = Except.ok M →
      Acyclic M) ∧
    (n < fuel → (∀ c ∈ calls, c.op.within n = true) →
      faultOf (runGraph outputType P minInterval fuel M0 calls) ≠ some Fault.recursion) := by
  have hac : Acyclic M0 := acyclic_of_noSources M0 h0
  constructor
  · intro k M h
    exact runGraph_acyclic outputType P minInterval fuel (calls.take k) M0 M h hac
  · intro hfuel hcalls
    refine runGraph_fault outputType P minInterval fuel n hfuel calls M0 hac ?_ hcalls
    intro a b hab
    unfold SourceEdge sourceIds at hab
    rw [h0 a] at hab
    cases hab

theorem source_graph_stays_acyclic_witness :
    (∃ M, runGraph secondInTime firstSourceParser 50 4 noSourceTraces (sampleGraphCalls.take 3)
        = Except.ok M ∧ Acyclic M ∧ sourceIds (M 0) = [1]) ∧
    faultOf (runGraph secondInTime firstSourceParser 50 4 noSourceTraces sampleGraphCalls)
      ≠ some Fault.recursion := by
  have h := source_graph_stays_acyclic secondInTime firstSourceParser 50 3 4 noSourceTraces
    (fun _ => rfl) sampleGraphCalls
  refine ⟨?_, h.2 (by decide) (by decide)⟩
  obtain ⟨M, hM⟩ := exists_of_faultOf_none
    (runGraph secondInTime firstSourceParser 50 4 noSourceTraces (sampleGraphCalls.take 3))
    (by decide!)
  refine ⟨M, hM, h.1 3 M hM, ?_⟩
  have hs : graphSourcesOf (runGraph secondInTime firstSourceParser 50 4 noSourceTraces
      (sampleGraphCalls.take 3)) 0 = some [1] := by decide!
  rw [hM] at hs
  exact Option.some.inj hs
theorem apply_domain (outputType : Nat → DataType) (P : ParserX) (minInterval : Int)
    (fuel : Nat) (M M' : Nat → Trace) (c : GraphCall)
    (h : c.apply outputType P minInterval fuel M = Except.ok M')
    (hd : OneDomainEach outputType M) : OneDomainEach outputType M' := by
  intro a
  obtain ⟨d, hda⟩ := hd a
  rcases apply_edges outputType P minInterval fuel M M' c h with hE | ⟨x, t, _, _, hcan, hE⟩
  · exact ⟨d, fun s hs => hda s (hE a s hs)⟩
  · obtain ⟨_, _, hdom⟩ := canAddAsMathSource_true M outputType fuel x t hcan
    by_cases hax : a = x
    · subst hax
      cases hsrc : sourceIds (M a) with
      | nil =>
        refine ⟨outputType t, fun s hs => ?_⟩
        rcases hE a s hs with h1 | ⟨_, h2⟩
        · unfold SourceEdge at h1
          rw [hsrc] at h1
          cases h1
        · rw [h2]
      | cons s0 rest =>
        have ht : outputType t = d := hdom s0 (by rw [hsrc]; exact List.mem_cons_self _ _) d hda
        refine ⟨d, fun s hs => ?_⟩
        rcases hE a s hs with h1 | ⟨_, h2⟩
        · exact hda s h1
        · rw [h2]
          exact ht
    · refine ⟨d, fun s hs => ?_⟩
      rcases hE a s hs with h1 | ⟨h2, _⟩
      · exact hda s h1
      · exact absurd h2 hax

theorem runGraph_domain (outputType : Nat → DataType) (P : ParserX) (minInterval : Int)
    (fuel : Nat) : ∀ (calls : List GraphCall) (M M' : Nat → Trace),
      runGraph outputType P minInterval fuel M calls = Except.ok M' →
      OneDomainEach outputType M → OneDomainEach outputType M' := by
  intro calls
  induction calls with
  | nil => intro M M' h hd; cases h; exact hd
  | cons c rest ih =>
    intro M M' h hd
    unfold runGraph at h
    split at h
    · cases h
    · rename_i M1 h1
      exact ih M1 M' h (apply_domain outputType P minInterval fuel M M1 c h1 hd)

theorem rowOfTraces_domains : OneDomainEach secondInTime rowOfTraces := by
  intro a
  by_cases h0 : a = 0
  · subst h0
    exact ⟨DataType.Frequency, by decide⟩
  · by_cases h1 : a = 1
    · subst h1
      exact ⟨DataType.Time, by decide⟩
    · refine ⟨DataType.Frequency, ?_⟩
      intro s hs
      simp [sourceIds, rowOfTraces, h0, h1, freshTrace, Trace.init] at hs

/-- C16: in an acyclic source graph of `n` traces (recursion bound above `n`), for a
candidate `t` that is not the consumer `c` and does not depend on it:
`c.canAddAsMathSource(t)` returns, and if `c` has a source and its sources have the output
domain `d`, the result is true exactly when the output domain of `t` is `d`; if `c` has
no source, the result is true. With the output domains fixed, a sequence of graph calls
that starts with the sources of every trace in one domain ends so. -/
theorem candidate_domain_rule (M : Nat → Trace) (outputType : Nat → DataType) (n fuel : Nat)
    (hac : Acyclic M) (hw : GraphWithin M n) (hfuel : n < fuel) :
    (∀ c t, t ≠ c → ¬ DependsOn M t c →
      (∀ d, (M c).mathSourceTraces ≠ [] → SourcesInDomain outputType (M c) d →
        canAddAsMathSource M outputType fuel c t = Except.ok (decide (outputType t = d))) ∧
      ((M c).mathSourceTraces = [] →
        canAddAsMathSource M outputType fuel c t = Except.ok true)) ∧
    (∀ (P : ParserX) (minInterval : Int) (calls : List GraphCall) (M' : Nat → Trace),
      OneDomainEach outputType M →
      runGraph outputType P minInterval fuel M calls = Except.ok M' →
      OneDomainEach outputType M') := by
  constructor
  · intro c t htc hnd
    have hdep : mathDependsOn M fuel t c false = Except.ok false := by
      obtain ⟨r, hr⟩ := mathDependsOn_returns M n hac hw fuel hfuel t c false
      cases r
      · exact hr
      · exact absurd (mathDependsOn_true M fuel t c false hr) hnd
    constructor
    · intro d hne hd
      unfold canAddAsMathSource
      rw [if_neg htc, hdep]
      dsimp only
      split
      · rename_i hnil
        exact absurd hnil hne
      · rename_i first rest hcons
        have hfirst : outputType first.1 = d :=
          hd first.1 (by unfold sourceIds; rw [hcons]; exact List.mem_cons_self _ _)
        rw [hfirst]
        congr 1
        by_cases h : outputType t = d
        · simp [h]
        · have h2 : ¬ d = outputType t := fun e => h e.symm
          simp [h, h2]
    · intro hnil
      unfold canAddAsMathSource
      rw [if_neg htc, hdep]
      dsimp only
      rw [hnil]
  · intro P minInterval calls M' hd h
    exact runGraph_domain outputType P minInterval fuel calls M M' h hd

theorem candidate_domain_rule_witness :
    canAddAsMathSource rowOfTraces secondInTime 4 0 2 = Except.ok false ∧
    canAddAsMathSource rowOfTraces secondInTime 4 0 3 = Except.ok true ∧
    canAddAsMathSource rowOfTraces secondInTime 4 2 3 = Except.ok true ∧
    ∃ M', runGraph secondInTime firstSourceParser 50 4 rowOfTraces
        [callAt100 (GraphOp.addMathSource 0 2 "c"), callAt100 (GraphOp.addMathSource 0 3 "d")]
        = Except.ok M' ∧ OneDomainEach secondInTime M' := by
  have h := candidate_domain_rule rowOfTraces secondInTime 3 4 rowOfTraces_acyclic
    rowOfTraces_within (by decide)
  have h02 := (h.1 0 2 (by decide) (fun hd => absurd (rowOfTraces_dependsOn 2 0 hd)
    (by decide))).1 DataType.Frequency (by decide) (by decide)
  have h03 := (h.1 0 3 (by decide) (fun hd => absurd (rowOfTraces_dependsOn 3 0 hd)
    (by decide))).1 DataType.Frequency (by decide) (by decide)
  have h23 := (h.1 2 3 (by decide) (fun hd => absurd (rowOfTraces_dependsOn 3 2 hd)
    (by decide))).2 (by decide)
  refine ⟨h02, h03, h23, ?_⟩
  obtain ⟨M', hM'⟩ := exists_of_faultOf_none
    (runGraph secondInTime firstSourceParser 50 4 rowOfTraces
      [callAt100 (GraphOp.addMathSource 0 2 "c"), callAt100 (GraphOp.addMathSource 0 3 "d")])
    (by decide!)
  exact ⟨M', hM', h.2 firstSourceParser 50 _ M' rowOfTraces_domains hM'⟩
/-! ## Lemmas on the wiring of the chain -/

theorem find_filter_ne (l : List (MathRef × MathRef)) (m r : MathRef) :
    (l.filter (fun p => p.1 != m)).find? (fun p => p.1 == r)
      = if r = m then none else l.find? (fun p => p.1 == r) := by
  induction l with
  | nil => simp
  | cons p rest ih =>
    by_cases hpm : p.1 = m
    · have h1 : (p.1 != m) = false := by simp [hpm]
      rw [List.filter_cons, h1]
      simp only [Bool.false_eq_true, if_false]
      rw [ih]
      by_cases hrm : r = m
      · simp [hrm]
      · have h2 : (p.1 == r) = false := by
          rw [hpm]
          simp
          exact fun h => hrm h.symm
        simp [hrm, List.find?_cons, h2]
    · have h1 : (p.1 != m) = true := by simp [hpm]
      rw [List.filter_cons, h1]
      simp only [if_true]
      rw [List.find?_cons, List.find?_cons, ih]
      by_cases hpr : p.1 = r
      · have hrm : ¬ r = m := fun h => hpm (hpr.trans h)
        simp [hpr, hrm]
      · have h2 : (p.1 == r) = false := by simpa using hpr
        simp [h2]

theorem inputOf_removeInput (t : Trace) (m r : MathRef) :
    inputOf (removeInput t m) r = if r = m then none else inputOf t r := by
  unfold inputOf removeInput
  dsimp only
  rw [find_filter_ne]
  split <;> rfl

theorem inputOf_assignInput (t : Trace) (m r : MathRef) (input : Option MathRef) :
    inputOf (assignInput t m input) r = if r = m then input else inputOf t r := by
  cases input with
  | none =>
    show inputOf (removeInput t m) r = _
    exact inputOf_removeInput t m r
  | some i =>
    unfold inputOf assignInput
    dsimp only
    rw [List.find?_cons]
    by_cases hrm : r = m
    · subst hrm
      simp
    · have h2 : (m == r) = false := by
        simp
        exact fun h => hrm h.symm
      rw [h2]
      dsimp only
      rw [find_filter_ne, if_neg hrm, if_neg hrm]

/-- The inputs after the reassignment of `enableMathOperation`. -/
theorem inputOf_rewireInputs (t : Trace) (e : Bool) (cur prev : MathInfo)
    (next : Option MathInfo) (r : MathRef) :
    inputOf (rewireInputs t e cur prev next) r =
      if e then
        (if next.map MathInfo.math = some r then some cur.math
         else if r = cur.math then some prev.math else inputOf t r)
      else
        (if r = cur.math then none
         else if next.map MathInfo.math = some r then some prev.math else inputOf t r) := by
  unfold rewireInputs
  cases e
  · simp only [Bool.false_eq_true, if_false]
    rw [inputOf_removeInput]
    cases next with
    | none => simp
    | some nxt =>
      simp only [Option.map_some', Option.some.injEq]
      rw [inputOf_assignInput]
      by_cases h1 : r = cur.math
      · simp [h1]
      · by_cases h2 : nxt.math = r
        · simp [h1, h2]
        · have h3 : ¬ r = nxt.math := fun h => h2 h.symm
          simp [h1, h2, h3]
  · simp only [if_true]
    cases next with
    | none =>
      simp only [Option.map_none']
      rw [inputOf_assignInput]
      simp
    | some nxt =>
      simp only [Option.map_some', Option.some.injEq]
      rw [inputOf_assignInput, inputOf_assignInput]
      by_cases h2 : nxt.math = r
      · simp [h2]
      · have h3 : ¬ r = nxt.math := fun h => h2 h.symm
        simp [h2, h3]

theorem lastFrom_append (l1 l2 : List MathInfo) :
    ∀ prev, lastFrom prev (l1 ++ l2) = lastFrom (lastFrom prev l1) l2 := by
  induction l1 with
  | nil => intro prev; rfl
  | cons m rest ih =>
    intro prev
    show lastFrom _ (rest ++ l2) = lastFrom (lastFrom _ rest) l2
    exact ih _

theorem lastFrom_disabled (l : List MathInfo) (h : ∀ m ∈ l, m.enabled = false) :
    ∀ prev, lastFrom prev l = prev := by
  induction l with
  | nil => intro prev; rfl
  | cons m rest ih =>
    intro prev
    unfold lastFrom
    rw [h m (List.mem_cons_self _ _)]
    exact ih (fun x hx => h x (List.mem_cons_of_mem _ hx)) prev

theorem lastFrom_mem (l : List MathInfo) :
    ∀ prev, lastFrom prev l = prev ∨ lastFrom prev l ∈ l.map MathInfo.math := by
  induction l with
  | nil => intro prev; exact Or.inl rfl
  | cons m rest ih =>
    intro prev
    unfold lastFrom
    rcases ih (if m.enabled then m.math else prev) with h | h
    · rw [h]
      split
      · exact Or.inr (List.mem_cons_self _ _)
      · exact Or.inl rfl
    · exact Or.inr (List.mem_cons_of_mem _ h)

theorem lastEnabled_eq_lastFrom (l : List MathInfo) :
    ∀ prev, (lastEnabled l).getD prev = lastFrom prev l := by
  induction l with
  | nil => intro prev; rfl
  | cons m rest ih =>
    intro prev
    rw [lastEnabled_cons]
    unfold lastFrom
    rw [← ih]
    cases lastEnabled rest with
    | some r => simp
    | none => cases m.enabled <;> simp

theorem lastEnabled_headed (rest : List MathInfo) (m : MathRef) :
    lastEnabled ({ math := m, enabled := true } :: rest) = some (lastFrom m rest) := by
  rw [lastEnabled_cons, ← lastEnabled_eq_lastFrom]
  cases lastEnabled rest <;> simp

theorem wiredFrom_cons (inp : MathRef → Option MathRef) (prev : MathRef) (m : MathInfo)
    (rest : List MathInfo) :
    wiredFrom inp prev (m :: rest)
      = if m.enabled then inp m.math == some prev && wiredFrom inp m.math rest
        else wiredFrom inp prev rest := rfl

theorem lastFrom_cons (prev : MathRef) (m : MathInfo) (rest : List MathInfo) :
    lastFrom prev (m :: rest) = lastFrom (if m.enabled then m.math else prev) rest := rfl

theorem wiredFrom_append (inp : MathRef → Option MathRef) (l1 l2 : List MathInfo) :
    ∀ prev, wiredFrom inp prev (l1 ++ l2)
      = (wiredFrom inp prev l1 && wiredFrom inp (lastFrom prev l1) l2) := by
  induction l1 with
  | nil => intro prev; simp [wiredFrom, lastFrom]
  | cons m rest ih =>
    intro prev
    show wiredFrom inp prev (m :: (rest ++ l2)) = _
    rw [wiredFrom_cons, wiredFrom_cons, lastFrom_cons]
    cases m.enabled
    · simp only [Bool.false_eq_true, if_false]
      exact ih prev
    · simp only [if_true]
      rw [ih, Bool.and_assoc]

theorem wiredFrom_congr (inp inp' : MathRef → Option MathRef) (l : List MathInfo)
    (h : ∀ m ∈ l, m.enabled = true → inp' m.math = inp m.math) :
    ∀ prev, wiredFrom inp' prev l = wiredFrom inp prev l := by
  induction l with
  | nil => intro prev; rfl
  | cons m rest ih =>
    intro prev
    have ih' := ih (fun x hx => h x (List.mem_cons_of_mem _ hx))
    unfold wiredFrom
    cases hm : m.enabled
    · simp only [Bool.false_eq_true, if_false]
      exact ih' prev
    · simp only [if_true]
      rw [h m (List.mem_cons_self _ _) hm, ih']

/-- Handing the first enabled node of a wired stretch the new input `c` wires the
stretch behind `c`. -/
theorem wiredFrom_retarget (inp inp' : MathRef → Option MathRef) (c : MathRef)
    (l : List MathInfo) :
    ∀ p, (l.map MathInfo.math).Nodup → wiredFrom inp p l = true →
      (∀ m ∈ l, m.enabled = true → inp' m.math
        = if (l.find? (fun it => it.enabled)).map MathInfo.math = some m.math then some c
          else inp m.math) →
      wiredFrom inp' c l = true := by
  induction l with
  | nil => intro p _ _ _; rfl
  | cons m rest ih =>
    intro p hnd hw hinp
    rw [List.map_cons, List.nodup_cons] at hnd
    unfold wiredFrom at hw ⊢
    cases hm : m.enabled
    · rw [hm] at hw
      simp only [Bool.false_eq_true, if_false] at hw ⊢
      apply ih p hnd.2 hw
      intro x hx hxe
      have := hinp x (List.mem_cons_of_mem _ hx) hxe
      rw [List.find?_cons, hm] at this
      exact this
    · rw [hm] at hw
      simp only [if_true, Bool.and_eq_true, beq_iff_eq] at hw ⊢
      constructor
      · have := hinp m (List.mem_cons_self _ _) hm
        rw [List.find?_cons, hm] at this
        simpa using this
      · rw [wiredFrom_congr inp inp' rest]
        · exact hw.2
        · intro x hx hxe
          have := hinp x (List.mem_cons_of_mem _ hx) hxe
          rw [List.find?_cons, hm] at this
          have hne : ¬ m.math = x.math := by
            intro heq
            apply hnd.1
            rw [heq]
            exact List.mem_map.mpr ⟨x, hx, rfl⟩
          simpa [hne] using this

theorem find_enabled_mem (l : List MathInfo) (nxt : MathInfo)
    (h : l.find? (fun it => it.enabled) = some nxt) : nxt ∈ l ∧ nxt.enabled = true := by
  have h1 := List.find?_some h
  exact ⟨List.mem_of_find?_eq_some h, h1⟩

/-- Toggling the node `cur` between the stretches `pre` and `post` keeps the chain wired,
if the inputs are reassigned as `enableMathOperation` reassigns them. -/
theorem wiredFrom_toggle (inp inp' : MathRef → Option MathRef) (pre post : List MathInfo)
    (cur : MathInfo) (e : Bool) (p0 : MathRef)
    (hnd : ((pre ++ cur :: post).map MathInfo.math).Nodup)
    (hw : wiredFrom inp p0 (pre ++ cur :: post) = true) (hne : cur.enabled ≠ e)
    (hinp : ∀ r, inp' r =
      if e then
        (if (post.find? (fun it => it.enabled)).map MathInfo.math = some r then some cur.math
         else if r = cur.math then some (lastFrom p0 pre) else inp r)
      else
        (if r = cur.math then none
         else if (post.find? (fun it => it.enabled)).map MathInfo.math = some r then
           some (lastFrom p0 pre)
         else inp r)) :
    wiredFrom inp' p0 (pre ++ { cur with enabled := e } :: post) = true := by
  rw [List.map_append, List.map_cons, List.nodup_append] at hnd
  obtain ⟨_, hnd2, hdisj⟩ := hnd
  rw [List.nodup_cons] at hnd2
  rw [wiredFrom_append] at hw ⊢
  rw [Bool.and_eq_true] at hw ⊢
  have hcur_pre : ∀ m ∈ pre, m.math ≠ cur.math := by
    intro m hm heq
    exact hdisj (List.mem_map.mpr ⟨m, hm, rfl⟩) (by rw [heq]; exact List.mem_cons_self _ _)
  have hpost_pre : ∀ m ∈ pre, ∀ x ∈ post, x.math ≠ m.math := by
    intro m hm x hx heq
    exact hdisj (List.mem_map.mpr ⟨m, hm, rfl⟩)
      (by rw [← heq]; exact List.mem_cons_of_mem _ (List.mem_map.mpr ⟨x, hx, rfl⟩))
  have hcur_post : ∀ x ∈ post, x.math ≠ cur.math := by
    intro x hx heq
    exact hnd2.1 (by rw [← heq]; exact List.mem_map.mpr ⟨x, hx, rfl⟩)
  have hnext_pre : ∀ m ∈ pre,
      ¬ (post.find? (fun it => it.enabled)).map MathInfo.math = some m.math := by
    intro m hm h
    cases hf : post.find? (fun it => it.enabled) with
    | none => rw [hf] at h; cases h
    | some nxt =>
      rw [hf] at h
      exact hpost_pre m hm nxt (find_enabled_mem post nxt hf).1 (Option.some.inj h)
  constructor
  · rw [wiredFrom_congr inp inp' pre]
    · exact hw.1
    · intro m hm _
      rw [hinp]
      cases e
      · simp [hcur_pre m hm, hnext_pre m hm]
      · simp [hcur_pre m hm, hnext_pre m hm]
  · have hw2 := hw.2
    rw [wiredFrom_cons] at hw2 ⊢
    cases e
    · have hce : cur.enabled = true := by
        cases h : cur.enabled
        · exact absurd h hne
        · rfl
      rw [hce] at hw2
      simp only [if_true, Bool.and_eq_true, beq_iff_eq] at hw2
      simp only [Bool.false_eq_true, if_false]
      apply wiredFrom_retarget inp inp' (lastFrom p0 pre) post cur.math hnd2.2 hw2.2
      intro m hm _
      rw [hinp]
      simp [hcur_post m hm]
    · have hce : cur.enabled = false := by
        cases h : cur.enabled
        · rfl
        · exact absurd h hne
      rw [hce] at hw2
      simp only [Bool.false_eq_true, if_false] at hw2
      simp only [if_true, Bool.and_eq_true, beq_iff_eq]
      constructor
      · rw [hinp]
        have hn : ¬ (post.find? (fun it => it.enabled)).map MathInfo.math = some cur.math := by
          intro h
          cases hf : post.find? (fun it => it.enabled) with
          | none => rw [hf] at h; cases h
          | some nxt =>
            rw [hf] at h
            exact hcur_post nxt (find_enabled_mem post nxt hf).1 (Option.some.inj h)
        simp [hn]
      · apply wiredFrom_retarget inp inp' cur.math post (lastFrom p0 pre) hnd2.2 hw2
        intro m hm _
        rw [hinp]
        simp [hcur_post m hm]
/-! ### The scans of `enableMathOperation` on the split chain -/

theorem split_at (l : List MathInfo) :
    ∀ (i : Nat) (a : MathInfo), l[i]? = some a →
      l = l.take i ++ a :: l.drop (i + 1) ∧
      (∀ x, l.set i x = l.take i ++ x :: l.drop (i + 1)) ∧
      l.eraseIdx i = l.take i ++ l.drop (i + 1) := by
  induction l with
  | nil => intro i a h; simp at h
  | cons m rest ih =>
    intro i a h
    cases i with
    | zero =>
      simp only [List.getElem?_cons_zero, Option.some.injEq] at h
      subst h
      simp
    | succ i =>
      simp only [List.getElem?_cons_succ] at h
      obtain ⟨h1, h2, h3⟩ := ih i a h
      refine ⟨?_, ?_, ?_⟩
      · simp only [List.take_succ_cons, List.drop_succ_cons, List.cons_append]
        rw [← h1]
      · intro x
        simp only [List.set_cons_succ, List.take_succ_cons, List.drop_succ_cons,
          List.cons_append]
        rw [h2 x]
      · simp only [List.eraseIdx_cons_succ, List.take_succ_cons, List.drop_succ_cons,
          List.cons_append]
        rw [h3]

theorem scanNext_find (l : List MathInfo) :
    ∀ pre : List MathInfo,
      (pre ++ l)[scanNext l pre.length]? = l.find? (fun it => it.enabled) := by
  induction l with
  | nil =>
    intro pre
    simp [scanNext]
  | cons m rest ih =>
    intro pre
    unfold scanNext
    cases hm : m.enabled
    · simp only [Bool.false_eq_true, if_false]
      have := ih (pre ++ [m])
      simp only [List.length_append, List.length_singleton, List.append_assoc,
        List.singleton_append] at this
      rw [this, List.find?_cons, hm]
    · simp only [if_true]
      rw [List.find?_cons, hm]
      rw [List.getElem?_append_right (le_refl _)]
      simp

theorem scanNext_drop (ops : List MathInfo) (j : Nat) (hj : j ≤ ops.length) :
    ops[scanNext (ops.drop j) j]? = (ops.drop j).find? (fun it => it.enabled) := by
  have := scanNext_find (ops.drop j) (ops.take j)
  rw [List.take_append_drop, List.length_take, Nat.min_eq_left hj] at this
  exact this

theorem scanPrev_lastFrom (head : MathInfo) (rest : List MathInfo) :
    ∀ k, k < (head :: rest).length →
      ((head :: rest)[scanPrev (head :: rest) k]?).map MathInfo.math
        = some (lastFrom head.math (rest.take k)) := by
  intro k
  induction k with
  | zero => intro _; simp [scanPrev, lastFrom]
  | succ k ih =>
    intro hk
    have hk' : k < rest.length := by simpa using hk
    unfold scanPrev
    rw [List.getElem?_cons_succ, List.getElem?_eq_getElem hk']
    dsimp only
    rw [List.take_succ, List.getElem?_eq_getElem hk', Option.toList_some, lastFrom_append]
    cases hm : rest[k].enabled
    · simp only [Bool.false_eq_true, if_false]
      rw [ih (by simp; omega)]
      simp [lastFrom, hm]
    · simp only [if_true]
      rw [List.getElem?_cons_succ, List.getElem?_eq_getElem hk']
      simp [lastFrom, hm]

theorem inputOf_congr (t u : Trace) (h : t.inputs = u.inputs) (r : MathRef) :
    inputOf t r = inputOf u r := by
  unfold inputOf
  rw [h]

/-- `enableMathOperation` on a node whose flag differs from the wanted one: the flag is
set and the inputs are those that the reassignment gives, with the two scans read off the
split chain. -/
theorem enableMathOperation_toggle (t : Trace) (i : Nat) (e : Bool) (rest : List MathInfo)
    (cur : MathInfo) (hops : t.mathOps = { math := MathRef.self, enabled := true } :: rest)
    (hcur : rest[i]? = some cur) (hne : cur.enabled ≠ e) :
    ∃ t', enableMathOperation t (i + 1) e = Except.ok t' ∧
      t'.mathOps = { math := MathRef.self, enabled := true } ::
        (rest.take i ++ { cur with enabled := e } :: rest.drop (i + 1)) ∧
      t'.lastMath = some (lastFrom MathRef.self
        (rest.take i ++ { cur with enabled := e } :: rest.drop (i + 1))) ∧
      t'.data = t.data ∧
      ∀ r, inputOf t' r =
        if e then
          (if ((rest.drop (i + 1)).find? (fun it => it.enabled)).map MathInfo.math = some r then
             some cur.math
           else if r = cur.math then some (lastFrom MathRef.self (rest.take i))
           else inputOf t r)
        else
          (if r = cur.math then none
           else if ((rest.drop (i + 1)).find? (fun it => it.enabled)).map MathInfo.math = some r
             then some (lastFrom MathRef.self (rest.take i))
           else inputOf t r) := by
  have hi : i < rest.length := (List.getElem?_eq_some.mp hcur).1
  have hlen : t.mathOps.length = rest.length + 1 := by rw [hops]; rfl
  have hcur' : t.mathOps[i + 1]? = some cur := by rw [hops]; simpa using hcur
  obtain ⟨_, hset, _⟩ := split_at rest i cur hcur
  unfold enableMathOperation
  rw [if_neg (by omega), hcur']
  dsimp only
  rw [if_pos hne]
  have hprevlt : scanPrev t.mathOps (i + 1 - 1) < t.mathOps.length := by
    have := scanPrev_le t.mathOps (i + 1 - 1); omega
  obtain ⟨prev, hprev⟩ : ∃ prev, t.mathOps[scanPrev t.mathOps (i + 1 - 1)]? = some prev :=
    ⟨_, List.getElem?_eq_getElem hprevlt⟩
  have hprevmath : prev.math = lastFrom MathRef.self (rest.take i) := by
    have := scanPrev_lastFrom { math := MathRef.self, enabled := true } rest i
      (by simp; omega)
    rw [← hops] at this
    simp only [Nat.add_sub_cancel] at hprev
    rw [hprev] at this
    simpa using this
  have hnext : t.mathOps[scanNext (t.mathOps.drop (i + 1 + 1)) (i + 1 + 1)]?
      = (rest.drop (i + 1)).find? (fun it => it.enabled) := by
    rw [scanNext_drop t.mathOps (i + 1 + 1) (by omega), hops]
    rfl
  rw [hprev, hnext]
  dsimp only
  have hsetops : t.mathOps.set (i + 1) { cur with enabled := e }
      = { math := MathRef.self, enabled := true } ::
        (rest.take i ++ { cur with enabled := e } :: rest.drop (i + 1)) := by
    rw [hops, List.set_cons_succ, hset]
  have hr : lastEnabled (t.mathOps.set (i + 1) { cur with enabled := e })
      = some (lastFrom MathRef.self
        (rest.take i ++ { cur with enabled := e } :: rest.drop (i + 1))) := by
    rw [hsetops, lastEnabled_headed]
  obtain ⟨t', hok, hops', hlast, hdata, hinputs⟩ := updateLastMath_full
    { rewireInputs t e cur prev ((rest.drop (i + 1)).find? (fun it => it.enabled)) with
      mathOps := (rewireInputs t e cur prev
        ((rest.drop (i + 1)).find? (fun it => it.enabled))).mathOps.set (i + 1)
          { cur with enabled := e } }
    (by simpa [rewireInputs_mathOps] using hr)
  refine ⟨t', hok, ?_, hlast, ?_, ?_⟩
  · rw [hops']
    simpa [rewireInputs_mathOps] using hsetops
  · rw [hdata]
    unfold rewireInputs
    cases e <;> cases (rest.drop (i + 1)).find? (fun it => it.enabled) <;>
      simp [assignInput, removeInput]
  · intro r
    rw [inputOf_congr t' _ hinputs r]
    show inputOf (rewireInputs t e cur prev
      ((rest.drop (i + 1)).find? (fun it => it.enabled))) r = _
    rw [inputOf_rewireInputs, hprevmath]
/-! ### The chain functions keep the chain in order -/

theorem chainOk_of (t : Trace) (rest : List MathInfo)
    (hops : t.mathOps = { math := MathRef.self, enabled := true } :: rest)
    (hlast : t.lastMath = some (lastFrom MathRef.self rest))
    (hnd : (MathRef.self :: rest.map MathInfo.math).Nodup)
    (hw : wiredFrom (inputOf t) MathRef.self rest = true) : ChainOk t := by
  refine ⟨⟨rest, hops⟩, ?_, ?_, ?_⟩
  · unfold Synced
    rw [hlast, hops, lastEnabled_headed]
  · unfold chainRefs
    rw [hops]
    exact hnd
  · unfold Wired
    rw [hops]
    exact hw

theorem chainOk_inv (t : Trace) (h : ChainOk t) :
    ∃ rest, t.mathOps = { math := MathRef.self, enabled := true } :: rest ∧
      t.lastMath = some (lastFrom MathRef.self rest) ∧
      (MathRef.self :: rest.map MathInfo.math).Nodup ∧
      wiredFrom (inputOf t) MathRef.self rest = true := by
  obtain ⟨⟨rest, hops⟩, hs, hnd, hw⟩ := h
  refine ⟨rest, hops, ?_, ?_, ?_⟩
  · unfold Synced at hs
    rw [hs, hops, lastEnabled_headed]
  · unfold chainRefs at hnd
    rw [hops] at hnd
    exact hnd
  · unfold Wired at hw
    rw [hops] at hw
    exact hw

/-- `enableMathOperation` keeps the chain in order; it returns, keeps the objects of the
chain and sets the flag of a node other than the identity node. -/
theorem enableMathOperation_chainOk (t : Trace) (i : Nat) (e : Bool) (h : ChainOk t) :
    ∃ t', enableMathOperation t i e = Except.ok t' ∧ ChainOk t' ∧
      chainRefs t' = chainRefs t ∧
      t'.mathOps = (if 1 ≤ i then setEnabled t.mathOps i e else t.mathOps) := by
  obtain ⟨t', hok, hops', _, _⟩ := enableMathOperation_spec t i e h.1
  refine ⟨t', hok, ?_, ?_, hops'⟩
  · by_cases hg : i < 1 ∨ i ≥ t.mathOps.length
    · unfold enableMathOperation at hok
      rw [if_pos hg] at hok
      cases hok
      exact h
    · have h1 : 1 ≤ i := by omega
      have h2 : i < t.mathOps.length := by omega
      by_cases hen : t.mathOps[i].enabled = e
      · unfold enableMathOperation at hok
        rw [if_neg hg, List.getElem?_eq_getElem h2] at hok
        dsimp only at hok
        rw [if_neg (not_not.mpr hen)] at hok
        cases hok
        exact h
      · obtain ⟨rest, hops, hlast, hnd, hw⟩ := chainOk_inv t h
        obtain ⟨k, rfl⟩ : ∃ k, i = k + 1 := ⟨i - 1, by omega⟩
        have hcur : rest[k]? = some t.mathOps[k + 1] := by
          have : t.mathOps[k + 1]? = some t.mathOps[k + 1] := List.getElem?_eq_getElem h2
          rw [← this, hops]
          simp
        obtain ⟨t2, hok2, hops2, hlast2, _, hinp⟩ :=
          enableMathOperation_toggle t k e rest _ hops hcur hen
        rw [hok] at hok2
        cases hok2
        obtain ⟨hsplit, _, _⟩ := split_at rest k _ hcur
        apply chainOk_of t' _ hops2 hlast2
        · have : (rest.take k ++ { t.mathOps[k + 1] with enabled := e } :: rest.drop (k + 1)).map
              MathInfo.math = rest.map MathInfo.math := by
            conv_rhs => rw [hsplit]
            simp
          rw [this]
          exact hnd
        · apply wiredFrom_toggle (inputOf t) (inputOf t') _ _ _ e MathRef.self
          · rw [← hsplit]
            exact (List.nodup_cons.mp hnd).2
          · rw [← hsplit]
            exact hw
          · exact hen
          · exact hinp
  · unfold chainRefs
    rw [hops']
    split
    · unfold setEnabled
      split
      · rename_i m hm
        apply List.ext_getElem?
        intro j
        simp only [List.getElem?_map]
        by_cases hj : i = j
        · subst hj
          rw [hm]
          rw [List.getElem?_set_self (List.getElem?_eq_some.mp hm).1]
          rfl
        · rw [List.getElem?_set_ne hj]
      · rfl
    · rfl
/-- Appending a new object as an enabled node, with the last enabled node as its input,
keeps the chain wired. -/
theorem wired_push (t : Trace) (rest : List MathInfo) (m : MathRef)
    (hnd : (MathRef.self :: rest.map MathInfo.math).Nodup)
    (hw : wiredFrom (inputOf t) MathRef.self rest = true)
    (hm : m ∉ MathRef.self :: rest.map MathInfo.math) :
    (MathRef.self :: (rest ++ [(⟨m, true⟩ : MathInfo)]).map MathInfo.math).Nodup ∧
    wiredFrom (inputOf (assignInput t m (some (lastFrom MathRef.self rest)))) MathRef.self
      (rest ++ [(⟨m, true⟩ : MathInfo)]) = true := by
  constructor
  · rw [List.map_append, ← List.cons_append]
    apply List.Nodup.append hnd (by simp)
    intro x hx hx'
    simp only [List.map_cons, List.map_nil, List.mem_singleton] at hx'
    rw [hx'] at hx
    exact hm hx
  · rw [wiredFrom_append, Bool.and_eq_true]
    constructor
    · rw [wiredFrom_congr (inputOf t)]
      · exact hw
      · intro x hx _
        rw [inputOf_assignInput, if_neg]
        intro heq
        apply hm
        rw [← heq]
        exact List.mem_cons_of_mem _ (List.mem_map.mpr ⟨x, hx, rfl⟩)
    · rw [wiredFrom_cons]
      simp [inputOf_assignInput, wiredFrom]

theorem lastFrom_push (rest : List MathInfo) (m prev : MathRef) :
    lastFrom prev (rest ++ [(⟨m, true⟩ : MathInfo)]) = m := by
  rw [lastFrom_append]
  rfl

theorem addMathOperation_chainOk (t : Trace) (m : MathRef) (h : ChainOk t)
    (hm : m ∉ chainRefs t) :
    ∃ t', addMathOperation t m = Except.ok t' ∧ ChainOk t' ∧
      chainRefs t' = chainRefs t ++ [m] := by
  obtain ⟨rest, hops, hlast, hnd, hw⟩ := chainOk_inv t h
  have hm' : m ∉ MathRef.self :: rest.map MathInfo.math := by
    unfold chainRefs at hm
    rw [hops] at hm
    exact hm
  obtain ⟨hnd', hw'⟩ := wired_push t rest m hnd hw hm'
  unfold addMathOperation
  obtain ⟨t', hok, hops', hlast', _, hinp⟩ := updateLastMath_full
    { assignInput t m t.lastMath with
      mathOps := (assignInput t m t.lastMath).mathOps ++ [(⟨m, true⟩ : MathInfo)] }
    (r := m) (lastEnabled_append_enabled _ m)
  have hops2 : t'.mathOps = { math := MathRef.self, enabled := true } ::
      (rest ++ [(⟨m, true⟩ : MathInfo)]) := by
    rw [hops']
    simp [assignInput_mathOps, hops]
  refine ⟨t', hok, ?_, ?_⟩
  · apply chainOk_of t' _ hops2
    · rw [hlast', lastFrom_push]
    · exact hnd'
    · rw [wiredFrom_congr (inputOf (assignInput t m (some (lastFrom MathRef.self rest))))]
      · exact hw'
      · intro x _ _
        rw [inputOf_congr t' _ hinp, hlast]
        rfl
  · unfold chainRefs
    rw [hops2, hops]
    simp

/-- The loop of `addMathOperations` keeps the chain wired, if it starts with the last
enabled node as `input` and the objects are new. -/
theorem addMathOperationsLoop_wired (maths : List MathRef) :
    ∀ (t : Trace) (rest : List MathInfo),
      t.mathOps = { math := MathRef.self, enabled := true } :: rest →
      (MathRef.self :: rest.map MathInfo.math).Nodup →
      wiredFrom (inputOf t) MathRef.self rest = true →
      maths.Nodup → (∀ m ∈ maths, m ∉ MathRef.self :: rest.map MathInfo.math) →
      (MathRef.self :: (rest ++ maths.map (fun m => (⟨m, true⟩ : MathInfo))).map
        MathInfo.math).Nodup ∧
      wiredFrom (inputOf (addMathOperationsLoop maths (some (lastFrom MathRef.self rest)) t))
        MathRef.self (rest ++ maths.map (fun m => (⟨m, true⟩ : MathInfo))) = true := by
  induction maths with
  | nil =>
    intro t rest _ hnd hw _ _
    exact ⟨by simpa using hnd, by simpa [addMathOperationsLoop] using hw⟩
  | cons m ms ih =>
    intro t rest hops hnd hw hmnd hfresh
    rw [List.nodup_cons] at hmnd
    obtain ⟨hnd1, hw1⟩ := wired_push t rest m hnd hw (hfresh m (List.mem_cons_self _ _))
    have hw2 : wiredFrom (inputOf
        { assignInput t m (some (lastFrom MathRef.self rest)) with
          mathOps := (assignInput t m (some (lastFrom MathRef.self rest))).mathOps
            ++ [(⟨m, true⟩ : MathInfo)] }) MathRef.self (rest ++ [(⟨m, true⟩ : MathInfo)])
        = true := hw1
    have hstep := ih
      { assignInput t m (some (lastFrom MathRef.self rest)) with
        mathOps := (assignInput t m (some (lastFrom MathRef.self rest))).mathOps
          ++ [(⟨m, true⟩ : MathInfo)] }
      (rest ++ [(⟨m, true⟩ : MathInfo)])
      (by simp [assignInput_mathOps, hops]) hnd1 hw2 hmnd.2
      (by
        intro x hx
        have hx1 := hfresh x (List.mem_cons_of_mem _ hx)
        simp only [List.map_append, List.map_cons, List.map_nil, List.mem_cons,
          List.mem_append, List.mem_singleton, List.not_mem_nil, or_false] at hx1 ⊢
        rintro (h | h | h)
        · exact hx1 (Or.inl h)
        · exact hx1 (Or.inr h)
        · rw [h] at hx
          exact hmnd.1 hx)
    rw [lastFrom_push] at hstep
    simp only [List.map_cons, List.append_assoc, List.singleton_append] at hstep ⊢
    exact hstep

theorem addMathOperations_chainOk (t : Trace) (maths : List MathRef) (h : ChainOk t)
    (hnd : maths.Nodup) (hm : ∀ m ∈ maths, m ∉ chainRefs t) :
    ∃ t', addMathOperations t maths = Except.ok t' ∧ ChainOk t' ∧
      chainRefs t' = chainRefs t ++ maths := by
  obtain ⟨rest, hops, hlast, hnd0, hw⟩ := chainOk_inv t h
  have hm' : ∀ m ∈ maths, m ∉ MathRef.self :: rest.map MathInfo.math := by
    intro m hmm
    have := hm m hmm
    unfold chainRefs at this
    rw [hops] at this
    exact this
  obtain ⟨hnd', hw'⟩ := addMathOperationsLoop_wired maths t rest hops hnd0 hw hnd hm'
  have hloop := addMathOperationsLoop_mathOps maths t.lastMath t
  have hloop2 : (addMathOperationsLoop maths t.lastMath t).mathOps
      = { math := MathRef.self, enabled := true } ::
        (rest ++ maths.map (fun m => (⟨m, true⟩ : MathInfo))) := by
    rw [hloop, hops]
    rfl
  unfold addMathOperations
  obtain ⟨t', hok, hops', hlast', _, hinp⟩ := updateLastMath_full
    (addMathOperationsLoop maths t.lastMath t)
    (r := lastFrom MathRef.self (rest ++ maths.map (fun m => (⟨m, true⟩ : MathInfo))))
    (by rw [hloop2, lastEnabled_headed])
  refine ⟨t', hok, ?_, ?_⟩
  · apply chainOk_of t' _ (hops'.trans hloop2) hlast' hnd'
    rw [wiredFrom_congr (inputOf (addMathOperationsLoop maths
      (some (lastFrom MathRef.self rest)) t))]
    · exact hw'
    · intro x _ _
      rw [inputOf_congr t' _ hinp, hlast]
  · unfold chainRefs
    rw [hops', hloop2, hops]
    simp [Function.comp_def]

/-- Erasing a disabled node keeps the chain in order. -/
theorem eraseOperation_chainOk (t : Trace) (i : Nat) (gone : MathInfo) (h : ChainOk t)
    (h1 : 1 ≤ i) (hg : t.mathOps[i]? = some gone) (hd : gone.enabled = false) :
    ∃ t', eraseOperation t i = Except.ok t' ∧ ChainOk t' ∧
      t'.mathOps = t.mathOps.eraseIdx i ∧ ∀ r ∈ chainRefs t', r ∈ chainRefs t := by
  obtain ⟨rest, hops, hlast, hnd, hw⟩ := chainOk_inv t h
  obtain ⟨k, rfl⟩ : ∃ k, i = k + 1 := ⟨i - 1, by omega⟩
  have hcur : rest[k]? = some gone := by
    rw [hops] at hg
    simpa using hg
  obtain ⟨hsplit, _, herase⟩ := split_at rest k gone hcur
  unfold eraseOperation
  rw [hg]
  refine ⟨_, rfl, ?_, rfl, ?_⟩
  · have hops2 : t.mathOps.eraseIdx (k + 1)
        = { math := MathRef.self, enabled := true } :: (rest.take k ++ rest.drop (k + 1)) := by
      rw [hops, List.eraseIdx_cons_succ, herase]
    rw [hsplit, List.map_append, List.map_cons] at hnd
    rw [hsplit, wiredFrom_append, wiredFrom_cons, hd] at hw
    simp only [Bool.false_eq_true, if_false] at hw
    have hnd2 : (MathRef.self :: (rest.take k ++ rest.drop (k + 1)).map MathInfo.math).Nodup := by
      rw [List.map_append]
      apply hnd.sublist
      apply List.Sublist.cons₂
      apply List.Sublist.append_left
      exact List.sublist_cons_self _ _
    apply chainOk_of _ _ hops2
    · show t.lastMath = _
      rw [hlast]
      conv_lhs => rw [hsplit]
      rw [lastFrom_append, lastFrom_append, lastFrom_cons, hd]
      rfl
    · exact hnd2
    · show wiredFrom (inputOf (removeInput t gone.math)) MathRef.self _ = true
      rw [wiredFrom_congr (inputOf t), wiredFrom_append]
      · exact hw
      · intro x hx _
        rw [inputOf_removeInput, if_neg]
        intro heq
        rw [List.nodup_cons, List.nodup_append] at hnd
        obtain ⟨_, _, hnd3, hdisj⟩ := hnd
        rcases List.mem_append.mp hx with hx | hx
        · exact hdisj (List.mem_map.mpr ⟨x, hx, rfl⟩) (by rw [heq]; exact List.mem_cons_self _ _)
        · exact (List.nodup_cons.mp hnd3).1 (by rw [← heq]; exact List.mem_map.mpr ⟨x, hx, rfl⟩)
  · intro r hr
    unfold chainRefs at hr ⊢
    obtain ⟨x, hx, rfl⟩ := List.mem_map.mp hr
    exact List.mem_map.mpr ⟨x, (List.eraseIdx_sublist _ _).subset hx, rfl⟩

theorem removeMathOperation_chainOk (t : Trace) (i : Nat) (h : ChainOk t) :
    ∃ t', removeMathOperation t i = Except.ok t' ∧ ChainOk t' ∧
      ∀ r ∈ chainRefs t', r ∈ chainRefs t := by
  unfold removeMathOperation
  by_cases hg : i < 1 ∨ i ≥ t.mathOps.length
  · rw [if_pos hg]
    exact ⟨t, rfl, h, fun r hr => hr⟩
  · rw [if_neg hg]
    have h1 : 1 ≤ i := by omega
    have h2 : i < t.mathOps.length := by omega
    rw [List.getElem?_eq_getElem h2]
    dsimp only
    have hstep : ∃ t1, (if t.mathOps[i].enabled = true then enableMathOperation t i false
          else Except.ok t) = Except.ok t1 ∧ ChainOk t1 ∧ chainRefs t1 = chainRefs t ∧
        t1.mathOps = setEnabled t.mathOps i false := by
      by_cases hen : t.mathOps[i].enabled = true
      · rw [if_pos hen]
        obtain ⟨t1, hok, hc, hrefs, hops⟩ := enableMathOperation_chainOk t i false h
        rw [if_pos h1] at hops
        exact ⟨t1, hok, hc, hrefs, hops⟩
      · rw [if_neg hen]
        refine ⟨t, rfl, h, rfl, ?_⟩
        rw [setEnabled_same t.mathOps i false h2 (by simpa using hen)]
    obtain ⟨t1, hok1, hc1, hrefs1, hops1⟩ := hstep
    rw [hok1]
    have hlen1 : i < t1.mathOps.length := by rw [hops1, setEnabled_length]; exact h2
    show ∃ t', eraseOperation t1 i = Except.ok t' ∧ _
    obtain ⟨t', hok, hc', _, hsub⟩ := eraseOperation_chainOk t1 i t1.mathOps[i] hc1 h1
      (List.getElem?_eq_getElem hlen1)
      (by
        apply setEnabled_getElem?_self t.mathOps i false
        rw [← hops1]
        exact List.getElem?_eq_getElem hlen1)
    exact ⟨t', hok, hc', fun r hr => hrefs1 ▸ hsub r hr⟩
theorem split_two (l : List MathInfo) :
    ∀ (i : Nat) (a b : MathInfo), l[i]? = some a → l[i + 1]? = some b →
      l = l.take i ++ a :: b :: l.drop (i + 2) ∧
      ∀ x y, (l.set i x).set (i + 1) y = l.take i ++ x :: y :: l.drop (i + 2) := by
  induction l with
  | nil => intro i a b h; simp at h
  | cons m rest ih =>
    intro i a b ha hb
    cases i with
    | zero =>
      simp only [List.getElem?_cons_zero, Option.some.injEq] at ha
      subst ha
      cases rest with
      | nil => simp at hb
      | cons m2 rest2 =>
        simp only [Nat.zero_add, List.getElem?_cons_succ, List.getElem?_cons_zero,
          Option.some.injEq] at hb
        subst hb
        simp
    | succ i =>
      simp only [List.getElem?_cons_succ] at ha hb
      obtain ⟨h1, h2⟩ := ih i a b ha hb
      constructor
      · simp only [List.take_succ_cons, List.drop_succ_cons, List.cons_append]
        rw [← h1]
      · intro x y
        simp only [List.set_cons_succ, List.take_succ_cons, List.drop_succ_cons,
          List.cons_append]
        rw [h2 x y]

/-- Exchanging two disabled neighbours keeps the chain in order. -/
theorem swapEntries_chainOk (t : Trace) (i : Nat) (a b : MathInfo) (h : ChainOk t)
    (h1 : 1 ≤ i) (ha : t.mathOps[i]? = some a) (hb : t.mathOps[i + 1]? = some b)
    (hda : a.enabled = false) (hdb : b.enabled = false) :
    ∃ t', swapEntries t i (i + 1) = Except.ok t' ∧ ChainOk t' ∧
      t'.mathOps.length = t.mathOps.length ∧
      ∀ r, r ∈ chainRefs t' → r ∈ chainRefs t := by
  obtain ⟨rest, hops, hlast, hnd, hw⟩ := chainOk_inv t h
  obtain ⟨k, rfl⟩ : ∃ k, i = k + 1 := ⟨i - 1, by omega⟩
  have ha' : rest[k]? = some a := by
    rw [hops] at ha
    simpa using ha
  have hb' : rest[k + 1]? = some b := by
    rw [hops] at hb
    simpa using hb
  obtain ⟨hsplit, hset⟩ := split_two rest k a b ha' hb'
  unfold swapEntries
  rw [ha, hb]
  have hops2 : (t.mathOps.set (k + 1) b).set (k + 1 + 1) a
      = { math := MathRef.self, enabled := true } ::
        (rest.take k ++ b :: a :: rest.drop (k + 2)) := by
    rw [hops, List.set_cons_succ, List.set_cons_succ, hset]
  have hperm : (MathRef.self :: (rest.take k ++ b :: a :: rest.drop (k + 2)).map
      MathInfo.math).Perm (MathRef.self :: rest.map MathInfo.math) := by
    conv_rhs => rw [hsplit]
    apply List.Perm.cons
    simp only [List.map_append, List.map_cons]
    exact List.Perm.append_left _ (List.Perm.swap _ _ _)
  refine ⟨_, rfl, ?_, ?_, ?_⟩
  · apply chainOk_of _ _ hops2
    · show t.lastMath = _
      rw [hlast]
      conv_lhs => rw [hsplit]
      simp only [lastFrom_append, lastFrom_cons, hda, hdb, Bool.false_eq_true, if_false]
    · exact hperm.nodup_iff.mpr hnd
    · show wiredFrom (inputOf t) MathRef.self _ = true
      rw [hsplit] at hw
      simp only [wiredFrom_append, wiredFrom_cons, lastFrom_cons, hda, hdb,
        Bool.false_eq_true, if_false] at hw ⊢
      exact hw
  · show ((t.mathOps.set (k + 1) b).set (k + 1 + 1) a).length = _
    simp
  · intro r hr
    unfold chainRefs at hr ⊢
    rw [hops]
    have hr' : r ∈ List.map MathInfo.math ((t.mathOps.set (k + 1) b).set (k + 1 + 1) a) := hr
    rw [hops2] at hr'
    exact hperm.subset hr'

/-- Without wrap-around of `index + 1`, `swapMathOrder` keeps the chain in order. -/
theorem swapMathOrder_chainOk (t : Trace) (i : Nat) (h : ChainOk t)
    (hi : i + 1 < UINT_RANGE) :
    ∃ t', swapMathOrder t i = Except.ok t' ∧ ChainOk t' ∧
      ∀ r, r ∈ chainRefs t' → r ∈ chainRefs t := by
  unfold swapMathOrder
  have hnext : (i + 1) % UINT_RANGE = i + 1 := Nat.mod_eq_of_lt hi
  simp only [hnext]
  by_cases hg : i < 1 ∨ i + 1 ≥ t.mathOps.length
  · rw [if_pos hg]
    exact ⟨t, rfl, h, fun r hr => hr⟩
  · rw [if_neg hg]
    have h1 : 1 ≤ i := by omega
    have h2 : i + 1 < t.mathOps.length := by omega
    rw [List.getElem?_eq_getElem (by omega : i < t.mathOps.length)]
    dsimp only
    obtain ⟨t1, hok1, hc1, hrefs1, hops1⟩ := enableMathOperation_chainOk t i false h
    rw [if_pos h1] at hops1
    have hlen1 : t1.mathOps.length = t.mathOps.length := by rw [hops1, setEnabled_length]
    obtain ⟨t2, hok2, hc2, hrefs2, hops2⟩ := enableMathOperation_chainOk t1 (i + 1) false hc1
    rw [if_pos (by omega : 1 ≤ i + 1)] at hops2
    have hlen2 : t2.mathOps.length = t1.mathOps.length := by rw [hops2, setEnabled_length]
    have hi2 : i < t2.mathOps.length := by omega
    have hn2 : i + 1 < t2.mathOps.length := by omega
    have ha : t2.mathOps[i].enabled = false := by
      apply setEnabled_getElem?_self t.mathOps i false
      rw [← List.getElem?_eq_getElem hi2, hops2,
        setEnabled_getElem?_ne _ _ _ _ (by omega : i + 1 ≠ i), hops1]
    have hb : t2.mathOps[i + 1].enabled = false := by
      apply setEnabled_getElem?_self t1.mathOps (i + 1) false
      rw [← List.getElem?_eq_getElem hn2, hops2]
    obtain ⟨t3, hok3, hc3, hlen3, hrefs3⟩ := swapEntries_chainOk t2 i _ _ hc2 h1
      (List.getElem?_eq_getElem hi2) (List.getElem?_eq_getElem hn2) ha hb
    obtain ⟨t4, hok4, hc4, hrefs4, _⟩ :=
      enableMathOperation_chainOk t3 i t.mathOps[i].enabled hc3
    obtain ⟨t5, hok5, hc5, hrefs5, _⟩ :=
      enableMathOperation_chainOk t4 (i + 1) t.mathOps[i].enabled hc4
    refine ⟨t5, ?_, hc5, ?_⟩
    · rw [hok1]
      show (enableMathOperation t1 (i + 1) false >>= _) = _
      rw [hok2]
      show (swapEntries t2 i (i + 1) >>= _) = _
      rw [hok3]
      show (enableMathOperation _ i t.mathOps[i].enabled >>= _) = _
      rw [hok4]
      exact hok5
    · intro r hr
      rw [hrefs5, hrefs4] at hr
      have := hrefs3 r hr
      rw [hrefs2, hrefs1] at this
      exact this

/-! ### Sequences of calls -/

theorem chainOp_chainOk (t : Trace) (op : ChainOp) (h : ChainOk t)
    (hidx : op.noWrap = true) (hnode : op.isNodeOp = true) (hnd : op.added.Nodup)
    (hfresh : ∀ r ∈ op.added, r ∉ chainRefs t) :
    ∃ t', op.apply t = Except.ok t' ∧ ChainOk t' ∧
      ∀ r ∈ chainRefs t', r ∈ chainRefs t ∨ r ∈ op.added := by
  cases op with
  | addMathOperation m =>
    obtain ⟨t', hok, hc, hrefs⟩ := addMathOperation_chainOk t m h
      (hfresh m (List.mem_singleton.mpr rfl))
    refine ⟨t', hok, hc, ?_⟩
    intro r hr
    rw [hrefs] at hr
    exact List.mem_append.mp hr
  | addMathOperations maths =>
    obtain ⟨t', hok, hc, hrefs⟩ := addMathOperations_chainOk t maths h hnd hfresh
    refine ⟨t', hok, hc, ?_⟩
    intro r hr
    rw [hrefs] at hr
    exact List.mem_append.mp hr
  | removeMathOperation i =>
    obtain ⟨t', hok, hc, hsub⟩ := removeMathOperation_chainOk t i h
    exact ⟨t', hok, hc, fun r hr => Or.inl (hsub r hr)⟩
  | enableMathOperation i e =>
    obtain ⟨t', hok, hc, hrefs, _⟩ := enableMathOperation_chainOk t i e h
    exact ⟨t', hok, hc, fun r hr => Or.inl (hrefs ▸ hr)⟩
  | swapMathOrder i =>
    obtain ⟨t', hok, hc, hsub⟩ :=
      swapMathOrder_chainOk t i h (by simpa [ChainOp.noWrap] using hidx)
    exact ⟨t', hok, hc, fun r hr => Or.inl (hsub r hr)⟩
  | enableMath e => cases hnode

/-- From a chain in order, every sequence of node calls that adds every object once, and
none that is in the chain, runs to its end and leaves the chain in order. -/
theorem runChain_chainOk (ops : List ChainOp) :
    ∀ t : Trace, ChainOk t → (∀ op ∈ ops, op.noWrap = true) →
      (∀ op ∈ ops, op.isNodeOp = true) → (addedRefs ops).Nodup →
      (∀ r ∈ addedRefs ops, r ∉ chainRefs t) →
      ∃ t', runChain t ops = Except.ok t' ∧ ChainOk t' := by
  induction ops with
  | nil => intro t h _ _ _ _; exact ⟨t, rfl, h⟩
  | cons op rest ih =>
    intro t h hidx hnode hnd hfresh
    have hadd : addedRefs (op :: rest) = op.added ++ addedRefs rest := by
      simp [addedRefs]
    rw [hadd] at hnd hfresh
    rw [List.nodup_append] at hnd
    obtain ⟨hnd1, hnd2, hdisj⟩ := hnd
    obtain ⟨t1, hok1, hc1, hrefs1⟩ := chainOp_chainOk t op h
      (hidx op (List.mem_cons_self _ _)) (hnode op (List.mem_cons_self _ _)) hnd1
      (fun r hr => hfresh r (List.mem_append_left _ hr))
    obtain ⟨t', hok, hc'⟩ := ih t1 hc1
      (fun o ho => hidx o (List.mem_cons_of_mem _ ho))
      (fun o ho => hnode o (List.mem_cons_of_mem _ ho)) hnd2
      (by
        intro r hr hin
        rcases hrefs1 r hin with h1 | h1
        · exact hfresh r (List.mem_append_right _ hr) h1
        · exact hdisj h1 hr)
    refine ⟨t', ?_, hc'⟩
    unfold runChain
    rw [hok1]
    exact hok
/-! ## The claims on the wiring of the chain -/

/-- The node that `lastFrom` finds, by its index: the enabled node of greatest index
among the first `k + 1` nodes, the head node if there is none. -/
theorem lastFrom_spec (head : MathInfo) (rest : List MathInfo) :
    ∀ k, ∃ j mj, j ≤ k ∧ (head :: rest)[j]? = some mj ∧ (j = 0 ∨ mj.enabled = true) ∧
      mj.math = lastFrom head.math (rest.take k) ∧
      ∀ i mi, j < i → i ≤ k → (head :: rest)[i]? = some mi → mi.enabled = false := by
  intro k
  induction k with
  | zero =>
    refine ⟨0, head, le_refl _, by simp, Or.inl rfl, rfl, ?_⟩
    intro i mi h1 h2
    omega
  | succ k ih =>
    obtain ⟨j, mj, hjk, hj, hen, hmath, hbetween⟩ := ih
    rw [List.take_succ, lastFrom_append]
    cases hk : rest[k]? with
    | none =>
      refine ⟨j, mj, by omega, hj, hen, by simpa [lastFrom] using hmath, ?_⟩
      intro i mi h1 h2 hi
      by_cases hik : i = k + 1
      · subst hik
        rw [List.getElem?_cons_succ, hk] at hi
        cases hi
      · exact hbetween i mi h1 (by omega) hi
    | some m =>
      cases hm : m.enabled
      · refine ⟨j, mj, by omega, hj, hen, by simpa [lastFrom, hm] using hmath, ?_⟩
        intro i mi h1 h2 hi
        by_cases hik : i = k + 1
        · subst hik
          rw [List.getElem?_cons_succ, hk] at hi
          rw [← Option.some.inj hi]
          exact hm
        · exact hbetween i mi h1 (by omega) hi
      · refine ⟨k + 1, m, le_refl _, by rw [List.getElem?_cons_succ]; exact hk,
          Or.inr hm, by simp [lastFrom, hm], ?_⟩
        intro i mi h1 h2
        omega

/-- In a wired chain the input of an enabled node is the node that the scan towards
the front finds. -/
theorem wired_input (inp : MathRef → Option MathRef) (rest : List MathInfo) (k : Nat)
    (mk : MathInfo) (hw : wiredFrom inp MathRef.self rest = true) (hk : rest[k]? = some mk)
    (hen : mk.enabled = true) :
    inp mk.math = some (lastFrom MathRef.self (rest.take k)) := by
  obtain ⟨hsplit, _, _⟩ := split_at rest k mk hk
  rw [hsplit, wiredFrom_append, wiredFrom_cons, hen] at hw
  simp only [if_true, Bool.and_eq_true, beq_iff_eq] at hw
  exact hw.2.1

theorem new_chainOk (live : LiveParameter) (now : Nat) :
    ∃ t0, Trace.new live now = Except.ok t0 ∧ ChainOk t0 ∧ chainRefs t0 = [MathRef.self] := by
  refine ⟨_, rfl, ?_, rfl⟩
  exact chainOk_of _ [] rfl rfl (by simp) rfl

/-- C11: from a new trace every sequence of `addMathOperation`, `addMathOperations`,
`removeMathOperation`, `enableMathOperation` and `swapMathOrder` calls that hands over
every transform object once (and not the trace itself), the index of a swap below the
greatest `unsigned int`, runs to its end, and afterwards every enabled node `k` behind
the identity node has as its input the node `j` before it that is enabled with no
enabled node between the two; `j` is the identity node if no other enabled node lies
before `k`. -/
theorem enabled_node_reads_nearest_enabled_predecessor (live : LiveParameter) (now : Nat)
    (ops : List ChainOp) (hnode : ∀ op ∈ ops, op.isNodeOp = true)
    (hidx : ∀ op ∈ ops, op.noWrap = true) (honce : (addedRefs ops).Nodup)
    (hself : MathRef.self ∉ addedRefs ops) :
    ∃ t0 t, Trace.new live now = Except.ok t0 ∧ runChain t0 ops = Except.ok t ∧
      ∀ k mk, 1 ≤ k → t.mathOps[k]? = some mk → mk.enabled = true →
        ∃ j mj, j < k ∧ t.mathOps[j]? = some mj ∧ mj.enabled = true ∧
          (∀ i mi, j < i → i < k → t.mathOps[i]? = some mi → mi.enabled = false) ∧
          inputOf t mk.math = some mj.math ∧ (j = 0 → mj.math = MathRef.self) := by
  obtain ⟨t0, hnew, hc0, hrefs0⟩ := new_chainOk live now
  obtain ⟨t, hrun, hc⟩ := runChain_chainOk ops t0 hc0 hidx hnode honce
    (by
      intro r hr hin
      rw [hrefs0, List.mem_singleton] at hin
      rw [hin] at hr
      exact hself hr)
  refine ⟨t0, t, hnew, hrun, ?_⟩
  obtain ⟨rest, hops, _, _, hw⟩ := chainOk_inv t hc
  intro k mk h1 hk hen
  obtain ⟨k', rfl⟩ : ∃ k', k = k' + 1 := ⟨k - 1, by omega⟩
  have hk' : rest[k']? = some mk := by
    rw [hops] at hk
    simpa using hk
  have hin := wired_input (inputOf t) rest k' mk hw hk' hen
  obtain ⟨j, mj, hjk, hj, hjen, hmath, hbetween⟩ :=
    lastFrom_spec { math := MathRef.self, enabled := true } rest k'
  refine ⟨j, mj, by omega, by rw [hops]; exact hj, ?_, ?_, by rw [hin, hmath], ?_⟩
  · rcases hjen with h0 | h
    · subst h0
      simp only [List.getElem?_cons_zero, Option.some.injEq] at hj
      rw [← hj]
    · exact h
  · intro i mi h2 h3 hi
    rw [hops] at hi
    exact hbetween i mi h2 (by omega) hi
  · intro h0
    subst h0
    simp only [List.getElem?_cons_zero, Option.some.injEq] at hj
    rw [← hj]

theorem enabled_node_reads_nearest_enabled_predecessor_witness :
    ∃ t0 t, Trace.new LiveParameter.S21 7 = Except.ok t0 ∧
      runChain t0 [ChainOp.addMathOperation (MathRef.op 1),
        ChainOp.addMathOperations [MathRef.op 2, MathRef.op 3],
        ChainOp.enableMathOperation 2 false, ChainOp.swapMathOrder 1,
        ChainOp.removeMathOperation 2] = Except.ok t ∧
      ∀ k mk, 1 ≤ k → t.mathOps[k]? = some mk → mk.enabled = true →
        ∃ j mj, j < k ∧ t.mathOps[j]? = some mj ∧ mj.enabled = true ∧
          (∀ i mi, j < i → i < k → t.mathOps[i]? = some mi → mi.enabled = false) ∧
          inputOf t mk.math = some mj.math ∧ (j = 0 → mj.math = MathRef.self) :=
  enabled_node_reads_nearest_enabled_predecessor LiveParameter.S21 7
    [ChainOp.addMathOperation (MathRef.op 1),
      ChainOp.addMathOperations [MathRef.op 2, MathRef.op 3],
      ChainOp.enableMathOperation 2 false, ChainOp.swapMathOrder 1,
      ChainOp.removeMathOperation 2]
    (by decide) (by decide) (by decide) (by decide)
theorem setEnabled_twice (ops : List MathInfo) (i : Nat) (cur : MathInfo)
    (hcur : ops[i]? = some cur) (b e : Bool) (he : cur.enabled = e) :
    setEnabled (setEnabled ops i b) i e = ops := by
  have hi : i < ops.length := (List.getElem?_eq_some.mp hcur).1
  apply List.ext_getElem?
  intro j
  by_cases hj : i = j
  · subst hj
    unfold setEnabled
    rw [hcur]
    dsimp only
    rw [List.getElem?_set_self hi]
    dsimp only
    rw [List.getElem?_set_self (by simpa using hi), ← he]
  · rw [setEnabled_getElem?_ne _ _ _ _ hj, setEnabled_getElem?_ne _ _ _ _ hj]

/-- `enableMathOperation` leaves the input of every object that is not a node behind the
identity node as it is. -/
theorem enableMathOperation_frame (t t' : Trace) (i : Nat) (e : Bool) (h : ChainOk t)
    (hok : enableMathOperation t i e = Except.ok t') (r : MathRef)
    (hr : r ∉ t.mathOps.tail.map MathInfo.math) : inputOf t' r = inputOf t r := by
  by_cases hg : i < 1 ∨ i ≥ t.mathOps.length
  · unfold enableMathOperation at hok
    rw [if_pos hg] at hok
    cases hok
    rfl
  · have h2 : i < t.mathOps.length := by omega
    by_cases hen : t.mathOps[i].enabled = e
    · unfold enableMathOperation at hok
      rw [if_neg hg, List.getElem?_eq_getElem h2] at hok
      dsimp only at hok
      rw [if_neg (not_not.mpr hen)] at hok
      cases hok
      rfl
    · obtain ⟨rest, hops, _, _, _⟩ := chainOk_inv t h
      obtain ⟨k, rfl⟩ : ∃ k, i = k + 1 := ⟨i - 1, by omega⟩
      have hcur : rest[k]? = some t.mathOps[k + 1] := by
        have : t.mathOps[k + 1]? = some t.mathOps[k + 1] := List.getElem?_eq_getElem h2
        rw [← this, hops]
        simp
      obtain ⟨t2, hok2, _, _, _, hinp⟩ :=
        enableMathOperation_toggle t k e rest _ hops hcur hen
      rw [hok] at hok2
      cases hok2
      rw [hops] at hr
      simp only [List.tail_cons] at hr
      have hrc : ¬ r = (t.mathOps[k + 1]).math := by
        intro heq
        apply hr
        rw [heq]
        exact List.mem_map.mpr ⟨_, List.mem_iff_getElem?.mpr ⟨_, hcur⟩, rfl⟩
      have hrn : ¬ ((rest.drop (k + 1)).find? (fun it => it.enabled)).map MathInfo.math
          = some r := by
        intro heq
        cases hf : (rest.drop (k + 1)).find? (fun it => it.enabled) with
        | none => rw [hf] at heq; cases heq
        | some nxt =>
          rw [hf] at heq
          apply hr
          rw [← Option.some.inj heq]
          exact List.mem_map.mpr
            ⟨nxt, List.mem_of_mem_drop (find_enabled_mem _ nxt hf).1, rfl⟩
      rw [hinp]
      cases e <;> simp [hrc, hrn]

/-- C12, as the claim states it, fails: the chain identity, node 1 with node 1 enabled
and wired to the identity node, the transforms switched off by `enableMath(false)`. The
output node is the identity node before the round trip on node 1 and node 1 after it. -/
theorem round_trip_switches_math_on :
    chainOf (Except.ok mathOffChain)
      = some [⟨MathRef.self, true⟩, ⟨MathRef.op 1, true⟩] ∧
    Wired mathOffChain ∧
    inputOf mathOffChain (MathRef.op 1) = some MathRef.self ∧
    mathOffChain.lastMath = some MathRef.self ∧
    lastMathOf (runChain mathOffChain [ChainOp.enableMathOperation 1 false,
      ChainOp.enableMathOperation 1 true]) = some (MathRef.op 1) := by
  decide

/-- C12, amended: on a chain in order (identity node in front, no object twice, enabled
nodes wired) whose output node is in step with the chain, for an enabled node `i` behind
the identity node the calls `enableMathOperation(i, false)` and
`enableMathOperation(i, true)` return, and after both the chain with its enabled flags,
the output node and the input of every enabled node are as before; if `i` is the only
enabled node behind the identity node, the output node between the calls is the
identity node. -/
theorem disable_enable_round_trip (t : Trace) (i : Nat) (cur : MathInfo) (hc : ChainInv t)
    (hnd : (chainRefs t).Nodup) (hw : Wired t) (hs : Synced t) (h1 : 1 ≤ i)
    (hcur : t.mathOps[i]? = some cur) (hen : cur.enabled = true) :
    ∃ t1 t2, enableMathOperation t i false = Except.ok t1 ∧
      enableMathOperation t1 i true = Except.ok t2 ∧
      t2.mathOps = t.mathOps ∧ t2.lastMath = t.lastMath ∧
      (∀ (k : Nat) (mk : MathInfo), t.mathOps[k]? = some mk → mk.enabled = true →
        inputOf t2 mk.math = inputOf t mk.math) ∧
      ((∀ k mk, 1 ≤ k → k ≠ i → t.mathOps[k]? = some mk → mk.enabled = false) →
        t1.lastMath = some MathRef.self) := by
  have h : ChainOk t := ⟨hc, hs, hnd, hw⟩
  obtain ⟨t1, hok1, hc1, hrefs1, hops1⟩ := enableMathOperation_chainOk t i false h
  obtain ⟨t2, hok2, hc2, hrefs2, hops2⟩ := enableMathOperation_chainOk t1 i true hc1
  rw [if_pos h1] at hops1 hops2
  have hops : t2.mathOps = t.mathOps := by
    rw [hops2, hops1]
    exact setEnabled_twice t.mathOps i cur hcur false true hen
  refine ⟨t1, t2, hok1, hok2, hops, ?_, ?_, ?_⟩
  · have := hc2.2.1
    unfold Synced at this hs
    rw [this, hops, hs]
  · obtain ⟨rest, hrest, _, hnd0, hw0⟩ := chainOk_inv t h
    obtain ⟨rest2, hrest2, _, _, hw2⟩ := chainOk_inv t2 hc2
    have hrr : rest2 = rest := by
      rw [hops, hrest] at hrest2
      exact (List.cons.inj hrest2).2.symm
    subst hrr
    intro k mk hk hmk
    cases k with
    | zero =>
      rw [hrest] at hk
      simp only [List.getElem?_cons_zero, Option.some.injEq] at hk
      rw [← hk]
      have hself : MathRef.self ∉ t.mathOps.tail.map MathInfo.math := by
        rw [hrest]
        exact (List.nodup_cons.mp hnd0).1
      have hself1 : MathRef.self ∉ t1.mathOps.tail.map MathInfo.math := by
        have e1 : chainRefs t1 = chainRefs t := hrefs1
        unfold chainRefs at e1
        rw [List.map_tail, e1, ← List.map_tail]
        exact hself
      rw [enableMathOperation_frame t1 t2 i true hc1 hok2 _ hself1,
        enableMathOperation_frame t t1 i false h hok1 _ hself]
    | succ k =>
      have hk' : rest2[k]? = some mk := by
        rw [hrest] at hk
        simpa using hk
      rw [wired_input (inputOf t2) rest2 k mk hw2 hk' hmk,
        wired_input (inputOf t) rest2 k mk hw0 hk' hmk]
  · intro honly
    obtain ⟨rest1, hrest1, hlast1, _, _⟩ := chainOk_inv t1 hc1
    rw [hlast1, lastFrom_disabled]
    intro m hm
    obtain ⟨k, hk⟩ := List.getElem?_of_mem hm
    have hk1 : t1.mathOps[k + 1]? = some m := by
      rw [hrest1]
      simpa using hk
    by_cases hki : k + 1 = i
    · apply setEnabled_getElem?_self t.mathOps i false
      rw [← hops1, ← hki]
      exact hk1
    · rw [hops1, setEnabled_getElem?_ne _ _ _ _ (fun e => hki e.symm)] at hk1
      exact honly (k + 1) m (by omega) hki hk1

theorem disable_enable_round_trip_witness :
    ∃ t1 t2, enableMathOperation oneNodeChain 1 false = Except.ok t1 ∧
      enableMathOperation t1 1 true = Except.ok t2 ∧
      t2.mathOps = oneNodeChain.mathOps ∧ t2.lastMath = oneNodeChain.lastMath ∧
      (∀ (k : Nat) (mk : MathInfo), oneNodeChain.mathOps[k]? = some mk → mk.enabled = true →
        inputOf t2 mk.math = inputOf oneNodeChain mk.math) ∧
      t1.lastMath = some MathRef.self := by
  obtain ⟨t1, t2, h1, h2, hops, hlast, hinp, honly⟩ :=
    disable_enable_round_trip oneNodeChain 1 ⟨MathRef.op 1, true⟩ ⟨_, rfl⟩ (by decide)
      (by decide) (by decide) (by decide) (by decide) rfl
  refine ⟨t1, t2, h1, h2, hops, hlast, hinp, honly ?_⟩
  intro k mk hk1 hk2 hk
  have hlen : k < oneNodeChain.mathOps.length := (List.getElem?_eq_some.mp hk).1
  have : oneNodeChain.mathOps.length = 2 := by decide
  omega
/-! ## The evaluation pass in detail -/

theorem faultOf_ok {α : Type} (a : α) : faultOf (Except.ok a : Except Fault α) = none := rfl

/-- The error-fill loop returns exactly when every cell it visits is a cell of the
store. -/
theorem fillLoop_returns_iff :
    ∀ n i data, faultOf (fillLoop n i data) = none ↔ (n = 0 ∨ i + n ≤ data.length) := by
  intro n
  induction n with
  | zero => intro i data; simp [fillLoop, faultOf]
  | succ n ih =>
    intro i data
    unfold fillLoop
    by_cases hi : i < data.length
    · rw [List.getElem?_eq_getElem hi]
      dsimp only
      rw [ih, List.length_set]
      constructor
      · rintro (h | h)
        · right; omega
        · right; omega
      · rintro (h | h)
        · omega
        · by_cases hn : n = 0
          · left; exact hn
          · right; omega
    · rw [List.getElem?_eq_none (by omega)]
      simp only [faultOf]
      constructor
      · intro h; cases h
      · rintro (h | h) <;> omega

/-- The evaluation loop on a range of cells on which the parser returns a value: every
cell of the range gets the value of the expression under the bindings of its
coordinate, every other cell stays. -/
theorem evalLoop_values (P : ParserX) (env : Nat → SourceView) (t : Trace) :
    ∀ n i data, i + n ≤ data.length →
      (∀ (j : Nat) (cell : Data), i ≤ j → j < i + n → data[j]? = some cell →
        (P.eval t.mathFormula (bindingsAt env t cell.x)).isSome = true) →
      ∃ data', evalLoop P env t n i data = Except.ok (data', false) ∧
        data'.length = data.length ∧
        (∀ (j : Nat) (cell : Data), i ≤ j → j < i + n → data[j]? = some cell →
          ∃ v, P.eval t.mathFormula (bindingsAt env t cell.x) = some v ∧
            data'[j]? = some { cell with y := v }) ∧
        (∀ j : Nat, (j < i ∨ i + n ≤ j) → data'[j]? = data[j]?) := by
  intro n
  induction n with
  | zero =>
    intro i data _ _
    refine ⟨data, rfl, rfl, ?_, fun _ _ => rfl⟩
    intro j cell h1 h2
    omega
  | succ n ih =>
    intro i data hlen hev
    have hi : i < data.length := by omega
    have hcell := hev i data[i] (le_refl _) (by omega) (List.getElem?_eq_getElem hi)
    obtain ⟨res, hres⟩ := Option.isSome_iff_exists.mp hcell
    unfold evalLoop
    rw [List.getElem?_eq_getElem hi]
    dsimp only
    have hres' : P.eval t.mathFormula (("x", Cplx.ofReal data[i].x) ::
        t.mathSourceTraces.map (fun p => (p.2, (env p.1).interpolated data[i].x)))
        = some res := hres
    rw [hres']
    dsimp only
    obtain ⟨data', hok, hlen', hin, hout⟩ := ih (i + 1) (data.set i { data[i] with y := res })
      (by rw [List.length_set]; omega)
      (by
        intro j cell h1 h2 hj
        rw [List.getElem?_set_ne (by omega)] at hj
        exact hev j cell (by omega) (by omega) hj)
    refine ⟨data', hok, by rw [hlen', List.length_set], ?_, ?_⟩
    · intro j cell h1 h2 hj
      by_cases hji : j = i
      · subst hji
        rw [List.getElem?_eq_getElem hi] at hj
        have hc : data[j] = cell := Option.some.inj hj
        subst hc
        refine ⟨res, hres, ?_⟩
        rw [hout j (Or.inl (by omega)), List.getElem?_set_self hi]
      · exact hin j cell (by omega) (by omega)
          (by rw [List.getElem?_set_ne (fun e => hji e.symm)]; exact hj)
    · intro j hj
      rw [hout j (by omega), List.getElem?_set_ne (by omega)]

/-- Shape of the result of the pass on a range within the store: the pass returns, it
changes the store (not its coordinates), sets the status and logs one signal. -/
theorem evaluatePass_shape (P : ParserX) (env : Nat → SourceView) (t : Trace)
    (h : t.mathUpdateBegin + (t.mathUpdateEnd - t.mathUpdateBegin) ≤ t.data.length) :
    ∃ data1, evaluatePass P env t = Except.ok
        (({ t with data := data1, status := Status.Ok }).emit
          (Signal.outputSamplesChanged t.mathUpdateBegin (t.mathUpdateEnd + 1))) ∧
      coords data1 = coords t.data := by
  unfold evaluatePass
  have htried : ∃ r, (if P.define t.mathFormula (t.mathSourceTraces.map Prod.snd) = true then
        evalLoop P env t (t.mathUpdateEnd - t.mathUpdateBegin) t.mathUpdateBegin t.data
      else Except.ok (t.data, true)) = Except.ok r ∧ coords r.1 = coords t.data := by
    split
    · exact evalLoop_ok P env t _ _ _ h
    · exact ⟨_, rfl, rfl⟩
  obtain ⟨r, hok, hco⟩ := htried
  dsimp only
  rw [hok]
  show ∃ data1, ((if r.2 = true then fillLoop (t.mathUpdateEnd - t.mathUpdateBegin)
      t.mathUpdateBegin r.1 else Except.ok r.1) >>= _) = Except.ok _ ∧ _
  have hlen : r.1.length = t.data.length := by
    have := congrArg List.length hco
    simpa [coords] using this
  have hfill : ∃ data1, (if r.2 = true then fillLoop (t.mathUpdateEnd - t.mathUpdateBegin)
      t.mathUpdateBegin r.1 else Except.ok r.1) = Except.ok data1 ∧
      coords data1 = coords r.1 := by
    split
    · exact fillLoop_ok _ _ _ (by rw [hlen]; exact h)
    · exact ⟨_, rfl, rfl⟩
  obtain ⟨data1, hok1, hco1⟩ := hfill
  rw [hok1]
  exact ⟨data1, rfl, by rw [hco1, hco]⟩

theorem inLimits_range (t : Trace) (h : InLimits t) :
    t.mathUpdateBegin + (t.mathUpdateEnd - t.mathUpdateBegin) ≤ t.data.length := by
  obtain ⟨h1, h2⟩ := h
  omega

/-- `calculateMath` on an unpaused trace with a formula and a pending range within the
store: the pass runs on the trace with the time noted, then the pending range is reset. -/
theorem calculateMath_unpaused (P : ParserX) (env : Nat → SourceView) (now : Nat) (t : Trace)
    (hp : t.paused = false) (hf : t.mathFormula.isEmpty = false) (hl : InLimits t) :
    ∃ t1, evaluatePass P env { t with lastMathUpdate := now } = Except.ok t1 ∧
      calculateMath P env now t = Except.ok
        { t1 with mathUpdateBegin := t1.data.length, mathUpdateEnd := 0 } := by
  obtain ⟨t', hok, _⟩ := calculateMath_coords P env now t
  have h := hok
  obtain ⟨hl1, hl2⟩ := hl
  unfold calculateMath at h
  dsimp only at h
  split at h
  · rename_i hc
    omega
  · split at h
    · rename_i hc
      rw [hf] at hc
      cases hc
    · obtain ⟨t1, h1, h2⟩ := bind_ok_inv _ _ _ h
      split at h1
      · cases h2
        exact ⟨t1, h1, hok⟩
      · rename_i hc
        rw [hp] at hc
        exact absurd rfl hc
/-! ## The claims on the evaluation pass -/

/-- C21: on an unpaused trace with a non-empty formula and a pending range `[b, e)`
within the store, `calculateMath` returns, logs exactly one signal, and afterwards the
pending range is the empty range `[size, 0)`. The signal is
`outputSamplesChanged(b, e + 1)`: its end lies one cell behind the evaluated range. -/
theorem calculateMath_notifies_one_cell_further (P : ParserX) (env : Nat → SourceView)
    (now : Nat) (t : Trace) (hp : t.paused = false) (hf : t.mathFormula.isEmpty = false)
    (hl : InLimits t) :
    ∃ t', calculateMath P env now t = Except.ok t' ∧
      t'.signals = t.signals ++
        [Signal.outputSamplesChanged t.mathUpdateBegin (t.mathUpdateEnd + 1)] ∧
      t'.data.length = t.data.length ∧
      t'.mathUpdateBegin = t'.data.length ∧ t'.mathUpdateEnd = 0 := by
  obtain ⟨t1, hpass, hok⟩ := calculateMath_unpaused P env now t hp hf hl
  obtain ⟨data1, hshape, hco⟩ := evaluatePass_shape P env { t with lastMathUpdate := now }
    (inLimits_range t hl)
  rw [hpass] at hshape
  have ht1 := Except.ok.inj hshape
  refine ⟨_, hok, ?_, ?_, rfl, rfl⟩
  · show t1.signals = _
    rw [ht1]
    rfl
  · show t1.data.length = _
    rw [ht1]
    have := congrArg List.length hco
    simpa [coords] using this

theorem calculateMath_notifies_one_cell_further_witness :
    ∃ t', calculateMath firstSourceParser sourceSweepA 100 pendingFormulaTrace = Except.ok t' ∧
      t'.signals = pendingFormulaTrace.signals ++ [Signal.outputSamplesChanged 0 (2 + 1)] ∧
      t'.data.length = pendingFormulaTrace.data.length ∧
      t'.mathUpdateBegin = t'.data.length ∧ t'.mathUpdateEnd = 0 :=
  calculateMath_notifies_one_cell_further firstSourceParser sourceSweepA 100
    pendingFormulaTrace (by decide) (by decide) (by decide)

/-- C22, as the claim states it, fails: an unpaused formula trace with an empty formula
and the two pending cells `[0, 2)` has the error status after `calculateMath`, but its
cells hold the values 2 and i that they held before, not the sentinel value. -/
theorem empty_formula_leaves_cells :
    emptyFormulaTrace.paused = false ∧ emptyFormulaTrace.mathFormula.isEmpty = true ∧
    pendingOf (Except.ok emptyFormulaTrace) = some (0, 2) ∧
    dataOf (Except.ok emptyFormulaTrace) = some [⟨1, ⟨2, 0⟩⟩, ⟨3, ⟨0, 1⟩⟩] ∧
    dataOf (calculateMath firstSourceParser sourceSweepA 100 emptyFormulaTrace)
      = some [⟨1, ⟨2, 0⟩⟩, ⟨3, ⟨0, 1⟩⟩] ∧
    complexQuietNaN = ⟨0, 0⟩ ∧
    pendingOf (calculateMath firstSourceParser sourceSweepA 100 emptyFormulaTrace)
      = some (0, 2) := by
  decide!

/-- C22, amended: on a trace with an empty formula and a pending range within the store,
paused or not, `calculateMath` returns the trace with the time of the call noted and the
status set to the error "Expression is empty"; nothing else changes: every cell keeps
its value, the pending range stays, no signal is logged. -/
theorem empty_formula_raises_error_only (P : ParserX) (env : Nat → SourceView) (now : Nat)
    (t : Trace) (hf : t.mathFormula.isEmpty = true) (hl : InLimits t) :
    calculateMath P env now t = Except.ok
      { t with lastMathUpdate := now, status := Status.Error "Expression is empty" } := by
  obtain ⟨h1, h2⟩ := hl
  unfold calculateMath
  dsimp only
  rw [if_neg (by omega), hf]
  rfl

theorem empty_formula_raises_error_only_witness :
    calculateMath firstSourceParser sourceSweepA 100 emptyFormulaTrace = Except.ok
      { emptyFormulaTrace with lastMathUpdate := 100,
                               status := Status.Error "Expression is empty" } :=
  empty_formula_raises_error_only firstSourceParser sourceSweepA 100 emptyFormulaTrace
    (by decide) (by decide)

/-- C23: on an unpaused trace with a formula that the parser accepts and evaluates on
every cell of the pending range `[b, e)`, which lies within the store, `calculateMath`
returns; every cell of the range then holds the value of the expression with `x` bound
to the coordinate of the cell and every source variable bound to the interpolated value
of its source at that coordinate; the coordinates of all cells and the cells outside the
range are unchanged. -/
theorem evaluation_pass_values (P : ParserX) (env : Nat → SourceView) (now : Nat) (t : Trace)
    (hp : t.paused = false) (hf : t.mathFormula.isEmpty = false) (hl : InLimits t)
    (hdef : P.define t.mathFormula (t.mathSourceTraces.map Prod.snd) = true)
    (hev : ∀ (i : Nat) (cell : Data), t.mathUpdateBegin ≤ i → i < t.mathUpdateEnd →
      t.data[i]? = some cell →
      (P.eval t.mathFormula (bindingsAt env t cell.x)).isSome = true) :
    ∃ t', calculateMath P env now t = Except.ok t' ∧
      coords t'.data = coords t.data ∧
      (∀ (i : Nat) (cell : Data), t.mathUpdateBegin ≤ i → i < t.mathUpdateEnd →
        t.data[i]? = some cell →
        ∃ v, P.eval t.mathFormula (bindingsAt env t cell.x) = some v ∧
          t'.data[i]? = some { cell with y := v }) ∧
      (∀ i : Nat, (i < t.mathUpdateBegin ∨ t.mathUpdateEnd ≤ i) →
        t'.data[i]? = t.data[i]?) := by
  obtain ⟨t1, hpass, hok⟩ := calculateMath_unpaused P env now t hp hf hl
  have hrange := inLimits_range t hl
  obtain ⟨data', hloop, _, hin, hout⟩ := evalLoop_values P env { t with lastMathUpdate := now }
    (t.mathUpdateEnd - t.mathUpdateBegin) t.mathUpdateBegin t.data hrange
    (by
      intro j cell h1 h2 hj
      exact hev j cell h1 (by omega) hj)
  have ht1 : t1.data = data' := by
    unfold evaluatePass at hpass
    dsimp only at hpass
    rw [if_pos hdef] at hpass
    rw [hloop] at hpass
    cases hpass
    rfl
  refine ⟨_, hok, ?_, ?_, ?_⟩
  · show coords t1.data = _
    obtain ⟨d1, hshape, hco⟩ := evaluatePass_shape P env { t with lastMathUpdate := now } hrange
    rw [hpass] at hshape
    rw [Except.ok.inj hshape]
    exact hco
  · intro i cell h1 h2 hi
    show ∃ v, _ ∧ t1.data[i]? = _
    rw [ht1]
    exact hin i cell h1 (by omega) hi
  · intro i hi
    show t1.data[i]? = _
    rw [ht1]
    exact hout i (by omega)

theorem evaluation_pass_values_witness :
    dataOf (Except.ok productPending) = some [⟨1, ⟨0, 0⟩⟩, ⟨2, ⟨0, 0⟩⟩, ⟨3, ⟨0, 0⟩⟩] ∧
    dataOf (calculateMath productParser rampSources 100 productPending)
      = some [⟨1, ⟨4, 0⟩⟩, ⟨2, ⟨10, 0⟩⟩, ⟨3, ⟨18, 0⟩⟩] ∧
    ∃ t', calculateMath productParser rampSources 100 productPending = Except.ok t' ∧
      coords t'.data = coords productPending.data ∧
      (∀ (i : Nat) (cell : Data), productPending.mathUpdateBegin ≤ i →
        i < productPending.mathUpdateEnd → productPending.data[i]? = some cell →
        ∃ v, productParser.eval productPending.mathFormula
            (bindingsAt rampSources productPending cell.x) = some v ∧
          t'.data[i]? = some { cell with y := v }) ∧
      (∀ i : Nat, (i < productPending.mathUpdateBegin ∨ productPending.mathUpdateEnd ≤ i) →
        t'.data[i]? = productPending.data[i]?) :=
  ⟨by decide!, by decide!,
    evaluation_pass_values productParser rampSources 100 productPending (by decide!)
      (by decide!) (by decide!) rfl (fun _ _ _ _ _ => rfl)⟩

/-- C29: whenever the limit check of `calculateMath` lets the pass through
(`mathUpdateBegin < data.size()` and `mathUpdateEnd <= data.size()`), the call returns:
no cell outside the store is read or written, which the embedding would report as a
fault, and the store keeps its size. Whenever the check fails, the call returns the
trace with the time of the call noted and nothing else changed, the store included. The
error-fill loop on its own returns exactly when all cells of its range are cells of the
store. -/
theorem calculateMath_stays_in_bounds (P : ParserX) (env : Nat → SourceView) (now : Nat)
    (t : Trace) :
    (InLimits t → ∃ t', calculateMath P env now t = Except.ok t' ∧
      t'.data.length = t.data.length) ∧
    (¬ InLimits t → calculateMath P env now t = Except.ok { t with lastMathUpdate := now }) ∧
    (∀ (n i : Nat) (data : List Data),
      faultOf (fillLoop n i data) = none ↔ (n = 0 ∨ i + n ≤ data.length)) := by
  refine ⟨?_, ?_, fillLoop_returns_iff⟩
  · intro _
    obtain ⟨t', hok, hco⟩ := calculateMath_coords P env now t
    refine ⟨t', hok, ?_⟩
    have := congrArg List.length hco
    simpa [coords] using this
  · intro hl
    unfold InLimits at hl
    unfold calculateMath
    dsimp only
    rw [if_pos (by omega)]

theorem calculateMath_stays_in_bounds_witness :
    (∃ t', calculateMath firstSourceParser sourceSweepA 100 pendingFormulaTrace = Except.ok t' ∧
      t'.data.length = pendingFormulaTrace.data.length) ∧
    calculateMath firstSourceParser sourceSweepA 100 overrunTrace
      = Except.ok { overrunTrace with lastMathUpdate := 100 } ∧
    faultOf (fillLoop 3 0 overrunTrace.data) = some Fault.outOfRange :=
  have h := calculateMath_stays_in_bounds firstSourceParser sourceSweepA 100
  ⟨(h pendingFormulaTrace).1 (by decide), (h overrunTrace).2.1 (by decide), by decide!⟩
/-! ## The evaluation grid -/

theorem foldl_set_range (f : Nat → Data) :
    ∀ (n s : Nat) (l : List Data) (j : Nat), s + n ≤ l.length →
      ((List.range' s n).foldl (fun data i => data.set i (f i)) l)[j]?
        = if s ≤ j ∧ j < s + n then some (f j) else l[j]? := by
  intro n
  induction n with
  | zero =>
    intro s l j _
    have : ¬ (s ≤ j ∧ j < s) := by omega
    simp [this]
  | succ n ih =>
    intro s l j h
    rw [List.range'_succ, List.foldl_cons, ih (s + 1) (l.set s (f s)) j
      (by rw [List.length_set]; omega)]
    by_cases hj : j = s
    · subst hj
      have h1 : ¬ (j + 1 ≤ j ∧ j < j + 1 + n) := by omega
      have h2 : j ≤ j ∧ j < j + (n + 1) := by omega
      rw [if_neg h1, if_pos h2, List.getElem?_set_self (by omega)]
    · by_cases hin : s + 1 ≤ j ∧ j < s + 1 + n
      · have h2 : s ≤ j ∧ j < s + (n + 1) := by omega
        rw [if_pos hin, if_pos h2]
      · have h2 : ¬ (s ≤ j ∧ j < s + (n + 1)) := by omega
        rw [if_neg hin, if_neg h2, List.getElem?_set_ne (fun e => hj e.symm)]

theorem foldl_set_length (f : Nat → Data) :
    ∀ (idx : List Nat) (l : List Data),
      (idx.foldl (fun data i => data.set i (f i)) l).length = l.length := by
  intro idx
  induction idx with
  | nil => intro l; rfl
  | cons i rest ih =>
    intro l
    rw [List.foldl_cons, ih, List.length_set]

theorem resize_length (data : List Data) (n : Nat) : (resize data n).length = n := by
  unfold resize
  simp only [List.length_append, List.length_take, List.length_replicate]
  omega

theorem resize_getElem?_old (data : List Data) (n i : Nat) (h1 : i < data.length)
    (h2 : i < n) : (resize data n)[i]? = data[i]? := by
  unfold resize
  rw [List.getElem?_append_left (by rw [List.length_take]; omega), List.getElem?_take, if_pos h2]

theorem ite_ok_data {c : Prop} [Decidable c] (a b : Trace) (d : List Data) (ha : a.data = d)
    (hb : b.data = d) :
    ∃ u, (if c then Except.ok a else (Except.ok b : Except Fault Trace)) = Except.ok u ∧
      u.data = d := by
  split
  · exact ⟨_, rfl, ha⟩
  · exact ⟨_, rfl, hb⟩

/-- C24: what `updateMathTracePoints` does to the store of a trace with at least one
source when the grid of the sources can be computed (step not zero, sample count a value
of `unsigned int`): the store gets the sample count of the grid, a cell behind the old
store gets its grid coordinate `start + i * step` and the sentinel value, and a cell of
the old store is kept as it is, with the coordinate that it had before the call. -/
theorem grid_update_keeps_old_cells (env : Nat → SourceView) (t : Trace)
    (hsrc : t.mathSourceTraces ≠ []) (hstep : (mathGrid env t).stepSize ≠ 0)
    (h0 : 0 ≤ gridSamples (mathGrid env t))
    (h1 : gridSamples (mathGrid env t) < (UINT_RANGE : Int)) :
    ∃ u, updateMathTracePoints env t = Except.ok u ∧
      u.data.length = (gridSamples (mathGrid env t)).toNat ∧
      (∀ i : Nat, t.data.length ≤ i → i < (gridSamples (mathGrid env t)).toNat →
        u.data[i]? = some { x := (mathGrid env t).startX + (i : ℚ) * (mathGrid env t).stepSize,
                            y := complexQuietNaN }) ∧
      (∀ i : Nat, i < t.data.length → i < (gridSamples (mathGrid env t)).toNat →
        u.data[i]? = t.data[i]?) := by
  have hlen : ¬ t.mathSourceTraces.length = 0 := by
    intro h
    exact hsrc (List.length_eq_zero.mp h)
  have key : ∃ data1, (∃ u, updateMathTracePoints env t = Except.ok u ∧
      u.data = data1) ∧
      data1 = (if (gridSamples (mathGrid env t)).toNat ≠ t.data.length then
        (if t.data.length < (gridSamples (mathGrid env t)).toNat then
          (List.range' t.data.length
            ((gridSamples (mathGrid env t)).toNat - t.data.length)).foldl
            (fun data i => data.set i
              { x := (mathGrid env t).startX + (i : ℚ) * (mathGrid env t).stepSize,
                y := complexQuietNaN })
            (resize t.data (gridSamples (mathGrid env t)).toNat)
        else resize t.data (gridSamples (mathGrid env t)).toNat)
      else t.data) := by
    refine ⟨_, ?_, rfl⟩
    unfold updateMathTracePoints
    rw [if_neg hlen]
    dsimp only
    have hstep' := hstep
    have h0' := h0
    have h1' := h1
    unfold mathGrid at hstep'
    unfold gridSamples mathGrid at h0' h1'
    rw [if_neg hstep', if_neg (by omega)]
    exact ite_ok_data _ _ _ rfl rfl
  obtain ⟨data1, hu, hdata⟩ := key
  obtain ⟨u, hok, hud⟩ := hu
  refine ⟨u, hok, ?_, ?_, ?_⟩
  · rw [hud, hdata]
    split
    · split
      · rw [foldl_set_length, resize_length]
      · exact resize_length _ _
    · rename_i h
      exact (not_not.mp h).symm
  · intro i hi1 hi2
    rw [hud, hdata, if_pos (by omega), if_pos (by omega)]
    rw [foldl_set_range _ _ _ _ i (by rw [resize_length]; omega), if_pos (by omega)]
  · intro i hi1 hi2
    rw [hud, hdata]
    split
    · split
      · rw [foldl_set_range _ _ _ _ i (by rw [resize_length]; omega), if_neg (by omega)]
        exact resize_getElem?_old _ _ _ hi1 hi2
      · exact resize_getElem?_old _ _ _ hi1 hi2
    · rfl

theorem grid_update_keeps_old_cells_witness :
    coords gridTraceA.data = [5, 6] ∧
    mathGrid sourceSweepB gridTraceA = { startX := 0, stopX := 2, stepSize := 1 } ∧
    coordsOf (updateMathTracePoints sourceSweepB gridTraceA) = some [5, 6, 2] ∧
    mathGrid sourceSweepC gridTraceA = { startX := 7, stopX := 8, stepSize := 1 } ∧
    coordsOf (updateMathTracePoints sourceSweepC gridTraceA) = some [5, 6] ∧
    ∃ u, updateMathTracePoints sourceSweepB gridTraceA = Except.ok u ∧
      u.data.length = (gridSamples (mathGrid sourceSweepB gridTraceA)).toNat ∧
      (∀ i : Nat, gridTraceA.data.length ≤ i →
        i < (gridSamples (mathGrid sourceSweepB gridTraceA)).toNat →
        u.data[i]? = some
          { x := (mathGrid sourceSweepB gridTraceA).startX
              + (i : ℚ) * (mathGrid sourceSweepB gridTraceA).stepSize,
            y := complexQuietNaN }) ∧
      (∀ i : Nat, i < gridTraceA.data.length →
        i < (gridSamples (mathGrid sourceSweepB gridTraceA)).toNat →
        u.data[i]? = gridTraceA.data[i]?) :=
  ⟨by decide!, by decide!, by decide!, by decide!, by decide!,
    grid_update_keeps_old_cells sourceSweepB gridTraceA (by decide!) (by decide!)
      (by decide!) (by decide!)⟩
/-! ## The claims on the debounce and on the index of a coordinate -/

/-- C25, as the claim states it, fails: 30 ms after the last evaluation and with a
minimum interval of 100 ms, `scheduleMathCalculation` arms the timer with 100 ms, not
with the remaining 70 ms. -/
theorem timer_armed_with_full_interval :
    formulaTrace.source = Source.Math ∧
    msecsTo formulaTrace.lastMathUpdate 30 = 30 ∧
    timerOf (scheduleMathCalculation firstSourceParser sourceSweepA 100 30 formulaTrace 0 0)
      = some (some 100) ∧
    (100 : Int) - msecsTo formulaTrace.lastMathUpdate 30 = 70 := by
  decide

theorem noteRange_eq (t : Trace) (b e : Nat) :
    (if e > (if b < t.mathUpdateBegin then { t with mathUpdateBegin := b } else t).mathUpdateEnd
      then { (if b < t.mathUpdateBegin then { t with mathUpdateBegin := b } else t) with
        mathUpdateEnd := e }
      else (if b < t.mathUpdateBegin then { t with mathUpdateBegin := b } else t))
    = { t with mathUpdateBegin := min b t.mathUpdateBegin,
               mathUpdateEnd := max e t.mathUpdateEnd } := by
  by_cases h1 : b < t.mathUpdateBegin
  · by_cases h2 : e > t.mathUpdateEnd
    · rw [if_pos h1, if_pos h2, Nat.min_eq_left (le_of_lt h1), Nat.max_eq_left (le_of_lt h2)]
    · rw [if_pos h1, if_neg h2, Nat.min_eq_left (le_of_lt h1),
        Nat.max_eq_right (not_lt.mp h2)]
  · by_cases h2 : e > t.mathUpdateEnd
    · rw [if_neg h1, if_pos h2, Nat.min_eq_right (not_lt.mp h1),
        Nat.max_eq_left (le_of_lt h2)]
    · rw [if_neg h1, if_neg h2, Nat.min_eq_right (not_lt.mp h1),
        Nat.max_eq_right (not_lt.mp h2)]

/-- C25, amended: on a trace whose source is not `Math`, `scheduleMathCalculation(b, e)`
changes nothing. On a math trace the pending range is widened to hold `[b, e)`; if the
time since the last evaluation is at least `MinMathUpdateInterval`, the evaluation pass
`calculateMath` runs within the call; otherwise no pass runs (store, signals and time of
the last evaluation stay) and the timer is armed with the full `MinMathUpdateInterval`. -/
theorem debounce_effect (P : ParserX) (env : Nat → SourceView) (minInterval : Int)
    (now : Nat) (t : Trace) (b e : Nat) :
    (t.source ≠ Source.Math →
      scheduleMathCalculation P env minInterval now t b e = Except.ok t) ∧
    (t.source = Source.Math → msecsTo t.lastMathUpdate now ≥ minInterval →
      scheduleMathCalculation P env minInterval now t b e
        = calculateMath P env now
          { t with mathUpdateBegin := min b t.mathUpdateBegin,
                   mathUpdateEnd := max e t.mathUpdateEnd }) ∧
    (t.source = Source.Math → msecsTo t.lastMathUpdate now < minInterval →
      scheduleMathCalculation P env minInterval now t b e
        = Except.ok
          { t with mathUpdateBegin := min b t.mathUpdateBegin,
                   mathUpdateEnd := max e t.mathUpdateEnd,
                   mathCalcTimer := some minInterval }) := by
  refine ⟨?_, ?_, ?_⟩
  · intro hs
    unfold scheduleMathCalculation
    rw [if_pos hs]
  · intro hs hd
    unfold scheduleMathCalculation
    rw [if_neg (not_not.mpr hs)]
    dsimp only
    rw [noteRange_eq]
    rw [if_pos hd]
  · intro hs hd
    unfold scheduleMathCalculation
    rw [if_neg (not_not.mpr hs)]
    dsimp only
    rw [noteRange_eq]
    rw [if_neg (not_le.mpr hd)]

theorem debounce_effect_witness :
    scheduleMathCalculation firstSourceParser sourceSweepA 100 30 freshTrace 0 2
      = Except.ok freshTrace ∧
    scheduleMathCalculation firstSourceParser sourceSweepA 100 130 pendingFormulaTrace 0 2
      = calculateMath firstSourceParser sourceSweepA 130
        { pendingFormulaTrace with
          mathUpdateBegin := min 0 pendingFormulaTrace.mathUpdateBegin,
          mathUpdateEnd := max 2 pendingFormulaTrace.mathUpdateEnd } ∧
    scheduleMathCalculation firstSourceParser sourceSweepA 100 30 pendingFormulaTrace 0 2
      = Except.ok
        { pendingFormulaTrace with
          mathUpdateBegin := min 0 pendingFormulaTrace.mathUpdateBegin,
          mathUpdateEnd := max 2 pendingFormulaTrace.mathUpdateEnd,
          mathCalcTimer := some 100 } :=
  ⟨(debounce_effect firstSourceParser sourceSweepA 100 30 freshTrace 0 2).1 (by decide),
    (debounce_effect firstSourceParser sourceSweepA 100 130 pendingFormulaTrace 0 2).2.1
      (by decide) (by decide),
    (debounce_effect firstSourceParser sourceSweepA 100 30 pendingFormulaTrace 0 2).2.2
      (by decide) (by decide)⟩

/-- C26: on a non-empty array of output samples with ascending coordinates, `index(x)`
is a valid index of the array: the least index whose coordinate is at least `x` if there
is such a sample, and the last index `size - 1` if every coordinate is below `x`. -/
theorem index_is_valid (output : List Data) (x : ℚ) (hne : output ≠ [])
    (hs : StrictAsc output) :
    ∃ r : Nat, index output x = (r : Int) ∧ ∃ hr : r < output.length,
      ((∃ i, ∃ hi : i < output.length, x ≤ output[i].x) →
        x ≤ output[r].x ∧ ∀ i (hi : i < output.length), x ≤ output[i].x → r ≤ i) ∧
      ((∀ i (hi : i < output.length), output[i].x < x) → r = output.length - 1) := by
  have hpos : 0 < output.length := List.length_pos.mpr hne
  obtain ⟨hle, hlo, hhi⟩ := lower_bound_spec output x hs
  unfold index
  dsimp only
  by_cases hend : lower_bound output x = output.length
  · rw [if_pos hend]
    refine ⟨output.length - 1, by omega, by omega, ?_, fun _ => rfl⟩
    rintro ⟨i, hi, hxi⟩
    exact absurd (hlo i hi (by omega)) (not_lt.mpr hxi)
  · rw [if_neg hend]
    have hr : lower_bound output x < output.length := by omega
    refine ⟨lower_bound output x, rfl, hr, ?_, ?_⟩
    · intro _
      refine ⟨hhi _ hr (le_refl _), ?_⟩
      intro i hi hxi
      by_contra hlt
      exact absurd (hlo i hi (by omega)) (not_lt.mpr hxi)
    · intro hall
      exact absurd (hall _ hr) (not_lt.mpr (hhi _ hr (le_refl _)))

theorem index_is_valid_witness :
    index twoSampleTrace.data 2 = 1 ∧ index twoSampleTrace.data 0 = 0 ∧
    index twoSampleTrace.data 5 = 1 ∧
    ∃ r : Nat, index twoSampleTrace.data 5 = (r : Int) ∧
      ∃ hr : r < twoSampleTrace.data.length,
        ((∃ i, ∃ hi : i < twoSampleTrace.data.length, 5 ≤ twoSampleTrace.data[i].x) →
          5 ≤ twoSampleTrace.data[r].x ∧
          ∀ i (hi : i < twoSampleTrace.data.length), 5 ≤ twoSampleTrace.data[i].x → r ≤ i) ∧
        ((∀ i (hi : i < twoSampleTrace.data.length), twoSampleTrace.data[i].x < 5) →
          r = twoSampleTrace.data.length - 1) :=
  ⟨by decide!, by decide!, by decide!,
    index_is_valid twoSampleTrace.data 5 (by decide) (by decide!)⟩
/-! ## The claims on the identity hash, the formula check and the math switch -/

theorem jsonBody_skip (sourceHash : Nat → Nat) (mathJSON : MathRef → Option (String × String))
    (o : TraceObject) (b : Bool) :
    jsonBody sourceHash mathJSON { o with JSONskipHash := b }
      = jsonBody sourceHash mathJSON o := rfl

/-- A change of a serialised member returns and touches neither the cached hash nor the
flag `hashSet`. -/
theorem fieldChange_keeps_hash (P : ParserX) (env : Nat → SourceView) (minInterval : Int)
    (now : Nat) (o : TraceObject) (c : FieldChange) :
    ∃ o', c.apply P env minInterval now o = Except.ok o' ∧ o'.hash = o.hash ∧
      o'.hashSet = o.hashSet := by
  cases c with
  | setName name => exact ⟨_, rfl, rfl, rfl⟩
  | setVelocityFactor v => exact ⟨_, rfl, rfl, rfl⟩
  | setReflection value => exact ⟨_, rfl, rfl, rfl⟩
  | setMathFormula f =>
    obtain ⟨t', hok, _, _⟩ := scheduleMathCalculation_spec P env minInterval now
      { o.toTrace with mathFormula := f } 0 o.data.length
    refine ⟨{ o with toTrace := t' }, ?_, rfl, rfl⟩
    show LibreVNA.setMathFormula P env minInterval now o f = _
    unfold LibreVNA.setMathFormula
    rw [hok]

/-- C27, as the claim states it, fails: the trace named `S11` caches its hash 14 at the
first `toHash()`; after `setName("Port 1")` the call `toHash()` still returns 14, while
`toHash(true)` returns the hash 17 of the current serialisation. -/
theorem renamed_trace_returns_stale_hash :
    (toHash textLengthHash (fun _ => 0) noMathJSON namedTrace false).2 = 14 ∧
    (toHash textLengthHash (fun _ => 0) noMathJSON
      (setName (toHash textLengthHash (fun _ => 0) noMathJSON namedTrace false).1 "Port 1")
      false).2 = 14 ∧
    (toHash textLengthHash (fun _ => 0) noMathJSON
      (setName (toHash textLengthHash (fun _ => 0) noMathJSON namedTrace false).1 "Port 1")
      true).2 = 17 ∧
    textLengthHash (jsonBody (fun _ => 0) noMathJSON
      (setName (toHash textLengthHash (fun _ => 0) noMathJSON namedTrace false).1 "Port 1"))
      = 17 := by
  decide!

/-- C27, amended: once the hash is set, by an earlier `toHash` call or by `fromJSON`
from the key "hash", a later `setName`, `setVelocityFactor`, `setReflection` or
`setMathFormula` keeps the cached value, and `toHash()` without `forceUpdate` returns
that cached value and changes nothing; `toHash(true)` returns the hash of the current
serialisation (the entries of `toJSON` without the hash) and caches it. -/
theorem hash_is_cached_until_forced (stdHash : List (String × JsonValue) → Nat)
    (sourceHash : Nat → Nat) (mathJSON : MathRef → Option (String × String)) (P : ParserX)
    (env : Nat → SourceView) (minInterval : Int) (now : Nat) (o : TraceObject)
    (c : FieldChange) (hset : o.hashSet = true) :
    ∃ o', c.apply P env minInterval now o = Except.ok o' ∧
      toHash stdHash sourceHash mathJSON o' false = (o', o.hash) ∧
      (toHash stdHash sourceHash mathJSON o' true).2
        = stdHash (jsonBody sourceHash mathJSON o') ∧
      (toHash stdHash sourceHash mathJSON o' true).1.hash
        = stdHash (jsonBody sourceHash mathJSON o') ∧
      (∀ (o0 : TraceObject) (force : Bool),
        (toHash stdHash sourceHash mathJSON o0 force).1.hashSet = true) ∧
      (∀ h, (fromJSONHash o (some h)).hashSet = true ∧ (fromJSONHash o (some h)).hash = h) := by
  obtain ⟨o', hok, hhash, hflag⟩ := fieldChange_keeps_hash P env minInterval now o c
  refine ⟨o', hok, ?_, ?_, ?_, ?_, ?_⟩
  · unfold toHash
    rw [hflag, hset, hhash]
    rfl
  · unfold toHash
    simp only [Bool.or_true, if_true]
    rfl
  · unfold toHash
    simp only [Bool.or_true, if_true]
    rfl
  · intro o0 force
    unfold toHash
    cases force
    · cases h0 : o0.hashSet
      · simp only [Bool.not_false, Bool.or_false, if_true]
      · simp only [h0, Bool.not_true, Bool.or_false, Bool.false_eq_true, if_false]
    · simp only [Bool.or_true, if_true]
  · intro h
    exact ⟨rfl, rfl⟩

theorem hash_is_cached_until_forced_witness :
    ∃ o', (FieldChange.setName "Port 1").apply firstSourceParser sourceSweepA 100 30
        (toHash textLengthHash (fun _ => 0) noMathJSON namedTrace false).1 = Except.ok o' ∧
      toHash textLengthHash (fun _ => 0) noMathJSON o' false
        = (o', (toHash textLengthHash (fun _ => 0) noMathJSON namedTrace false).1.hash) ∧
      (toHash textLengthHash (fun _ => 0) noMathJSON o' true).2
        = textLengthHash (jsonBody (fun _ => 0) noMathJSON o') := by
  obtain ⟨o', hok, h1, h2, _⟩ := hash_is_cached_until_forced textLengthHash (fun _ => 0)
    noMathJSON firstSourceParser sourceSweepA 100 30
    (toHash textLengthHash (fun _ => 0) noMathJSON namedTrace false).1
    (FieldChange.setName "Port 1") rfl
  exact ⟨o', hok, h1, h2⟩

/-- C28: `mathFormularValid` returns true if and only if the formula is not empty, the
parser accepts it and gives its variables, and every one of these variables is the
variable name of a source; so it returns false for an empty formula, for a formula that
the parser rejects, and for a formula with a variable that no source is bound to. -/
theorem mathFormularValid_iff (GetExprVar : String → Option (List String)) (t : Trace) :
    (mathFormularValid GetExprVar t = true ↔
      (t.mathFormula.isEmpty = false ∧ ∃ vars, GetExprVar t.mathFormula = some vars ∧
        ∀ v ∈ vars, ∃ ms ∈ t.mathSourceTraces, ms.2 = v)) ∧
    (t.mathFormula.isEmpty = true → mathFormularValid GetExprVar t = false) ∧
    (GetExprVar t.mathFormula = none → mathFormularValid GetExprVar t = false) ∧
    (∀ vars v, GetExprVar t.mathFormula = some vars → v ∈ vars →
      (∀ ms ∈ t.mathSourceTraces, ms.2 ≠ v) → mathFormularValid GetExprVar t = false) := by
  have hiff : mathFormularValid GetExprVar t = true ↔
      (t.mathFormula.isEmpty = false ∧ ∃ vars, GetExprVar t.mathFormula = some vars ∧
        ∀ v ∈ vars, ∃ ms ∈ t.mathSourceTraces, ms.2 = v) := by
    unfold mathFormularValid
    cases hf : t.mathFormula.isEmpty
    · simp only [Bool.false_eq_true, if_false, true_and]
      cases hg : GetExprVar t.mathFormula with
      | none => simp
      | some vars =>
        simp only [List.all_eq_true, List.any_eq_true, beq_iff_eq, Option.some.injEq,
          exists_eq_left']
    · simp
  refine ⟨hiff, ?_, ?_, ?_⟩
  · intro hf
    cases h : mathFormularValid GetExprVar t
    · rfl
    · rw [(hiff.mp h).1] at hf
      cases hf
  · intro hg
    cases h : mathFormularValid GetExprVar t
    · rfl
    · obtain ⟨_, vars, hv, _⟩ := hiff.mp h
      rw [hg] at hv
      cases hv
  · intro vars v hg hv hno
    cases h : mathFormularValid GetExprVar t
    · rfl
    · obtain ⟨_, vars', hv', hall⟩ := hiff.mp h
      rw [hg] at hv'
      cases hv'
      obtain ⟨ms, hms, hmsv⟩ := hall v hv
      exact absurd hmsv (hno ms hms)

theorem mathFormularValid_iff_witness :
    mathFormularValid sampleExprVar formulaTrace = true ∧
    mathFormularValid sampleExprVar { formulaTrace with mathFormula := "" } = false ∧
    mathFormularValid sampleExprVar { formulaTrace with mathFormula := "a+" } = false ∧
    mathFormularValid sampleExprVar { formulaTrace with mathFormula := "a+c" } = false :=
  ⟨(mathFormularValid_iff sampleExprVar formulaTrace).1.mpr
      ⟨by decide, ["a"], by decide, by decide⟩,
    (mathFormularValid_iff sampleExprVar { formulaTrace with mathFormula := "" }).2.1
      (by decide),
    (mathFormularValid_iff sampleExprVar { formulaTrace with mathFormula := "a+" }).2.2.1
      (by decide),
    (mathFormularValid_iff sampleExprVar { formulaTrace with mathFormula := "a+c" }).2.2.2
      ["a", "c"] "c" (by decide) (by decide) (by decide)⟩

/-- C30: on a chain with the enabled identity node in front, in which no other node is
the trace itself, `enableMath(false)` returns, changes no entry of `mathOps` and makes
the identity node the output node, so that `mathEnabled()` is false; a following
`enableMath(true)` returns, changes no entry either and makes the enabled node of
greatest index the output node, so that `mathEnabled()` is true exactly when a node
behind the identity node is enabled. -/
theorem math_switch (t : Trace) (hc : ChainInv t)
    (hself : MathRef.self ∉ t.mathOps.tail.map MathInfo.math) :
    ∃ t1 t2, enableMath t false = Except.ok t1 ∧ t1.mathOps = t.mathOps ∧
      t1.lastMath = some MathRef.self ∧ mathEnabled t1 = false ∧
      enableMath t1 true = Except.ok t2 ∧ t2.mathOps = t.mathOps ∧
      (∃ k mk, t.mathOps[k]? = some mk ∧ mk.enabled = true ∧ t2.lastMath = some mk.math ∧
        ∀ (i : Nat) (mi : MathInfo), k < i → t.mathOps[i]? = some mi → mi.enabled = false) ∧
      (mathEnabled t2 = true ↔
        ∃ (k : Nat) (mk : MathInfo), 1 ≤ k ∧ t.mathOps[k]? = some mk ∧ mk.enabled = true) := by
  obtain ⟨rest, hops⟩ := hc
  rw [hops] at hself
  simp only [List.tail_cons] at hself
  -- the switch off
  have hoff : ∃ t1, enableMath t false = Except.ok t1 ∧ t1.mathOps = t.mathOps ∧
      t1.lastMath = some MathRef.self := by
    unfold enableMath updateLastMath
    simp only [hops, Bool.false_eq_true, if_false, List.take_succ_cons, List.take_zero,
      List.reverse_cons, List.reverse_nil, List.nil_append, List.find?_cons]
    split
    · exact ⟨_, rfl, by simp [Trace.emit, hops], by simp [Trace.emit]⟩
    · rename_i h
      exact ⟨t, rfl, hops, (not_not.mp h).symm⟩
  obtain ⟨t1, hok1, hops1, hlast1⟩ := hoff
  -- the switch on
  have hr : lastEnabled t1.mathOps = some (lastFrom MathRef.self rest) := by
    rw [hops1, hops, lastEnabled_headed]
  obtain ⟨t2, hok2, hops2, hlast2, _, _⟩ := updateLastMath_full t1 hr
  obtain ⟨j, mj, hjk, hj, hjen, hmath, hbetween⟩ :=
    lastFrom_spec { math := MathRef.self, enabled := true } rest rest.length
  rw [List.take_length] at hmath
  have hmjen : mj.enabled = true := by
    rcases hjen with h0 | h
    · subst h0
      simp only [List.getElem?_cons_zero, Option.some.injEq] at hj
      rw [← hj]
    · exact h
  refine ⟨t1, t2, hok1, hops1, hlast1, ?_, ?_, ?_, ?_, ?_⟩
  · unfold mathEnabled
    rw [hlast1]
    rfl
  · unfold enableMath
    simpa using hok2
  · rw [hops2, hops1]
  · refine ⟨j, mj, by rw [hops]; exact hj, hmjen, by rw [hlast2, hmath], ?_⟩
    intro i mi hji hi
    rw [hops] at hi
    have hil : i < (({ math := MathRef.self, enabled := true } : MathInfo) :: rest).length :=
      (List.getElem?_eq_some.mp hi).1
    exact hbetween i mi hji (by simpa using Nat.lt_succ_iff.mp hil) hi
  · unfold mathEnabled
    rw [hlast2, ← hmath]
    constructor
    · intro hne
      have hj0 : j ≠ 0 := by
        intro h0
        subst h0
        simp only [List.getElem?_cons_zero, Option.some.injEq] at hj
        rw [← hj] at hne
        simp at hne
      exact ⟨j, mj, by omega, by rw [hops]; exact hj, hmjen⟩
    · rintro ⟨k, mk, hk1, hk, hken⟩
      rw [hops] at hk
      have hkl : k < (({ math := MathRef.self, enabled := true } : MathInfo) :: rest).length :=
        (List.getElem?_eq_some.mp hk).1
      have hjk' : k ≤ j := by
        by_contra hlt
        have := hbetween k mk (by omega) (by simpa using Nat.lt_succ_iff.mp hkl) hk
        rw [hken] at this
        cases this
      obtain ⟨j', rfl⟩ : ∃ j', j = j' + 1 := ⟨j - 1, by omega⟩
      rw [List.getElem?_cons_succ] at hj
      have hmem : mj.math ∈ rest.map MathInfo.math :=
        List.mem_map.mpr ⟨mj, List.mem_iff_getElem?.mpr ⟨_, hj⟩, rfl⟩
      have hne : mj.math ≠ MathRef.self := by
        intro heq
        rw [heq] at hmem
        exact hself hmem
      simpa using hne

theorem math_switch_witness :
    ∃ t1 t2, enableMath twoNodeChain false = Except.ok t1 ∧ t1.mathOps = twoNodeChain.mathOps ∧
      t1.lastMath = some MathRef.self ∧ mathEnabled t1 = false ∧
      enableMath t1 true = Except.ok t2 ∧ t2.mathOps = twoNodeChain.mathOps ∧
      t2.lastMath = some (MathRef.op 1) ∧ mathEnabled t2 = true := by
  obtain ⟨t1, t2, h1, h2, h3, h4, h5, h6, _, h8⟩ :=
    math_switch twoNodeChain ⟨_, rfl⟩ (by decide)
  refine ⟨t1, t2, h1, h2, h3, h4, h5, h6, ?_, h8.mpr ⟨1, ⟨MathRef.op 1, true⟩, le_refl _, rfl, rfl⟩⟩
  have hl : lastMathOf (runChain twoNodeChain [ChainOp.enableMath false, ChainOp.enableMath true])
      = some (MathRef.op 1) := by decide
  unfold runChain at hl
  simp only [ChainOp.apply] at hl
  rw [h1] at hl
  simp only [runChain, ChainOp.apply] at hl
  rw [h5] at hl
  exact hl
/-! ## Lemmas on the register bit fields -/

theorem shl_nat (x p : Nat) (hp : p < 64) :
    shl x (p : Int) = Except.ok ((x <<< p) % ULONG_RANGE) := by
  unfold shl
  rw [if_neg (by omega)]
  simp

theorem shr_nat (x p : Nat) (hp : p < 64) : shr x (p : Int) = Except.ok (x >>> p) := by
  unfold shr
  rw [if_neg (by omega)]
  simp

theorem mask_step (i : Nat) : (2 ^ i - 1) ||| 2 ^ i = 2 ^ (i + 1) - 1 := by
  apply Nat.eq_of_testBit_eq
  intro j
  simp only [Nat.testBit_or, Nat.testBit_two_pow_sub_one, Nat.testBit_two_pow]
  by_cases h1 : j < i <;> by_cases h2 : i = j <;> simp [h1, h2] <;> omega

/-- The mask loop of `width` rounds gives the mask of the `width` lowest bits. -/
theorem maskLoop_spec :
    ∀ (rounds i : Nat), i + rounds ≤ 64 →
      maskLoop rounds (i : Int) (2 ^ i - 1) = Except.ok (2 ^ (i + rounds) - 1) := by
  intro rounds
  induction rounds with
  | zero => intro i _; rfl
  | succ rounds ih =>
    intro i h
    unfold maskLoop
    rw [shl_nat 1 i (by omega)]
    dsimp only
    have hbit : (1 <<< i) % ULONG_RANGE = 2 ^ i := by
      rw [Nat.one_shiftLeft]
      apply Nat.mod_eq_of_lt
      unfold ULONG_RANGE
      exact Nat.pow_lt_pow_right (by decide) (by omega)
    rw [hbit, mask_step]
    have := ih (i + 1) (by omega)
    rw [show ((i : Int) + 1) = ((i + 1 : Nat) : Int) by push_cast; rfl]
    rw [this, show i + 1 + rounds = i + (rounds + 1) by omega]

theorem maskLoop_width (width : Nat) (h : width ≤ 64) :
    maskLoop ((width : Int)).toNat 0 0 = Except.ok (2 ^ width - 1) := by
  have := maskLoop_spec width 0 (by omega)
  simpa using this

theorem shiftLeft_fits (x pos width : Nat) (hx : x < 2 ^ width) (h : pos + width ≤ 64) :
    (x <<< pos) % ULONG_RANGE = x <<< pos := by
  apply Nat.mod_eq_of_lt
  rw [Nat.shiftLeft_eq]
  unfold ULONG_RANGE
  calc x * 2 ^ pos < 2 ^ width * 2 ^ pos :=
        Nat.mul_lt_mul_of_pos_right hx (Nat.two_pow_pos _)
    _ = 2 ^ (width + pos) := (Nat.pow_add 2 width pos).symm
    _ ≤ 2 ^ 64 := Nat.pow_le_pow_right (by decide) (by omega)

theorem and_mask_eq_mod (x width : Nat) : x &&& (2 ^ width - 1) = x % 2 ^ width := by
  apply Nat.eq_of_testBit_eq
  intro j
  rw [Nat.testBit_and, Nat.testBit_two_pow_sub_one, Nat.testBit_mod_two_pow, Bool.and_comm]

theorem testBit_of_lt_pow (x w j : Nat) (hx : x < 2 ^ w) (hj : w ≤ j) :
    x.testBit j = false :=
  Nat.testBit_eq_false_of_lt (lt_of_lt_of_le hx (Nat.pow_le_pow_right (by decide) hj))

/-- The bits of the register after a write of the field value `f` to the field of
`width` bits at `pos`. -/
theorem written_bits (v f pos width : Nat) (hv : v < ULONG_RANGE) (hf : f < 2 ^ width)
    (h : pos + width ≤ 64) (i : Nat) :
    ((v &&& bitNot ((2 ^ width - 1) <<< pos)) ||| (f <<< pos)).testBit i
      = if pos ≤ i ∧ i < pos + width then f.testBit (i - pos) else v.testBit i := by
  unfold bitNot ULONG_RANGE
  simp only [Nat.testBit_or, Nat.testBit_and, Nat.testBit_xor, Nat.testBit_shiftLeft,
    Nat.testBit_two_pow_sub_one]
  by_cases h1 : pos ≤ i
  · by_cases h2 : i < pos + width
    · have h3 : i - pos < width := by omega
      have h4 : i < 64 := by omega
      simp [h1, h2, h3, h4]
    · have h3 : ¬ i - pos < width := by omega
      have h5 : f.testBit (i - pos) = false := testBit_of_lt_pow f width _ hf (by omega)
      by_cases h4 : i < 64
      · simp [h1, h2, h3, h4, h5]
      · have h6 : v.testBit i = false := testBit_of_lt_pow v 64 i hv (by omega)
        simp [h1, h2, h3, h4, h5, h6]
  · have h2 : ¬ (pos ≤ i ∧ i < pos + width) := by omega
    by_cases h4 : i < 64
    · simp [h1, h4]
    · have h6 : v.testBit i = false := testBit_of_lt_pow v 64 i hv (by omega)
      simp [h1, h4, h6]

/-- `setValue` on a field inside the register, with the shift count below 64: the call
returns, and the result is given by the field value `newval mod 2^width`. -/
theorem setValue_result (r : Register) (newval pos width : Nat) (hp : pos < 64)
    (hw : pos + width ≤ 64) :
    r.setValue newval pos width = Except.ok
      (if (newval % 2 ^ width) <<< pos ≠ r.value then
        { r with
          value := (r.value &&& bitNot ((2 ^ width - 1) <<< pos))
            ||| ((newval % 2 ^ width) <<< pos),
          signals := r.signals ++ [(r.value &&& bitNot ((2 ^ width - 1) <<< pos))
            ||| ((newval % 2 ^ width) <<< pos)] }
      else
        { r with
          value := (r.value &&& bitNot ((2 ^ width - 1) <<< pos))
            ||| ((newval % 2 ^ width) <<< pos) }) := by
  have hmask : (2 : Nat) ^ width - 1 < 2 ^ width := by
    have : 0 < (2 : Nat) ^ width := Nat.two_pow_pos _
    omega
  have hfield : newval % 2 ^ width < 2 ^ width := Nat.mod_lt _ (Nat.two_pow_pos _)
  unfold Register.setValue
  rw [maskLoop_width width (by omega)]
  dsimp only
  rw [shl_nat _ pos hp, shl_nat _ pos hp]
  dsimp only
  rw [and_mask_eq_mod, shiftLeft_fits _ pos width hfield hw,
    shiftLeft_fits _ pos width hmask hw]
  split <;> rfl

theorem getValue_result (r : Register) (pos width : Nat) (hp : pos < 64)
    (hw : pos + width ≤ 64) :
    r.getValue pos width = Except.ok ((r.value &&& ((2 ^ width - 1) <<< pos)) >>> pos) := by
  have hmask : (2 : Nat) ^ width - 1 < 2 ^ width := by
    have : 0 < (2 : Nat) ^ width := Nat.two_pow_pos _
    omega
  unfold Register.getValue
  rw [maskLoop_width width (by omega)]
  dsimp only
  rw [shl_nat _ pos hp]
  dsimp only
  rw [shiftLeft_fits _ pos width hmask hw, shr_nat _ pos hp]
/-! ## The claims on the register bit fields -/

theorem setValue_value (r : Register) (newval pos width : Nat) (hp : pos < 64)
    (hw : pos + width ≤ 64) :
    ∃ r', r.setValue newval pos width = Except.ok r' ∧
      r'.value = (r.value &&& bitNot ((2 ^ width - 1) <<< pos))
        ||| ((newval % 2 ^ width) <<< pos) ∧
      (r'.signals = if (newval % 2 ^ width) <<< pos ≠ r.value then r.signals ++ [r'.value]
        else r.signals) := by
  refine ⟨_, setValue_result r newval pos width hp hw, ?_, ?_⟩
  · split <;> rfl
  · split <;> rfl

/-- C31, as the claim states it, fails: the empty field at position 64 satisfies
`pos + width <= 64`, but `setValue` and `getValue` shift an `unsigned long` by 64 there,
the width of the type. -/
theorem empty_field_at_position_64_shifts_by_the_width :
    (64 : Int) + 0 ≤ 64 ∧
    registerThree.setValue 0 64 0 = Except.error Fault.shift ∧
    registerThree.getValue 64 0 = Except.error Fault.shift ∧
    registerThree.writeRead 0 64 0 = none := by
  decide

/-- C31, amended: for a register value below `2^64`, a field of `width` bits at a
position `pos` below 64 with `pos + width <= 64` and every `newval`, the call
`setValue(newval, pos, width)` returns, a following `getValue(pos, width)` returns
`newval mod 2^width`, and every bit of the register outside the positions
`[pos, pos + width)` is as before the write. -/
theorem bit_field_write_read (r : Register) (newval pos width : Nat)
    (hv : r.value < ULONG_RANGE) (hp : pos < 64) (hw : pos + width ≤ 64) :
    ∃ r', r.setValue newval pos width = Except.ok r' ∧
      r'.getValue pos width = Except.ok (newval % 2 ^ width) ∧
      r'.value < ULONG_RANGE ∧
      ∀ i : Nat, (i < pos ∨ pos + width ≤ i) → r'.value.testBit i = r.value.testBit i := by
  have hfield : newval % 2 ^ width < 2 ^ width := Nat.mod_lt _ (Nat.two_pow_pos _)
  obtain ⟨r', hok, hval, _⟩ := setValue_value r newval pos width hp hw
  have hbits := written_bits r.value (newval % 2 ^ width) pos width hv hfield hw
  rw [← hval] at hbits
  refine ⟨r', hok, ?_, ?_, ?_⟩
  · rw [getValue_result r' pos width hp hw]
    congr 1
    apply Nat.eq_of_testBit_eq
    intro j
    rw [Nat.testBit_shiftRight, Nat.testBit_and, hbits, Nat.testBit_shiftLeft,
      Nat.testBit_two_pow_sub_one]
    by_cases hj : j < width
    · have h1 : pos ≤ pos + j ∧ pos + j < pos + width := by omega
      have h2 : pos + j - pos = j := by omega
      simp [h1, h2, hj]
    · have h2 : pos + j - pos = j := by omega
      rw [testBit_of_lt_pow _ width j hfield (by omega)]
      simp [h2, hj]
  · unfold ULONG_RANGE
    apply Nat.lt_pow_two_of_testBit
    intro i hi
    rw [hbits, if_neg (by omega)]
    exact testBit_of_lt_pow r.value 64 i hv hi
  · intro i hi
    rw [hbits, if_neg (by omega)]

theorem bit_field_write_read_witness :
    ∃ r', registerThree.setValue 13 4 3 = Except.ok r' ∧
      r'.getValue 4 3 = Except.ok (13 % 2 ^ 3) ∧ r'.value < ULONG_RANGE ∧
      ∀ i : Nat, (i < 4 ∨ 4 + 3 ≤ i) → r'.value.testBit i = registerThree.value.testBit i :=
  bit_field_write_read registerThree 13 4 3 (by decide) (by decide) (by decide)

/-- C32: `setValue(newval, pos, width)` on a field inside the register (position below
64) returns, and it logs `valueChanged` exactly when the shifted field value
`(newval mod 2^width) << pos` differs from the whole old register value. The signal is
logged whenever the stored value has changed, but it is also logged when the stored
value is the same as before and the register holds more than the written field. -/
theorem setValue_compares_field_with_register (r : Register) (newval pos width : Nat)
    (hv : r.value < ULONG_RANGE) (hp : pos < 64) (hw : pos + width ≤ 64) :
    ∃ r', r.setValue newval pos width = Except.ok r' ∧
      (r'.signals = r.signals ++ [r'.value] ↔ (newval % 2 ^ width) <<< pos ≠ r.value) ∧
      ((newval % 2 ^ width) <<< pos = r.value → r'.signals = r.signals) ∧
      (r'.value ≠ r.value → r'.signals = r.signals ++ [r'.value]) := by
  have hfield : newval % 2 ^ width < 2 ^ width := Nat.mod_lt _ (Nat.two_pow_pos _)
  obtain ⟨r', hok, hval, hsig⟩ := setValue_value r newval pos width hp hw
  have hbits := written_bits r.value (newval % 2 ^ width) pos width hv hfield hw
  rw [← hval] at hbits
  have hsame : (newval % 2 ^ width) <<< pos = r.value → r'.value = r.value := by
    intro heq
    apply Nat.eq_of_testBit_eq
    intro i
    rw [hbits]
    split
    · rename_i hi
      rw [← heq, Nat.testBit_shiftLeft]
      simp [hi.1]
    · rfl
  refine ⟨r', hok, ?_, ?_, ?_⟩
  · rw [hsig]
    constructor
    · intro h
      split at h
      · assumption
      · have := congrArg List.length h
        simp at this
    · intro h
      rw [if_pos h]
  · intro heq
    rw [hsig, if_neg (not_not.mpr heq)]
  · intro hne
    rw [hsig]
    split
    · rfl
    · rename_i heq
      exact absurd (hsame (not_not.mp heq)) hne

theorem setValue_compares_field_with_register_witness :
    registerOf (Except.ok registerThree) = some (3, 0) ∧
    registerOf (registerThree.setValue 1 0 1) = some (3, 1) ∧
    ∃ r', registerThree.setValue 1 0 1 = Except.ok r' ∧
      (r'.signals = registerThree.signals ++ [r'.value] ↔
        (1 % 2 ^ 1) <<< 0 ≠ registerThree.value) ∧
      ((1 % 2 ^ 1) <<< 0 = registerThree.value → r'.signals = registerThree.signals) ∧
      (r'.value ≠ registerThree.value → r'.signals = registerThree.signals ++ [r'.value]) :=
  ⟨by decide, by decide,
    setValue_compares_field_with_register registerThree 1 0 1 (by decide) (by decide)
      (by decide)⟩
/-! ## Lemmas on the import of a touchstone file -/

theorem removeMathSource_reflection (t : Trace) (src : Nat) :
    (removeMathSource t src).reflection = t.reflection := rfl

theorem clearMathSourcesLoop_reflection :
    ∀ (fuel : Nat) (t : Trace), (clearMathSourcesLoop fuel t).reflection = t.reflection := by
  intro fuel
  induction fuel with
  | zero => intro t; rfl
  | succ fuel ih =>
    intro t
    unfold clearMathSourcesLoop
    split
    · rfl
    · rw [ih, removeMathSource_reflection]

theorem clearMathSources_reflection (t : Trace) :
    (clearMathSources t).reflection = t.reflection :=
  clearMathSourcesLoop_reflection _ t

/-- The loop over the data points returns if every point holds the parameter. -/
theorem touchstoneLoop_returns :
    ∀ (pts : List TouchstonePoint) (p : Nat) (t : Trace),
      (∀ d ∈ pts, p < d.S.length) → ∃ t', touchstoneLoop pts p t = Except.ok t' := by
  intro pts
  induction pts with
  | nil => intro p t _; exact ⟨t, rfl⟩
  | cons d rest ih =>
    intro p t h
    have hd : p < d.S.length := h d (List.mem_cons_self _ _)
    unfold touchstoneLoop
    rw [List.getElem?_eq_getElem hd]
    exact ih p _ (fun x hx => h x (List.mem_cons_of_mem _ hx))

/-- The loop over the data points ends in a fault if a point lacks the parameter. -/
theorem touchstoneLoop_faults :
    ∀ (pts : List TouchstonePoint) (p : Nat) (t : Trace),
      (∃ d ∈ pts, d.S.length ≤ p) → touchstoneLoop pts p t = Except.error Fault.outOfRange := by
  intro pts
  induction pts with
  | nil => intro p t h; obtain ⟨d, hd, _⟩ := h; cases hd
  | cons d rest ih =>
    intro p t h
    unfold touchstoneLoop
    by_cases hd : p < d.S.length
    · rw [List.getElem?_eq_getElem hd]
      apply ih
      obtain ⟨x, hx, hlen⟩ := h
      rcases List.mem_cons.mp hx with rfl | hx
      · omega
      · exact ⟨x, hx, hlen⟩
    · rw [List.getElem?_eq_none (by omega)]

/-- A parameter below `n * n` of the form `j * n + j` has `j` below `n`. -/
theorem diagonal_lt (n p j : Nat) (hp : p < n * n) (hj : p = j * n + j) : j < n := by
  by_contra hge
  have hnj : n ≤ j := Nat.le_of_not_lt hge
  have : n * n ≤ j * n := Nat.mul_le_mul_right n hnj
  omega

/-- The diagonal parameters below `n * n` are the multiples of `n + 1`. -/
theorem diagonal_iff (n p : Nat) (hp : p < n * n) :
    (∃ j, p = j * n + j) ↔ p / n = p % n := by
  have hn : 0 < n := by
    rcases Nat.eq_zero_or_pos n with h | h
    · subst h; simp at hp
    · exact h
  constructor
  · rintro ⟨j, hj⟩
    have hjn := diagonal_lt n p j hp hj
    have hp2 : p = j + n * j := by rw [hj, Nat.mul_comm]; omega
    rw [hp2, Nat.add_mul_div_left _ _ hn, Nat.add_mul_mod_self_left,
      Nat.div_eq_of_lt hjn, Nat.mod_eq_of_lt hjn]
    omega
  · intro h
    refine ⟨p / n, ?_⟩
    have := Nat.div_add_mod p n
    rw [← h] at this
    rw [Nat.mul_comm]
    omega

/-- The search for a diagonal parameter, for a port count below `2^16`: from a counter
`i` on, with no diagonal parameter found below `i`, it ends and finds `true` exactly for
a diagonal parameter. -/
theorem reflectionLoop_spec (n p : Nat) (hn : n ≤ 65535) (hp : p < n * n) :
    ∀ (fuel i : Nat), i ≤ n → n - i < fuel → (∀ j, j < i → p ≠ j * n + j) →
      ∃ b, reflectionLoop n p fuel i = some b ∧ (b = true ↔ ∃ j, p = j * n + j) := by
  intro fuel
  induction fuel with
  | zero => intro i _ hf _; omega
  | succ fuel ih =>
    intro i hi hf hbelow
    have hii : i * i ≤ n * n := Nat.mul_le_mul hi hi
    have hnn : n * n ≤ 65535 * 65535 := Nat.mul_le_mul hn hn
    have hin : i * n ≤ n * n := Nat.mul_le_mul_right n hi
    have h1 : (i * i) % UINT_RANGE = i * i := by
      apply Nat.mod_eq_of_lt
      unfold UINT_RANGE
      omega
    have h2 : (i * n + i) % UINT_RANGE = i * n + i := by
      apply Nat.mod_eq_of_lt
      unfold UINT_RANGE
      omega
    unfold reflectionLoop
    rw [h1, h2]
    by_cases hle : i * i ≤ p
    · rw [if_pos hle]
      have hlt : i < n := by
        by_contra hge
        have : i = n := by omega
        subst this
        omega
      by_cases heq : p = i * n + i
      · rw [if_pos heq]
        exact ⟨true, rfl, ⟨fun _ => ⟨i, heq⟩, fun _ => rfl⟩⟩
      · rw [if_neg heq]
        have h3 : (i + 1) % UINT_RANGE = i + 1 := by
          apply Nat.mod_eq_of_lt
          unfold UINT_RANGE
          omega
        rw [h3]
        apply ih (i + 1) (by omega) (by omega)
        intro j hj
        by_cases hji : j = i
        · subst hji; exact heq
        · exact hbelow j (by omega)
    · rw [if_neg hle]
      refine ⟨false, rfl, ?_⟩
      constructor
      · intro h; cases h
      · rintro ⟨j, hj⟩
        exfalso
        have hjn := diagonal_lt n p j hp hj
        have hij : i ≤ j := by
          by_contra hlt
          exact hbelow j (by omega) hj
        have h4 : i * i ≤ j * j := Nat.mul_le_mul hij hij
        have h5 : j * j ≤ j * n := Nat.mul_le_mul_left j (by omega)
        omega

/-- The whole search, as `fillFromTouchstone` runs it. -/
theorem reflectionLoop_result (n p : Nat) (hn : n ≤ 65535) (hp : p < n * n) :
    ∃ b, reflectionLoop n p UINT_RANGE 0 = some b ∧ (b = true ↔ p / n = p % n) := by
  obtain ⟨b, hb, hiff⟩ := reflectionLoop_spec n p hn hp UINT_RANGE 0 (Nat.zero_le _)
    (by unfold UINT_RANGE; omega) (fun j hj => by omega)
  exact ⟨b, hb, hiff.trans (diagonal_iff n p hp)⟩
/-! ## The claim on the reflection flag of an imported trace -/

/-- C33, as the claim states it, fails for port counts from `2^16` on, where the
products of `unsigned int` wrap: with 65536 ports `ports()*ports()` is 0, so the
diagonal parameter 0 (S11), which is below `n * n`, is thrown out and no flag is set;
with 65537 ports the product is 131073 and the parameter `2^32 - 1`, which is below
`n * n`, is thrown out as well. -/
theorem port_count_product_wraps :
    ((1 ≤ 65536 ∧ 0 < 65536 * 65536 ∧ 0 / 65536 = 0 % 65536) ∧
      fillFromTouchstone namedTrace (onePointFile 65536 1) 0 =
        Except.error (Abort.thrown "Parameter for touchstone out of range" namedTrace) ∧
      reflectionOf (fillFromTouchstone namedTrace (onePointFile 65536 1) 0) = none) ∧
    ((1 ≤ 65537 ∧ 4294967295 < 65537 * 65537) ∧
      fillFromTouchstone namedTrace (onePointFile 65537 0) 4294967295 =
        Except.error (Abort.thrown "Parameter for touchstone out of range" namedTrace)) := by
  refine ⟨⟨by decide, ?_, ?_⟩, by decide, ?_⟩
  · unfold fillFromTouchstone
    rw [if_pos (by decide)]
  · unfold fillFromTouchstone
    rw [if_pos (by decide)]
    rfl
  · unfold fillFromTouchstone
    rw [if_pos (by decide)]

/-- C33, amended: for a file of at most 65535 ports (so that `n * n` is below `2^32`)
and a parameter `p` below `n * n` that every data point of the file holds,
`fillFromTouchstone` returns, the trace is a file trace of the parameter `p`, and the
reflection flag is true exactly if `p / n = p % n`; for every `p` from `n * n` on the
call throws with the object as it was. -/
theorem touchstone_reflection_flag (o : TraceObject) (t : Touchstone) (p : Nat)
    (hn : t.ports ≤ 65535) :
    (p < t.ports * t.ports → (∀ d ∈ t.datapoints, p < d.S.length) →
      ∃ o', fillFromTouchstone o t p = Except.ok o' ∧
        (o'.reflection = true ↔ p / t.ports = p % t.ports) ∧
        o'.source = Source.File ∧ o'.fileParameter = p) ∧
    (t.ports * t.ports ≤ p →
      fillFromTouchstone o t p =
        Except.error (Abort.thrown "Parameter for touchstone out of range" o)) := by
  have hnn : t.ports * t.ports ≤ 65535 * 65535 := Nat.mul_le_mul hn hn
  have hmod : (t.ports * t.ports) % UINT_RANGE = t.ports * t.ports := by
    apply Nat.mod_eq_of_lt
    unfold UINT_RANGE
    omega
  constructor
  · intro hp hpts
    obtain ⟨filled, hfilled⟩ := touchstoneLoop_returns t.datapoints p
      { clear o.toTrace clearForceDefault with domain := DataType.Frequency } hpts
    obtain ⟨b, hb, hiff⟩ := reflectionLoop_result t.ports p hn hp
    unfold fillFromTouchstone
    rw [hmod, if_neg (by omega)]
    dsimp only
    rw [hfilled]
    dsimp only
    rw [hb]
    refine ⟨_, rfl, ?_, rfl, rfl⟩
    show (clearMathSources { filled with reflection := b }).reflection = true ↔ _
    rw [clearMathSources_reflection]
    exact hiff
  · intro hp
    unfold fillFromTouchstone
    rw [hmod, if_pos hp]

theorem touchstone_reflection_flag_witness :
    (∃ o', fillFromTouchstone namedTrace (onePointFile 2 4) 3 = Except.ok o' ∧
        (o'.reflection = true ↔ 3 / (onePointFile 2 4).ports = 3 % (onePointFile 2 4).ports) ∧
        o'.source = Source.File ∧ o'.fileParameter = 3) ∧
    fillFromTouchstone namedTrace (onePointFile 2 4) 4 =
      Except.error (Abort.thrown "Parameter for touchstone out of range" namedTrace) :=
  ⟨(touchstone_reflection_flag namedTrace (onePointFile 2 4) 3 (by decide)).1 (by decide)
      (by decide),
    (touchstone_reflection_flag namedTrace (onePointFile 2 4) 4 (by decide)).2 (by decide)⟩

/-- The flags of the four parameters of a two-port file, and of a parameter outside. -/
theorem two_port_file_flags :
    reflectionOf (fillFromTouchstone namedTrace (onePointFile 2 4) 0) = some true ∧
    reflectionOf (fillFromTouchstone namedTrace (onePointFile 2 4) 1) = some false ∧
    reflectionOf (fillFromTouchstone namedTrace (onePointFile 2 4) 2) = some false ∧
    reflectionOf (fillFromTouchstone namedTrace (onePointFile 2 4) 3) = some true ∧
    reflectionOf (fillFromTouchstone namedTrace (onePointFile 2 4) 4) = none := by
  decide!
/-! ## Lemmas on `canBePaused` -/

/-- A `true` of `canBePaused` leads to a live trace. -/
theorem canBePaused_true (M : Nat → Trace) :
    ∀ fuel a, canBePaused M fuel a = Except.ok true → ReachesLive M a := by
  intro fuel
  induction fuel with
  | zero => intro a h; cases h
  | succ fuel ih =>
    intro a h
    unfold canBePaused at h
    split at h
    · rename_i hs
      exact ⟨a, Relation.ReflTransGen.refl, hs⟩
    · cases h
    · cases h
    · rename_i hs
      obtain ⟨m, hm, hrec⟩ := anySource_true _ _ h
      obtain ⟨b, hpath, hlive⟩ := ih m.1 hrec
      exact ⟨b, Relation.ReflTransGen.head ⟨hs, mem_sourceIds_of_mem hm⟩ hpath, hlive⟩

/-- A `false` of `canBePaused` excludes every live trace behind math traces. -/
theorem canBePaused_false (M : Nat → Trace) :
    ∀ fuel a, canBePaused M fuel a = Except.ok false → ¬ ReachesLive M a := by
  intro fuel
  induction fuel with
  | zero => intro a h; cases h
  | succ fuel ih =>
    intro a h hreach
    obtain ⟨b, hpath, hlive⟩ := hreach
    unfold canBePaused at h
    rcases Relation.ReflTransGen.cases_head hpath with heq | ⟨c, hedge, hrest⟩
    · subst heq
      rw [hlive] at h
      cases h
    · rw [hedge.1] at h
      dsimp only at h
      have hall := anySource_false _ _ h
      obtain ⟨m, hm, hmc⟩ := List.mem_map.mp hedge.2
      subst hmc
      exact ih m.1 (hall m hm) ⟨b, hrest, hlive⟩

/-- A recursion of `canBePaused` that uses up its bound has walked along a path of as
many source edges. -/
theorem canBePaused_error (M : Nat → Trace) :
    ∀ fuel a e, canBePaused M fuel a = Except.error e →
      ∃ l : List Nat, l.length = fuel + 1 ∧ l.head? = some a ∧
        List.Chain' (SourceEdge M) l := by
  intro fuel
  induction fuel with
  | zero => intro a e _; exact ⟨[a], rfl, rfl, List.chain'_singleton a⟩
  | succ fuel ih =>
    intro a e h
    unfold canBePaused at h
    split at h
    · cases h
    · cases h
    · cases h
    · obtain ⟨m, hm, hrec⟩ := anySource_error _ _ e h
      obtain ⟨l, hlen, hhead, hchain⟩ := ih m.1 e hrec
      refine ⟨a :: l, by simp [hlen], rfl, List.Chain'.cons' hchain ?_⟩
      intro y hy
      rw [hhead] at hy
      cases hy
      exact mem_sourceIds_of_mem hm

/-- On an acyclic graph of `n` traces a path of source edges has at most `n` traces. -/
theorem chain_length_le (M : Nat → Trace) (n : Nat) (hac : Acyclic M)
    (hw : GraphWithin M n) (l : List Nat) (hchain : List.Chain' (SourceEdge M) l)
    (hlen : 2 ≤ l.length) : l.length ≤ n := by
  have hnodup := chain_nodup M hac l hchain
  have hsub : l ⊆ List.range n := by
    match l, hlen, hchain with
    | [], hlen, _ => simp at hlen
    | [x], hlen, _ => simp at hlen
    | x :: y :: l', _, hchain =>
      intro z hz
      exact List.mem_range.mpr (chain_within M n hw l' x y hchain z hz)
  have := (List.subperm_of_subset hnodup hsub).length_le
  rw [List.length_range] at this
  exact this

/-- On an acyclic graph of `n` traces a recursion bound above `n` is never used up:
`canBePaused` returns. -/
theorem canBePaused_returns (M : Nat → Trace) (n : Nat) (hac : Acyclic M)
    (hw : GraphWithin M n) (fuel : Nat) (hfuel : n < fuel) (a : Nat) :
    ∃ r, canBePaused M fuel a = Except.ok r := by
  cases h : canBePaused M fuel a with
  | ok r => exact ⟨r, rfl⟩
  | error e =>
    exfalso
    obtain ⟨l, hlen, _, hchain⟩ := canBePaused_error M fuel a e h
    have := chain_length_le M n hac hw l hchain (by omega)
    omega

theorem pausableRow_edge (a b : Nat) (h : SourceEdge pausableRow a b) : a < b ∧ b < 3 := by
  unfold SourceEdge pausableRow sourceIds at h
  by_cases h0 : a = 0
  · subst h0
    simp at h
    omega
  · by_cases h1 : a = 1
    · subst h1
      simp at h
      omega
    · by_cases h3 : a = 3
      · subst h3
        simp [freshTrace, Trace.init] at h
      · simp [h0, h1, h3, freshTrace, Trace.init] at h

theorem pausableRow_acyclic : Acyclic pausableRow :=
  acyclic_of_rank pausableRow id (fun a b h => (pausableRow_edge a b h).1)

theorem pausableRow_within : GraphWithin pausableRow 3 := by
  intro a b h
  have := pausableRow_edge a b h
  omega

/-- A live trace is reached exactly from a live trace, and from a math trace with a
path of one or more edges between math traces and their sources to a live trace. -/
theorem reachesLive_iff (M : Nat → Trace) (a : Nat) :
    ReachesLive M a ↔
      ((M a).source = Source.Live ∨
        ((M a).source = Source.Math ∧
          ∃ b, Relation.TransGen (MathEdge M) a b ∧ (M b).source = Source.Live)) := by
  constructor
  · rintro ⟨b, hpath, hlive⟩
    rcases Relation.ReflTransGen.cases_head hpath with heq | ⟨c, hedge, hrest⟩
    · subst heq
      exact Or.inl hlive
    · exact Or.inr ⟨hedge.1, b, Relation.TransGen.head' hedge hrest, hlive⟩
  · rintro (hlive | ⟨_, b, hpath, hlive⟩)
    · exact ⟨a, Relation.ReflTransGen.refl, hlive⟩
    · exact ⟨b, hpath.to_reflTransGen, hlive⟩
/-! ## The claim on `canBePaused` -/

/-- C34: on an acyclic source graph of `n` traces, `canBePaused` returns (a recursion
depth above `n` is never used up), and it returns true exactly if the source of the
trace is Live, or its source is Math and a path of one or more source edges, each
starting at a Math trace, leads from it to a trace of source Live; for File and
Calibration traces it returns false. -/
theorem canBePaused_iff_live_reachable (M : Nat → Trace) (n : Nat) (hac : Acyclic M)
    (hw : GraphWithin M n) (fuel : Nat) (hfuel : n < fuel) (a : Nat) :
    ∃ r, canBePaused M fuel a = Except.ok r ∧
      (r = true ↔
        ((M a).source = Source.Live ∨
          ((M a).source = Source.Math ∧
            ∃ b, Relation.TransGen (MathEdge M) a b ∧ (M b).source = Source.Live))) ∧
      ((M a).source = Source.File ∨ (M a).source = Source.Calibration → r = false) := by
  obtain ⟨r, hr⟩ := canBePaused_returns M n hac hw fuel hfuel a
  have hiff : r = true ↔ ReachesLive M a := by
    cases r with
    | true => exact ⟨fun _ => canBePaused_true M fuel a hr, fun _ => rfl⟩
    | false =>
      exact ⟨fun h => Bool.noConfusion h, fun h => absurd h (canBePaused_false M fuel a hr)⟩
  refine ⟨r, hr, hiff.trans (reachesLive_iff M a), ?_⟩
  intro hsrc
  cases r with
  | false => rfl
  | true =>
    exfalso
    rcases (hiff.trans (reachesLive_iff M a)).mp rfl with hlive | ⟨hmath, _⟩
    · rcases hsrc with h | h <;> rw [hlive] at h <;> cases h
    · rcases hsrc with h | h <;> rw [hmath] at h <;> cases h

theorem canBePaused_iff_live_reachable_witness :
    (canBePaused pausableRow 4 0 = Except.ok true ∧
      canBePaused pausableRow 4 2 = Except.ok true ∧
      canBePaused pausableRow 4 3 = Except.ok false) ∧
    ∃ r, canBePaused pausableRow 4 0 = Except.ok r ∧
      (r = true ↔
        ((pausableRow 0).source = Source.Live ∨
          ((pausableRow 0).source = Source.Math ∧
            ∃ b, Relation.TransGen (MathEdge pausableRow) 0 b ∧
              (pausableRow b).source = Source.Live))) ∧
      ((pausableRow 0).source = Source.File ∨ (pausableRow 0).source = Source.Calibration →
        r = false) :=
  ⟨by decide,
    canBePaused_iff_live_reachable pausableRow 3 pausableRow_acyclic pausableRow_within 4
      (by decide) 0⟩
end LibreVNA
